import Mathlib

/-!
# Volume listings sorted by ID, and the reference storage driver

A shallow embedding of `api/utils/utils_sort.go` (the type `ByVolumeID`, its three
`sort.Interface` methods and `SortVolumeByID`), together with the parts of the
service that `drivers/storage/mock/tests/mock_test.go` exercises.

Conventions of the embedding:

* a Go `string` is its sequence of bytes, and `<` on strings is Go's byte-wise
  lexicographic comparison;
* a Go `int` index is an `Int`; indexing a slice outside `[0, len)` panics;
* a `*types.Volume` is `Option Volume`, `none` being the nil pointer; reading a field
  through a nil pointer panics;
* a computation that may panic returns `Option`, `none` being the panic;
* a slice is the list of its elements where only its content matters, the nil slice and
  the empty slice both being the empty list; where it matters that a slice is shared, it
  is a slice value (address, length, capacity) over a memory of cells;
* `sort.Sort` belongs to Go's standard library and not to this repository. It is a
  parameter of the embedding: a procedure that receives `data.Len()` and afterwards
  touches the data only through `data.Less` and `data.Swap`, constrained by the
  contract the library documents for it.
-/

namespace Libstorage

/-! ## Go strings -/

/-- A Go `string`: an immutable sequence of bytes. -/
abbrev GoString := List UInt8

/-- The bytes of a string literal, UTF-8 encoded as the Go compiler stores it. -/
def goStr (s : String) : GoString := s.toUTF8.data.toList

/-- Go's `<` on strings: the operands are compared byte by byte, the first difference
decides, and a proper prefix is smaller than the string it is a prefix of. -/
def strLess : GoString → GoString → Bool
  | [], [] => false
  | [], _ :: _ => true
  | _ :: _, [] => false
  | x :: xs, y :: ys => if x < y then true else if y < x then false else strLess xs ys

/-- Go's `<=` on strings. -/
def strLessEq (s t : GoString) : Bool := !strLess t s

/-! ## The data model -/

/-- A value stored under a key of `Opts`: a scalar, or a nested sequence or map. -/
inductive OptValue where
  | str : GoString → OptValue
  | num : Int → OptValue
  | bool : Bool → OptValue
  | seq : List OptValue → OptValue
  | map : List (GoString × OptValue) → OptValue

/-- Modelled from the spec: the record `types.Volume` of `api/types`, which is not among
the source files. The spec's data model gives its fields: ID, Name, AvailabilityZone,
IOPS, Size, Type and Opts, an ordered string-keyed map of opaque values. The field
`Type` is spelled `VolumeType` here. -/
structure Volume where
  ID : GoString
  Name : GoString
  AvailabilityZone : GoString
  IOPS : Int
  Size : Int
  VolumeType : GoString
  Opts : List (GoString × OptValue)

/-- The type `ByVolumeID []*types.Volume`: a slice of pointers to volumes. -/
abbrev ByVolumeID := List (Option Volume)

/-- The index expression `a[i]` on a slice: `none` is the index-out-of-range panic. -/
def sliceIndex {α : Type} (a : List α) (i : Int) : Option α :=
  if 0 ≤ i then a[i.toNat]? else none

/-- The assignment `a[i] = x` on a slice: `none` is the index-out-of-range panic. -/
def sliceAssign {α : Type} (a : List α) (i : Int) (x : α) : Option (List α) :=
  if 0 ≤ i ∧ i.toNat < a.length then some (a.set i.toNat x) else none

/-- The method `func (a ByVolumeID) Len() int { return len(a) }`. -/
def ByVolumeID.Len (a : ByVolumeID) : Int := a.length

/-- The method `func (a ByVolumeID) Swap(i, j int) { a[i], a[j] = a[j], a[i] }`: both
right-hand operands are read first, then the two assignments are carried out from left
to right. The result is the content of the backing array after the call. -/
def ByVolumeID.Swap (a : ByVolumeID) (i j : Int) : Option ByVolumeID := do
  let aj ← sliceIndex a j
  let ai ← sliceIndex a i
  let a1 ← sliceAssign a i aj
  sliceAssign a1 j ai

/-- The method `func (a ByVolumeID) Less(i, j int) bool { return a[i].ID < a[j].ID }`:
both elements are indexed and dereferenced, and their IDs compared as strings. -/
def ByVolumeID.Less (a : ByVolumeID) (i j : Int) : Option Bool := do
  let pi ← sliceIndex a i
  let vi ← pi
  let pj ← sliceIndex a j
  let vj ← pj
  pure (strLess vi.ID vj.ID)

/-! ## `sort.Interface` and `sort.Sort` -/

/-- Go's `sort.Interface`, over data whose state has type `σ`: `Len`, `Less` and `Swap`.
`Less` and `Swap` may panic, and `Swap` yields the state after the exchange. -/
structure Interface (σ : Type) where
  Len : σ → Int
  Less : σ → Int → Int → Option Bool
  Swap : σ → Int → Int → Option σ

/-- The three methods of `ByVolumeID`, as a `sort.Interface`. -/
def ByVolumeID.sortInterface : Interface ByVolumeID :=
  { Len := ByVolumeID.Len, Less := ByVolumeID.Less, Swap := ByVolumeID.Swap }

/-- What a sorting procedure does with data it sees only through `sort.Interface`:
it stops, or asks `Less(i, j)` and goes on according to the answer, or calls
`Swap(i, j)` and goes on. -/
inductive SortProg where
  | done : SortProg
  | less : Int → Int → (Bool → SortProg) → SortProg
  | swap : Int → Int → SortProg → SortProg

/-- Running a sorting procedure against an implementation of `sort.Interface`. -/
def SortProg.run {σ : Type} (I : Interface σ) : SortProg → σ → Option σ
  | .done, s => some s
  | .less i j k, s => (I.Less s i j).bind (fun b => (k b).run I s)
  | .swap i j k, s => (I.Swap s i j).bind (fun s1 => k.run I s1)

/-- An implementation of `sort.Sort`: it calls `data.Len()` once and chooses, from the
length, the procedure it runs. -/
abbrev SortImpl := Int → SortProg

/-- The call `sort.Sort(data)`. -/
def sortSort {σ : Type} (S : SortImpl) (I : Interface σ) (data : σ) : Option σ :=
  (S (I.Len data)).run I data

/-- The function
`func SortVolumeByID(volumes []*types.Volume) []*types.Volume { sort.Sort(ByVolumeID(volumes)); return volumes }`.
The conversion `ByVolumeID(volumes)` shares the backing array of `volumes`, so the
slice returned holds what the sort left there. -/
def SortVolumeByID (S : SortImpl) (volumes : List (Option Volume)) :
    Option (List (Option Volume)) := do
  let sorted ← sortSort S ByVolumeID.sortInterface volumes
  return sorted

/-! ## The contract of `sort.Sort` -/

/-- A slice whose elements are ordered by `lt`, as a `sort.Interface`: `Len` is `len`,
`Less(i, j)` compares the elements at `i` and `j`, `Swap(i, j)` exchanges them. -/
def sliceInterface {α : Type} (lt : α → α → Bool) : Interface (List α) :=
  { Len := fun a => a.length
    Less := fun a i j => do
      let x ← sliceIndex a i
      let y ← sliceIndex a j
      pure (lt x y)
    Swap := fun a i j => do
      let aj ← sliceIndex a j
      let ai ← sliceIndex a i
      let a1 ← sliceAssign a i aj
      sliceAssign a1 j ai }

/-- The ordering `sort.Sort` expects of `Less`: no element sorts before itself, and both
"sorts before" and "does not sort before" are transitive. -/
structure StrictWeakOrder {α : Type} (lt : α → α → Bool) : Prop where
  irrefl : ∀ x, lt x x = false
  trans : ∀ x y z, lt x y = true → lt y z = true → lt x z = true
  negTrans : ∀ x y z, lt x y = false → lt y z = false → lt x z = false

/-- The documented contract of `sort.Sort`: "Sort sorts data in ascending order as
determined by the Less method". On every slice whose `Less` is such an ordering the
call returns, and afterwards no element sorts before an element that precedes it.
Stability is not part of the contract ("The sort is not guaranteed to be stable"). -/
def SortContract (S : SortImpl) : Prop :=
  ∀ (α : Type) (lt : α → α → Bool), StrictWeakOrder lt → ∀ xs : List α,
    ∃ ys, sortSort S (sliceInterface lt) xs = some ys ∧
      ys.Pairwise (fun x y => lt y x = false)

/-! ## Insertion sort, the library's procedure for short slices -/

/-- The inner loop of the library's `insertionSort(data, a, b)`,
`for j := i; j > a && data.Less(j, j-1); j-- { data.Swap(j, j-1) }`, entered with
`j = a + d` and followed by `k`. -/
def insertionLoop (a : Int) : Nat → SortProg → SortProg
  | 0, k => k
  | d + 1, k =>
    .less (a + (d + 1 : Nat)) (a + (d + 1 : Nat) - 1) (fun b =>
      if b then .swap (a + (d + 1 : Nat)) (a + (d + 1 : Nat) - 1) (insertionLoop a d k) else k)

/-- The outer loop of `insertionSort(data, a, b)`, `for i := a + 1; i < b; i++`, entered
with `i = a + d` and `r` iterations to go. -/
def insertionFrom (a : Int) : Nat → Nat → SortProg
  | _, 0 => .done
  | d, r + 1 => insertionLoop a d (insertionFrom a (d + 1) r)

/-- The library's `insertionSort(data, a, b)`. -/
def insertionSort (a b : Int) : SortProg :=
  insertionFrom a 1 ((b - a).toNat - 1)

/-- An implementation of `sort.Sort` that sorts the whole slice by insertion, as the
library does for a short slice: `insertionSort(data, 0, n)`. -/
def insertionSortImpl : SortImpl := fun n => insertionSort 0 n

/-! ## Heap sort, the library's fallback procedure -/

/-- The loop of the library's `siftDown(data, lo, hi, first)`, entered with `root` and
followed by `k`:
`child := 2*root + 1; if child >= hi { return };`
`if child+1 < hi && data.Less(first+child, first+child+1) { child++ };`
`if !data.Less(first+root, first+child) { return };`
`data.Swap(first+root, first+child); root = child`.
The loop variables are never negative and are kept as natural numbers; each round at
least doubles `root`, so `hi` rounds are more than the loop can take. -/
def siftDownLoop (hi : Nat) (first : Int) (k : SortProg) : Nat → Nat → SortProg
  | 0, _ => k
  | fuel + 1, root =>
    if hi ≤ 2 * root + 1 then k
    else if 2 * root + 2 < hi then
      .less (first + (2 * root + 1 : Nat)) (first + (2 * root + 2 : Nat)) (fun b =>
        .less (first + root) (first + ((if b then 2 * root + 2 else 2 * root + 1 : Nat) : Int))
          (fun c =>
            if c then
              .swap (first + root)
                (first + ((if b then 2 * root + 2 else 2 * root + 1 : Nat) : Int))
                (siftDownLoop hi first k fuel (if b then 2 * root + 2 else 2 * root + 1))
            else k))
    else
      .less (first + root) (first + (2 * root + 1 : Nat)) (fun c =>
        if c then
          .swap (first + root) (first + (2 * root + 1 : Nat))
            (siftDownLoop hi first k fuel (2 * root + 1))
        else k)

/-- The first loop of the library's `heapSort`, "build heap with greatest element at
top": `for i := (hi - 1) / 2; i >= 0; i-- { siftDown(data, i, hi, first) }`, with `n`
rounds to go, the next one at `i = n - 1`, followed by `k`. -/
def heapBuild (hi : Nat) (first : Int) (k : SortProg) : Nat → SortProg
  | 0 => k
  | i + 1 => siftDownLoop hi first (heapBuild hi first k i) hi i

/-- The second loop of the library's `heapSort`, "pop elements, largest first, into end
of data": `for i := hi - 1; i >= 0; i-- { data.Swap(first, first+i); siftDown(data, lo, i, first) }`
with `lo = 0`, and `n` rounds to go, the next one at `i = n - 1`. -/
def heapPop (first : Int) : Nat → SortProg
  | 0 => .done
  | i + 1 => .swap first (first + i) (siftDownLoop i first (heapPop first i) i 0)

/-- The library's `heapSort(data, a, b)`, with `first := a; lo := 0; hi := b - a`. The
first loop starts at `(hi - 1) / 2`, which in Go is `0` for an empty range. -/
def heapSort (a b : Int) : SortProg :=
  heapBuild (b - a).toNat a (heapPop a (b - a).toNat) (((b - a).toNat - 1) / 2 + 1)

/-- A procedure that meets the contract of `sort.Sort` without being the library's
`Sort`: the library's heap sort applied to the whole slice, `heapSort(data, 0, n)`. Its
order of equal elements differs from that of insertion sort. -/
def heapSortImpl : SortImpl := fun n => heapSort 0 n

/-- The slice with the elements at `i` and `j` exchanged (unchanged when an index is
out of range). -/
def swapAt {α : Type} (xs : List α) (i j : Nat) : List α :=
  match xs[i]?, xs[j]? with
  | some x, some y => (xs.set i y).set j x
  | _, _ => xs

/-- The element `a` is not below the element `b`, where both are present. -/
def NotBelow {α : Type} (lt : α → α → Bool) (a b : Option α) : Prop :=
  ∀ x y, a = some x → b = some y → lt x y = false

/-- The heap property on the nodes from `lo` on, within `[0, hi)`: no node is below
either of its children. -/
def HeapFrom {α : Type} (lt : α → α → Bool) (xs : List α) (lo hi : Nat) : Prop :=
  ∀ i c, lo ≤ i → (c = 2 * i + 1 ∨ c = 2 * i + 2) → c < hi → NotBelow lt xs[i]? xs[c]?

/-- The heap property on the nodes from `lo` on, except at the node `r` that is being
sifted down: every other node is not below its children, and the parent of `r` is not
below the children of `r`. -/
def HeapExcept {α : Type} (lt : α → α → Bool) (xs : List α) (lo r hi : Nat) : Prop :=
  (∀ i c, lo ≤ i → i ≠ r → (c = 2 * i + 1 ∨ c = 2 * i + 2) → c < hi →
    NotBelow lt xs[i]? xs[c]?) ∧
  (∀ i c, lo ≤ i → (r = 2 * i + 1 ∨ r = 2 * i + 2) → (c = 2 * r + 1 ∨ c = 2 * r + 2) →
    c < hi → NotBelow lt xs[i]? xs[c]?)

/-- From position `i` on, every element is in its final place: it is not below any
element before it. -/
def SortedFrom {α : Type} (lt : α → α → Bool) (xs : List α) (i : Nat) : Prop :=
  ∀ p q, p < q → i ≤ q → NotBelow lt xs[q]? xs[p]?

/-- The order `ByVolumeID.Less` puts on two volumes: that of their IDs. -/
def volumeLess (v w : Volume) : Bool := strLess v.ID w.ID

/-- Inserting `x` into a list that is read from right to left: `x` moves left past every
element that it sorts before, as the inner loop of insertion sort moves it. The list is
held reversed, nearest element first. -/
def insertLeftward {α : Type} (lt : α → α → Bool) (x : α) : List α → List α
  | [] => [x]
  | y :: ys => if lt x y then y :: insertLeftward lt x ys else x :: y :: ys

/-- A slice holds no nil pointer. -/
def NoNil (a : List (Option Volume)) : Prop := ∀ p ∈ a, p ≠ none

/-- The sequence of IDs read off a slice, position by position (`none` at a nil
pointer). -/
def idSequence (a : List (Option Volume)) : List (Option GoString) :=
  a.map (fun p => p.map Volume.ID)

/-- The IDs of the volumes of a slice are pairwise distinct. -/
def DistinctIDs (a : List (Option Volume)) : Prop := (idSequence a).Nodup

/-- A volume named after its ID, with no further attributes: sample data. -/
def sampleVolume (id name : String) : Volume :=
  { ID := goStr id, Name := goStr name, AvailabilityZone := [], IOPS := 0, Size := 0,
    VolumeType := [], Opts := [] }

/-- A listing of three volumes in the order a driver might hold them: sample data. -/
def sampleListing : List (Option Volume) :=
  [some (sampleVolume "vol-2" "two"), some (sampleVolume "vol-10" "ten"),
   some (sampleVolume "vol-1" "one")]

/-- The same three volumes in another order: sample data. -/
def sampleListingShuffled : List (Option Volume) :=
  [some (sampleVolume "vol-1" "one"), some (sampleVolume "vol-2" "two"),
   some (sampleVolume "vol-10" "ten")]

/-! ## The library's `Sort` before Go 1.19

`sort.Sort` as the Go releases 1.6 to 1.18 ship it, the library of the years in which
`SortVolumeByID` was written: a quicksort that gives up to heap sort when it recurses too
deep and finishes ranges of at most 12 elements by insertion. The Go 1.6 release notes
say of it that it "does choose a different ordering than before for values that compare
equal". The procedures follow the library's `sort.go`; as with heap sort above, loop
variables that are never negative are natural numbers, and every loop gets as many
rounds as the range has elements, which is more than it can take. -/

/-- A procedure followed by another one. -/
def SortProg.andThen : SortProg → SortProg → SortProg
  | .done, k => k
  | .less i j f, k => .less i j (fun b => (f b).andThen k)
  | .swap i j p, k => .swap i j (p.andThen k)

/-- The library's `medianOfThree(data, m1, m0, m2)`, which "moves the median of the three
values data[m0], data[m1], data[m2] into data[m1]", followed by `k`:
`if data.Less(m1, m0) { data.Swap(m1, m0) };`
`if data.Less(m2, m1) { data.Swap(m2, m1); if data.Less(m1, m0) { data.Swap(m1, m0) } }`. -/
def medianOfThree (m1 m0 m2 : Nat) (k : SortProg) : SortProg :=
  .less m1 m0 (fun r1 =>
    (fun rest : SortProg => if r1 then .swap m1 m0 rest else rest)
      (.less m2 m1 (fun r2 =>
        if r2 then
          .swap m2 m1 (.less m1 m0 (fun r3 => if r3 then .swap m1 m0 k else k))
        else k)))

/-- In `doPivot`: `for ; a < c && data.Less(a, pivot); a++ { }`, then `k` with the final
`a`. -/
def pivotScanBelow (pivot c : Nat) (k : Nat → SortProg) : Nat → Nat → SortProg
  | 0, a => k a
  | fuel + 1, a =>
    if a < c then
      .less a pivot (fun r => if r then pivotScanBelow pivot c k fuel (a + 1) else k a)
    else k a

/-- In `doPivot`: `for ; b < c && !data.Less(pivot, b); b++ { }`, then `k` with the final
`b`. -/
def pivotScanNotAbove (pivot c : Nat) (k : Nat → SortProg) : Nat → Nat → SortProg
  | 0, b => k b
  | fuel + 1, b =>
    if b < c then
      .less pivot b (fun r => if r then k b else pivotScanNotAbove pivot c k fuel (b + 1))
    else k b

/-- In `doPivot`: `for ; b < c && data.Less(pivot, c-1); c-- { }`, then `k` with the final
`c`. -/
def pivotScanAbove (pivot b : Nat) (k : Nat → SortProg) : Nat → Nat → SortProg
  | 0, c => k c
  | fuel + 1, c =>
    if b < c then
      .less pivot (c - 1 : Nat) (fun r =>
        if r then pivotScanAbove pivot b k fuel (c - 1) else k c)
    else k c

/-- In `doPivot`, the partitioning loop, then `k` with the final `b` and `c`:
`for { for ; b < c && !data.Less(pivot, b); b++ { };`
`for ; b < c && data.Less(pivot, c-1); c-- { };`
`if b >= c { break }; data.Swap(b, c-1); b++; c-- }`. -/
def pivotPartition (pivot n : Nat) (k : Nat → Nat → SortProg) : Nat → Nat → Nat → SortProg
  | 0, b, c => k b c
  | fuel + 1, b, c =>
    pivotScanNotAbove pivot c (fun b1 =>
      pivotScanAbove pivot b1 (fun c1 =>
        if b1 ≥ c1 then k b1 c1
        else .swap b1 (c1 - 1 : Nat) (pivotPartition pivot n k fuel (b1 + 1) (c1 - 1))) n c) n b

/-- In `doPivot`: `for ; a < b && !data.Less(b-1, pivot); b-- { }`, then `k` with the
final `b`. -/
def pivotScanEqual (pivot a : Nat) (k : Nat → SortProg) : Nat → Nat → SortProg
  | 0, b => k b
  | fuel + 1, b =>
    if a < b then
      .less (b - 1 : Nat) pivot (fun r =>
        if r then k b else pivotScanEqual pivot a k fuel (b - 1))
    else k b

/-- In `doPivot`, the loop that protects "against a lot of duplicates", then `k` with
the final `b`:
`for { for ; a < b && !data.Less(b-1, pivot); b-- { };`
`for ; a < b && data.Less(a, pivot); a++ { };`
`if a >= b { break }; data.Swap(a, b-1); a++; b-- }`. -/
def pivotProtect (pivot n : Nat) (k : Nat → SortProg) : Nat → Nat → Nat → SortProg
  | 0, _, b => k b
  | fuel + 1, a, b =>
    pivotScanEqual pivot a (fun b1 =>
      pivotScanBelow pivot b1 (fun a1 =>
        if a1 ≥ b1 then k b1
        else .swap a1 (b1 - 1 : Nat) (pivotProtect pivot n k fuel (a1 + 1) (b1 - 1))) n a) n b

/-- In `doPivot`, the test of "some points for equality to pivot", then `k` with the
new `b` and `c` and whether `dups > 1`:
`dups := 0;`
`if !data.Less(pivot, hi-1) { data.Swap(c, hi-1); c++; dups++ };`
`if !data.Less(b-1, pivot) { b--; dups++ };`
`if !data.Less(m, pivot) { data.Swap(m, b-1); b--; dups++ }`. -/
def pivotDups (pivot m hi b c : Nat) (k : Nat → Nat → Bool → SortProg) : SortProg :=
  .less pivot (hi - 1 : Nat) (fun r1 =>
    (fun rest : SortProg => if r1 then rest else .swap c (hi - 1 : Nat) rest)
      (.less (b - 1 : Nat) pivot (fun r2 =>
        .less m pivot (fun r3 =>
          if r3 then
            k (if r2 then b else b - 1) (if r1 then c else c + 1)
              (decide ((if r1 then 0 else 1) + (if r2 then 0 else 1) > 1))
          else
            .swap m ((if r2 then b else b - 1) - 1 : Nat)
              (k ((if r2 then b else b - 1) - 1) (if r1 then c else c + 1)
                (decide ((if r1 then 0 else 1) + (if r2 then 0 else 1) + 1 > 1)))))))

/-- The end of `doPivot`, from the protection against duplicates on, then `k` with the
two results: `if protect { ... }; data.Swap(pivot, b-1); return b - 1, c`. -/
def pivotFinish (pivot n a b c : Nat) (protect : Bool) (k : Nat → Nat → SortProg) :
    SortProg :=
  if protect then
    pivotProtect pivot n (fun b1 => .swap pivot (b1 - 1 : Nat) (k (b1 - 1) c)) n a b
  else .swap pivot (b - 1 : Nat) (k (b - 1) c)

/-- The part of `doPivot` after the pivot is chosen, then `k` with the two results:
`pivot := lo; a, c := lo+1, hi-1;`
`for ; a < c && data.Less(a, pivot); a++ { }; b := a;` the partitioning loop;
`protect := hi-c < 5; if !protect && hi-c < (hi-lo)/4 { ...; protect = dups > 1 }`;
and the end. -/
def pivotSplit (lo hi m : Nat) (k : Nat → Nat → SortProg) : SortProg :=
  pivotScanBelow lo (hi - 1) (fun a =>
    pivotPartition lo (hi - lo) (fun b c =>
      if hi - c < 5 then pivotFinish lo (hi - lo) a b c true k
      else if hi - c < (hi - lo) / 4 then
        pivotDups lo m hi b c (fun b1 c1 protect =>
          pivotFinish lo (hi - lo) a b1 c1 protect k)
      else pivotFinish lo (hi - lo) a b c false k) (hi - lo) a (hi - 1)) (hi - lo) (lo + 1)

/-- The library's `doPivot(data, lo, hi)`, then `k` with its results `midlo`, `midhi`:
`m := int(uint(lo+hi) >> 1);`
`if hi-lo > 40 { s := (hi - lo) / 8; medianOfThree(data, lo, lo+s, lo+2*s);`
`medianOfThree(data, m, m-s, m+s); medianOfThree(data, hi-1, hi-1-s, hi-1-2*s) };`
`medianOfThree(data, lo, m, hi-1)`, and the part after the choice of the pivot. -/
def doPivot (lo hi : Nat) (k : Nat → Nat → SortProg) : SortProg :=
  (fun (m s : Nat) =>
    (fun rest : SortProg =>
      if hi - lo > 40 then
        medianOfThree lo (lo + s) (lo + 2 * s)
          (medianOfThree m (m - s) (m + s)
            (medianOfThree (hi - 1) (hi - 1 - s) (hi - 1 - 2 * s) rest))
      else rest)
      (medianOfThree lo m (hi - 1) (pivotSplit lo hi m k)))
    ((lo + hi) / 2) ((hi - lo) / 8)

/-- In `quickSort`, the "ShellSort pass with gap 6", then `k`:
`for i := a + 6; i < b; i++ { if data.Less(i, i-6) { data.Swap(i, i-6) } }`. -/
def shellPass (b : Nat) (k : SortProg) : Nat → Nat → SortProg
  | 0, _ => k
  | fuel + 1, i =>
    if i < b then
      .less i (i - 6 : Nat) (fun r =>
        if r then .swap i (i - 6 : Nat) (shellPass b k fuel (i + 1))
        else shellPass b k fuel (i + 1))
    else k

/-- The library's `quickSort(data, a, b, maxDepth)`, then `k`:
`for b-a > 12 { if maxDepth == 0 { heapSort(data, a, b); return }; maxDepth--;`
`mlo, mhi := doPivot(data, a, b);`
`if mlo-a < b-mhi { quickSort(data, a, mlo, maxDepth); a = mhi }`
`else { quickSort(data, mhi, b, maxDepth); b = mlo } };`
`if b-a > 1 {` the shell pass `; insertionSort(data, a, b) }`.
Going round the loop with `a = mhi` or `b = mlo` is the call of `quickSort` on that
range with the `maxDepth` that is left. -/
def quickSort : Nat → Nat → Nat → SortProg → SortProg
  | 0, a, b, k =>
    if b - a > 12 then (heapSort a b).andThen k
    else if b - a > 1 then shellPass b ((insertionSort a b).andThen k) (b - a) (a + 6)
    else k
  | maxDepth + 1, a, b, k =>
    if b - a > 12 then
      doPivot a b (fun mlo mhi =>
        if mlo - a < b - mhi then
          quickSort maxDepth a mlo (quickSort maxDepth mhi b k)
        else
          quickSort maxDepth mhi b (quickSort maxDepth a mlo k))
    else if b - a > 1 then shellPass b ((insertionSort a b).andThen k) (b - a) (a + 6)
    else k

/-- The loop of the library's `maxDepth(n)`, `for i := n; i > 0; i >>= 1 { depth++ }`:
the number of rounds it makes from `i` on. -/
def maxDepthLoop : Nat → Nat → Nat
  | 0, _ => 0
  | fuel + 1, i => if i > 0 then maxDepthLoop fuel (i / 2) + 1 else 0

/-- The library's `maxDepth(n)`, which "returns 2*ceil(lg(n+1))":
`var depth int; for i := n; i > 0; i >>= 1 { depth++ }; return depth * 2`. -/
def maxDepth (n : Nat) : Nat := 2 * maxDepthLoop n n

/-- The library's `Sort(data)`: `n := data.Len(); quickSort(data, 0, n, maxDepth(n))`. -/
def librarySort : SortImpl := fun n => quickSort (maxDepth n.toNat) 0 n.toNat .done

/-! ## Ranges of a slice

What the procedures of the library's `Sort` do to a range `[a, b)` of the slice, in the
terms in which `sort.go` states its invariants. -/

/-- The procedure `p` with every index moved up by `a`: the procedure for `data[a:]`,
run on `data`. -/
def SortProg.shift (a : Int) : SortProg → SortProg
  | .done => .done
  | .less i j f => .less (a + i) (a + j) (fun b => (f b).shift a)
  | .swap i j p => .swap (a + i) (a + j) (p.shift a)

/-- The range `[a, b)` of the slice is in ascending order: no element of it sorts before
an element of it that precedes it. -/
def SortedRange {α : Type} (lt : α → α → Bool) (xs : List α) (a b : Nat) : Prop :=
  ∀ p q, a ≤ p → p < q → q < b → NotBelow lt xs[q]? xs[p]?

/-- The slice `ys` is the slice `xs` changed within `[a, b)` only: outside the range it
is `xs`, and every element in the range of `ys` is an element of the range of `xs`. -/
def Within {α : Type} (a b : Nat) (xs ys : List α) : Prop :=
  ys.length = xs.length ∧ (∀ i, (i < a ∨ b ≤ i) → ys[i]? = xs[i]?) ∧
  (∀ i, a ≤ i → i < b → ∃ j, a ≤ j ∧ j < b ∧ xs[j]? = ys[i]?)

/-- The comparison `lt` on two elements read from a slice (`false` where one is out of
range). -/
def optLess {α : Type} (lt : α → α → Bool) (a b : Option α) : Bool :=
  match a, b with
  | some x, some y => lt x y
  | _, _ => false

/-- Every element of the range `[a, b)` of the slice satisfies `P`. -/
def RangeAll {α : Type} (P : Option α → Prop) (xs : List α) (a b : Nat) : Prop :=
  ∀ i, a ≤ i → i < b → P xs[i]?

/-! ## The service, as the tests of the reference driver exercise it

The driver, the service registry and the executor registry are not among the source
files; only their tests are. The definitions of this section follow the spec. -/

/-- Modelled from the spec: the error envelope, "{Status (integer,
HTTP-status-equivalent), Message (human-readable)}", the type `types.JSONError` that
the tests name. -/
structure JSONError where
  Status : Int
  Message : GoString
  deriving DecidableEq

/-- Modelled from the spec: the envelope of NotFound, "status 404, message
"resource not found"". -/
def errNotFound : JSONError := { Status := 404, Message := goStr "resource not found" }

/-- Modelled from the spec: the state of one driver instance, here the volumes it holds,
whose IDs are "unique within a driver's namespace". -/
structure DriverState where
  volumes : List Volume

/-- Modelled from the spec: whether a volume with this ID exists in the driver. -/
def DriverState.hasVolume (st : DriverState) (id : GoString) : Bool :=
  st.volumes.any (fun v => decide (v.ID = id))

/-- Modelled from the spec: the driver's `VolumeRemove(id)`, "target ID must exist; first
call succeeds and transitions the resource to absent; any subsequent call on the same
ID fails with NotFound (status 404)". -/
def DriverState.VolumeRemove (st : DriverState) (id : GoString) :
    Except JSONError DriverState :=
  if st.hasVolume id then
    .ok { volumes := st.volumes.filter (fun v => !decide (v.ID = id)) }
  else
    .error errNotFound

/-- Modelled from the spec: the request of `VolumeCreate`, with the attributes the
scenario of the spec passes: Name, AvailabilityZone, IOPS, Size, Type and Opts. -/
structure VolumeCreateRequest where
  Name : GoString
  AvailabilityZone : GoString
  IOPS : Int
  Size : Int
  VolumeType : GoString
  Opts : List (GoString × OptValue)

/-- The ID with number `n`, in the form of the IDs of the fixtures: "vol-000",
"vol-001", and so on. -/
def volumeID (n : Nat) : GoString :=
  let digits := (Nat.toDigits 10 n).map (fun c => c.toNat.toUInt8)
  goStr "vol-" ++ List.replicate (3 - digits.length) 48 ++ digits

/-- Modelled from the spec: "allocates a fresh ID". The first ID of the sequence
"vol-000", "vol-001", ... that no volume of the driver bears, looked for among the
first `len + 1` of them. -/
def DriverState.freshID (st : DriverState) : GoString :=
  match (List.range (st.volumes.length + 1)).find? (fun n => !st.hasVolume (volumeID n)) with
  | some n => volumeID n
  | none => volumeID (st.volumes.length + 1)

/-- Modelled from the spec: the driver's `VolumeCreate(req)`, which "allocates a fresh
ID; stores Name, AvailabilityZone, IOPS, Size, Type verbatim; stores Opts verbatim". It
yields the new state and the volume created. -/
def DriverState.VolumeCreate (st : DriverState) (req : VolumeCreateRequest) :
    DriverState × Volume :=
  let v : Volume :=
    { ID := st.freshID, Name := req.Name, AvailabilityZone := req.AvailabilityZone,
      IOPS := req.IOPS, Size := req.Size, VolumeType := req.VolumeType, Opts := req.Opts }
  ({ volumes := st.volumes ++ [v] }, v)

/-- Modelled from the spec: a service, "{Name (unique, string), DriverName,
DriverOptions}", together with the state of the driver instance bound to it. -/
structure Service where
  Name : GoString
  DriverName : GoString
  State : DriverState

/-- Modelled from the spec: what `ServicesList` and `ServiceInspect` tell of a service. -/
structure ServiceInfo where
  Name : GoString
  DriverName : GoString
  deriving DecidableEq

/-- Modelled from the spec: the configuration, "top-level `driver` selects a default
backend; `server.services.<name>` declares additional named services". -/
structure Config where
  driver : GoString
  services : List GoString

/-- Modelled from the spec: the fixture the reference driver seeds, a volume "vol-000"
in zone "zone-000". -/
def mockSeed : DriverState :=
  { volumes := [{ ID := goStr "vol-000", Name := goStr "Volume 0",
                  AvailabilityZone := goStr "zone-000", IOPS := 0, Size := 0,
                  VolumeType := [], Opts := [] }] }

/-- Modelled from the spec: the service registry built at configuration load. The
default driver gives a service of its own name, each name under `server.services` a
further one, and every service is bound to its own instance of the driver. -/
def newRegistry (c : Config) : List Service :=
  (c.driver :: c.services).dedup.map
    (fun n => { Name := n, DriverName := c.driver, State := mockSeed })

/-- Modelled from the spec: `ServicesList() -> mapping name→ServiceInfo`, the mapping as
the list of its entries. -/
def ServicesList (reg : List Service) : List (GoString × ServiceInfo) :=
  reg.map (fun sv => (sv.Name, { Name := sv.Name, DriverName := sv.DriverName }))

/-- Modelled from the spec: resolving a service name to its service. -/
def findService (reg : List Service) (name : GoString) : Option Service :=
  reg.find? (fun sv => decide (sv.Name = name))

/-- Modelled from the spec: `VolumeCreate` through the registry, which "requires an
existing Service": an unregistered name fails with NotFound, otherwise the driver of
the service creates the volume. The state after the call replaces the service's. -/
def VolumeCreate (reg : List Service) (service : GoString) (req : VolumeCreateRequest) :
    Except JSONError (List Service × Volume) :=
  match findService reg service with
  | none => .error errNotFound
  | some sv =>
    let (st, v) := sv.State.VolumeCreate req
    .ok (reg.map (fun s => if s.Name = service then { s with State := st } else s), v)

/-- Modelled from the spec: an executor, "{Name (platform-qualified), Size, Checksum,
Content (binary payload, fetched lazily)}". -/
structure Executor where
  Name : GoString
  Size : Int
  Checksum : GoString
  Content : List UInt8

/-- Modelled from the spec: the reply to a probe, {Size, Checksum}, with the payload
when it was asked for. -/
structure ExecutorInfo where
  Size : Int
  Checksum : GoString
  Content : Option (List UInt8)
  deriving DecidableEq

/-- Modelled from the spec: the failures of the executor protocol. -/
inductive ExecutorError where
  | ExecutorNotFound : ExecutorError
  | ChecksumMismatch : ExecutorError
  deriving DecidableEq

/-- Modelled from the spec: the names of the three platform variants, "lsx-linux",
"lsx-darwin", "lsx-windows.exe". -/
def executorNames : List GoString :=
  [goStr "lsx-linux", goStr "lsx-darwin", goStr "lsx-windows.exe"]

/-- Modelled from the spec: `ExecutorInfoInspect(name, fetchContent)`, which "returns
{Size, Checksum} without the payload, or fails with ExecutorNotFound if `name` is not
a registered platform variant"; selection "is exact-match on platform name". -/
def ExecutorInfoInspect (reg : List Executor) (name : GoString) (fetchContent : Bool) :
    Except ExecutorError ExecutorInfo :=
  match reg.find? (fun e => decide (e.Name = name)) with
  | some e =>
    .ok { Size := e.Size, Checksum := e.Checksum,
          Content := if fetchContent then some e.Content else none }
  | none => .error .ExecutorNotFound

/-- The MD5 checksum of the empty payload, in hexadecimal: sample data. -/
def emptyChecksum : GoString := goStr "d41d8cd98f00b204e9800998ecf8427e"

/-- An executor registry that holds the three platform variants with one and the same
empty payload: sample data. -/
def sharedExecutors : List Executor :=
  [{ Name := goStr "lsx-linux", Size := 0, Checksum := emptyChecksum, Content := [] },
   { Name := goStr "lsx-darwin", Size := 0, Checksum := emptyChecksum, Content := [] },
   { Name := goStr "lsx-windows.exe", Size := 0, Checksum := emptyChecksum, Content := [] }]

/-- The configuration of the tests: `driver: mock` and the services `mock2` and `mock3`
under `server.services`. -/
def configYAML : Config :=
  { driver := goStr "mock", services := [goStr "mock2", goStr "mock3"] }

/-- The request of `TestVolumeCreate`. -/
def volumeCreateRequest : VolumeCreateRequest :=
  { Name := goStr "Volume 001", AvailabilityZone := goStr "US", IOPS := 1000, Size := 10240,
    VolumeType := goStr "myType",
    Opts := [(goStr "priority", .num 2), (goStr "owner", .str (goStr "root@example.com"))] }

/-- An executor registry with the three platform variants, each with a payload of its
own: sample data. -/
def sampleExecutors : List Executor :=
  [{ Name := goStr "lsx-linux", Size := 3, Checksum := goStr "c-linux", Content := [1, 2, 3] },
   { Name := goStr "lsx-darwin", Size := 2, Checksum := goStr "c-darwin", Content := [4, 5] },
   { Name := goStr "lsx-windows.exe", Size := 4, Checksum := goStr "c-windows",
     Content := [6, 7, 8, 9] }]

/-- Two volumes that bear the same ID, as the volume "vol-000" seeded in the driver
instance of each service does, and differ in their names: sample data. -/
def twinListing : List (Option Volume) :=
  [some (sampleVolume "vol-000" "of service mock"),
   some (sampleVolume "vol-000" "of service mock2")]

/-- The two volumes of `twinListing` in the other order: sample data. -/
def twinListingSwapped : List (Option Volume) :=
  [some (sampleVolume "vol-000" "of service mock2"),
   some (sampleVolume "vol-000" "of service mock")]

/-- The index pairs a procedure passes to `Less` and `Swap`, in the order of the calls,
up to the end of the run or to the call that panics. -/
def SortProg.calls {σ : Type} (I : Interface σ) : SortProg → σ → List (Int × Int)
  | .done, _ => []
  | .less i j k, s =>
    (i, j) :: (match I.Less s i j with
      | some b => (k b).calls I s
      | none => [])
  | .swap i j k, s =>
    (i, j) :: (match I.Swap s i j with
      | some s1 => k.calls I s1
      | none => [])

/-- The index pairs that `sort.Sort(ByVolumeID(volumes))` passes to `ByVolumeID.Less` and
`ByVolumeID.Swap` in the course of `SortVolumeByID(volumes)`. -/
def sortCalls (S : SortImpl) (volumes : List (Option Volume)) : List (Int × Int) :=
  (S (ByVolumeID.Len volumes)).calls ByVolumeID.sortInterface volumes

/-! ## The slice in memory

`SortVolumeByID` above yields the content of the slice after the call. The definitions
of this section keep the memory the slice lives in, so that what the caller's slice
holds after the call can be told from what the function returns. -/

/-- The memory that holds the elements of slices of `*types.Volume`: the pointer stored
in each cell, by the address of the cell. -/
abbrev Memory := Nat → Option Volume

/-- A Go slice value: the address of its first element, its length and its capacity.
Passing a slice to a function, converting it to `ByVolumeID` and returning it copy
these three words and never the elements. -/
structure SliceHeader where
  data : Nat
  len : Nat
  cap : Nat

/-- The sequence of elements a slice holds in a memory. -/
def SliceHeader.read (sl : SliceHeader) (mem : Memory) : List (Option Volume) :=
  (List.range sl.len).map (fun n => mem (sl.data + n))

/-- The index expression `a[i]` on a slice in memory: `none` is the index-out-of-range
panic. -/
def memIndex (mem : Memory) (a : SliceHeader) (i : Int) : Option (Option Volume) :=
  if 0 ≤ i ∧ i.toNat < a.len then some (mem (a.data + i.toNat)) else none

/-- The assignment `a[i] = x` on a slice in memory, which writes one cell: `none` is the
index-out-of-range panic. -/
def memAssign (mem : Memory) (a : SliceHeader) (i : Int) (x : Option Volume) :
    Option Memory :=
  if 0 ≤ i ∧ i.toNat < a.len then some (Function.update mem (a.data + i.toNat) x) else none

/-- The method `Len` of `ByVolumeID`, on the slice value `a`: `len(a)`. -/
def InPlace.Len (a : SliceHeader) : Int := a.len

/-- The method `Swap` of `ByVolumeID`, on the slice value `a` in memory:
`a[i], a[j] = a[j], a[i]`. -/
def InPlace.Swap (a : SliceHeader) (mem : Memory) (i j : Int) : Option Memory := do
  let aj ← memIndex mem a j
  let ai ← memIndex mem a i
  let mem1 ← memAssign mem a i aj
  memAssign mem1 a j ai

/-- The method `Less` of `ByVolumeID`, on the slice value `a` in memory:
`a[i].ID < a[j].ID`. -/
def InPlace.Less (a : SliceHeader) (mem : Memory) (i j : Int) : Option Bool := do
  let pi ← memIndex mem a i
  let vi ← pi
  let pj ← memIndex mem a j
  let vj ← pj
  pure (strLess vi.ID vj.ID)

/-- The value `ByVolumeID(volumes)` as a `sort.Interface`: the conversion keeps the slice
value, and the methods work on the memory the slice points into. -/
def InPlace.sortInterface (a : SliceHeader) : Interface Memory :=
  { Len := fun _ => InPlace.Len a, Less := InPlace.Less a, Swap := InPlace.Swap a }

/-- The function `SortVolumeByID` on a slice in memory: `sort.Sort(ByVolumeID(volumes))`
changes the memory, and `return volumes` hands back the slice value it was given. -/
def InPlace.SortVolumeByID (S : SortImpl) (mem : Memory) (volumes : SliceHeader) :
    Option (Memory × SliceHeader) := do
  let mem1 ← sortSort S (InPlace.sortInterface volumes) mem
  return (mem1, volumes)

/-- A memory that holds the three volumes of `sampleListing` from address 16 on: sample
data. -/
def sampleMemory : Memory :=
  fun addr => if 16 ≤ addr then (sampleListing[addr - 16]?).getD none else none

/-- The slice of the three volumes in `sampleMemory`: sample data. -/
def sampleSlice : SliceHeader := { data := 16, len := 3, cap := 3 }

/-- The volumes "vol-000" to "vol-004" of one service, each named after the service:
sample data. -/
def serviceVolumes (service : String) : List (Option Volume) :=
  [some (sampleVolume "vol-000" service), some (sampleVolume "vol-001" service),
   some (sampleVolume "vol-002" service), some (sampleVolume "vol-003" service),
   some (sampleVolume "vol-004" service)]

/-- The volumes of the three services of the test configuration in one listing, service
after service; each driver instance numbers its volumes from "vol-000": sample data. -/
def crossServiceListing : List (Option Volume) :=
  serviceVolumes "mock" ++ serviceVolumes "mock2" ++ serviceVolumes "mock3"

/-- What the library's `Sort` of Go 1.6 to 1.18 makes of `crossServiceListing`. -/
def crossServiceSorted : List (Option Volume) :=
  [some (sampleVolume "vol-000" "mock3"), some (sampleVolume "vol-000" "mock"),
   some (sampleVolume "vol-000" "mock2"), some (sampleVolume "vol-001" "mock3"),
   some (sampleVolume "vol-001" "mock2"), some (sampleVolume "vol-001" "mock"),
   some (sampleVolume "vol-002" "mock"), some (sampleVolume "vol-002" "mock3"),
   some (sampleVolume "vol-002" "mock2"), some (sampleVolume "vol-003" "mock2"),
   some (sampleVolume "vol-003" "mock"), some (sampleVolume "vol-003" "mock3"),
   some (sampleVolume "vol-004" "mock2"), some (sampleVolume "vol-004" "mock"),
   some (sampleVolume "vol-004" "mock3")]

/-- What the library's `Sort` of Go 1.6 to 1.18 makes of `crossServiceSorted`. -/
def crossServiceSortedAgain : List (Option Volume) :=
  [some (sampleVolume "vol-000" "mock"), some (sampleVolume "vol-000" "mock2"),
   some (sampleVolume "vol-000" "mock3"), some (sampleVolume "vol-001" "mock3"),
   some (sampleVolume "vol-001" "mock2"), some (sampleVolume "vol-001" "mock"),
   some (sampleVolume "vol-002" "mock2"), some (sampleVolume "vol-002" "mock"),
   some (sampleVolume "vol-002" "mock3"), some (sampleVolume "vol-003" "mock2"),
   some (sampleVolume "vol-003" "mock"), some (sampleVolume "vol-003" "mock3"),
   some (sampleVolume "vol-004" "mock2"), some (sampleVolume "vol-004" "mock"),
   some (sampleVolume "vol-004" "mock3")]

/-! ## Properties of the string order -/

theorem strLess_irrefl (s : GoString) : strLess s s = false := by
  induction s with
  | nil => rfl
  | cons x xs ih => simp [strLess, UInt8.lt_irrefl, ih]

theorem byte_eq_of_not_lt {x y : UInt8} (h1 : ¬ x < y) (h2 : ¬ y < x) : x = y :=
  UInt8.le_antisymm (UInt8.not_lt.mp h2) (UInt8.not_lt.mp h1)

theorem strLess_cons (x y : UInt8) (xs ys : GoString) :
    strLess (x :: xs) (y :: ys) = true ↔ x < y ∨ (x = y ∧ strLess xs ys = true) := by
  have unfolded : strLess (x :: xs) (y :: ys) =
      (if x < y then true else if y < x then false else strLess xs ys) := by
    simp only [strLess]
  rw [unfolded]
  by_cases hxy : x < y
  · simp [hxy]
  · by_cases hyx : y < x
    · have hne : x ≠ y := fun h => hxy (h ▸ hyx)
      simp [hxy, hyx, hne]
    · have heq : x = y := byte_eq_of_not_lt hxy hyx
      simp [hxy, hyx, heq]

theorem strLess_trans : ∀ (s t u : GoString),
    strLess s t = true → strLess t u = true → strLess s u = true
  | [], [], _, h, _ => by simp [strLess] at h
  | [], _ :: _, [], _, h => by simp [strLess] at h
  | [], _ :: _, _ :: _, _, _ => by simp [strLess]
  | _ :: _, [], _, h, _ => by simp [strLess] at h
  | _ :: _, _ :: _, [], _, h => by simp [strLess] at h
  | x :: xs, y :: ys, z :: zs, h1, h2 => by
    rw [strLess_cons] at h1 h2 ⊢
    rcases h1 with h1 | ⟨e1, h1⟩
    · rcases h2 with h2 | ⟨e2, _⟩
      · exact Or.inl (UInt8.lt_trans h1 h2)
      · exact Or.inl (e2 ▸ h1)
    · rcases h2 with h2 | ⟨e2, h2⟩
      · exact Or.inl (e1 ▸ h2)
      · exact Or.inr ⟨e1.trans e2, strLess_trans xs ys zs h1 h2⟩

theorem strLess_asymm (s t : GoString) (h : strLess s t = true) : strLess t s = false := by
  cases hts : strLess t s with
  | false => rfl
  | true =>
    have := strLess_trans s t s h hts
    rw [strLess_irrefl] at this
    exact absurd this (by decide)

theorem strLess_total : ∀ (s t : GoString),
    strLess s t = false → strLess t s = false → s = t
  | [], [], _, _ => rfl
  | [], _ :: _, h, _ => by simp [strLess] at h
  | _ :: _, [], _, h => by simp [strLess] at h
  | x :: xs, y :: ys, h1, h2 => by
    have n1 : ¬ (x < y ∨ (x = y ∧ strLess xs ys = true)) := by
      rw [← strLess_cons]; simp [h1]
    have n2 : ¬ (y < x ∨ (y = x ∧ strLess ys xs = true)) := by
      rw [← strLess_cons]; simp [h2]
    have hxy : x = y := byte_eq_of_not_lt (fun h => n1 (Or.inl h)) (fun h => n2 (Or.inl h))
    subst hxy
    have t1 : strLess xs ys = false := by
      cases h : strLess xs ys with
      | false => rfl
      | true => exact absurd (Or.inr ⟨rfl, h⟩) n1
    have t2 : strLess ys xs = false := by
      cases h : strLess ys xs with
      | false => rfl
      | true => exact absurd (Or.inr ⟨rfl, h⟩) n2
    rw [strLess_total xs ys t1 t2]

theorem strLess_negTrans (s t u : GoString)
    (h1 : strLess s t = false) (h2 : strLess t u = false) : strLess s u = false := by
  cases hsu : strLess s u with
  | false => rfl
  | true =>
    cases hts : strLess t s with
    | false =>
      have e : s = t := strLess_total s t h1 hts
      rw [e, h2] at hsu
      exact absurd hsu (by decide)
    | true =>
      have := strLess_trans t s u hts hsu
      rw [h2] at this
      exact absurd this (by decide)

theorem strLessEq_iff (s t : GoString) :
    strLessEq s t = true ↔ strLess s t = true ∨ s = t := by
  unfold strLessEq
  constructor
  · intro h
    have hts : strLess t s = false := by simpa using h
    cases hst : strLess s t with
    | true => exact Or.inl rfl
    | false => exact Or.inr (strLess_total s t hst hts)
  · rintro (h | h)
    · simp [strLess_asymm s t h]
    · simp [h, strLess_irrefl]

/-! ## Slices: indexing, assignment and exchange -/

theorem sliceIndex_natCast {α : Type} (a : List α) (n : Nat) :
    sliceIndex a (n : Int) = a[n]? := by
  simp [sliceIndex]

theorem sliceIndex_eq_some {α : Type} {a : List α} {i : Int} {x : α}
    (h : sliceIndex a i = some x) : 0 ≤ i ∧ a[i.toNat]? = some x := by
  unfold sliceIndex at h
  by_cases hi : 0 ≤ i
  · rw [if_pos hi] at h
    exact ⟨hi, h⟩
  · rw [if_neg hi] at h
    exact absurd h (by simp)

theorem sliceAssign_eq_some {α : Type} {a b : List α} {i : Int} {x : α}
    (h : sliceAssign a i x = some b) : b = a.set i.toNat x := by
  unfold sliceAssign at h
  split at h
  · exact (Option.some.inj h).symm
  · exact absurd h (by simp)

theorem sliceAssign_natCast {α : Type} (a : List α) (n : Nat) (x : α) (h : n < a.length) :
    sliceAssign a (n : Int) x = some (a.set n x) := by
  simp [sliceAssign, h]

theorem cons_set_perm {α : Type} : ∀ (xs : List α) (j : Nat) (x y : α),
    xs[j]? = some y → (y :: xs.set j x).Perm (x :: xs)
  | [], _, _, _, h => by simp at h
  | z :: zs, 0, x, y, h => by
    have hz : z = y := by simpa using h
    subst hz
    simpa using List.Perm.swap x z zs
  | z :: zs, j + 1, x, y, h => by
    have hj : zs[j]? = some y := by simpa using h
    have ih := cons_set_perm zs j x y hj
    have step1 : (y :: z :: zs.set j x).Perm (z :: y :: zs.set j x) :=
      List.Perm.swap z y _
    have step2 : (z :: y :: zs.set j x).Perm (z :: x :: zs) := List.Perm.cons z ih
    have step3 : (z :: x :: zs).Perm (x :: z :: zs) := List.Perm.swap x z zs
    simpa using (step1.trans step2).trans step3

theorem set_set_perm {α : Type} : ∀ (xs : List α) (i j : Nat) (x y : α),
    xs[i]? = some x → xs[j]? = some y → ((xs.set i y).set j x).Perm xs
  | [], _, _, _, _, h, _ => by simp at h
  | z :: zs, 0, 0, x, y, hi, hj => by
    have hx : z = x := by simpa using hi
    simp [hx]
  | z :: zs, 0, j + 1, x, y, hi, hj => by
    have hx : z = x := by simpa using hi
    have hy : zs[j]? = some y := by simpa using hj
    subst hx
    simpa using cons_set_perm zs j z y hy
  | z :: zs, i + 1, 0, x, y, hi, hj => by
    have hy : z = y := by simpa using hj
    have hx : zs[i]? = some x := by simpa using hi
    subst hy
    simpa using cons_set_perm zs i z x hx
  | z :: zs, i + 1, j + 1, x, y, hi, hj => by
    have hx : zs[i]? = some x := by simpa using hi
    have hy : zs[j]? = some y := by simpa using hj
    simpa using List.Perm.cons z (set_set_perm zs i j x y hx hy)

theorem sliceSwap_perm {α : Type} (lt : α → α → Bool) (a b : List α) (i j : Int)
    (h : (sliceInterface lt).Swap a i j = some b) : b.Perm a := by
  simp only [sliceInterface, bind, Option.bind_eq_some] at h
  obtain ⟨aj, haj, ai, hai, a1, ha1, hb⟩ := h
  have e1 := sliceAssign_eq_some ha1
  have e2 := sliceAssign_eq_some hb
  subst e1
  subst e2
  exact set_set_perm a i.toNat j.toNat ai aj (sliceIndex_eq_some hai).2
    (sliceIndex_eq_some haj).2

theorem ByVolumeID.Swap_perm (a b : ByVolumeID) (i j : Int)
    (h : ByVolumeID.Swap a i j = some b) : b.Perm a :=
  sliceSwap_perm (fun _ _ => false) a b i j h

/-- A procedure that only exchanges elements leaves a permutation of what it found. -/
theorem SortProg.run_perm {α : Type} (I : Interface (List α))
    (hswap : ∀ a b i j, I.Swap a i j = some b → b.Perm a) :
    ∀ (p : SortProg) (a b : List α), p.run I a = some b → b.Perm a
  | .done, a, b, h => by
    have e : a = b := by simpa [SortProg.run] using h
    rw [e]
  | .less i j k, a, b, h => by
    simp only [SortProg.run, Option.bind_eq_some] at h
    obtain ⟨c, _, hk⟩ := h
    exact SortProg.run_perm I hswap (k c) a b hk
  | .swap i j k, a, b, h => by
    simp only [SortProg.run, Option.bind_eq_some] at h
    obtain ⟨a1, h1, hk⟩ := h
    exact (SortProg.run_perm I hswap k a1 b hk).trans (hswap a a1 i j h1)

/-! ## A slice of non-nil volumes is a slice ordered by ID -/

theorem sliceIndex_map {α β : Type} (f : α → β) (a : List α) (i : Int) :
    sliceIndex (a.map f) i = (sliceIndex a i).map f := by
  unfold sliceIndex
  split <;> simp

theorem sliceAssign_map {α β : Type} (f : α → β) (a : List α) (i : Int) (x : α) :
    sliceAssign (a.map f) i (f x) = (sliceAssign a i x).map (List.map f) := by
  unfold sliceAssign
  by_cases h : 0 ≤ i ∧ i.toNat < a.length
  · have h2 : 0 ≤ i ∧ i.toNat < (a.map f).length := by simpa using h
    rw [if_pos h, if_pos h2]
    simp [List.map_set]
  · have h2 : ¬ (0 ≤ i ∧ i.toNat < (a.map f).length) := by simpa using h
    rw [if_neg h, if_neg h2]
    rfl

theorem ByVolumeID.Less_map_some (vs : List Volume) (i j : Int) :
    ByVolumeID.Less (vs.map some) i j = (sliceInterface volumeLess).Less vs i j := by
  simp only [ByVolumeID.Less, sliceInterface, sliceIndex_map, bind, pure]
  cases sliceIndex vs i <;> cases sliceIndex vs j <;> simp [volumeLess]

theorem ByVolumeID.Swap_map_some (vs : List Volume) (i j : Int) :
    ByVolumeID.Swap (vs.map some) i j =
      ((sliceInterface volumeLess).Swap vs i j).map (List.map some) := by
  simp only [ByVolumeID.Swap, sliceInterface, sliceIndex_map, bind]
  cases hj : sliceIndex vs j with
  | none => simp
  | some vj =>
    cases hi : sliceIndex vs i with
    | none => simp
    | some vi =>
      simp only [Option.map_some', Option.some_bind, sliceAssign_map]
      cases h1 : sliceAssign vs i vj with
      | none => simp
      | some a1 => simp [sliceAssign_map]

/-- On a slice without nil pointers, a procedure driven by the methods of `ByVolumeID`
does what it does on the slice of the volumes themselves, ordered by ID. -/
theorem SortProg.run_map_some : ∀ (p : SortProg) (vs : List Volume),
    p.run ByVolumeID.sortInterface (vs.map some) =
      (p.run (sliceInterface volumeLess) vs).map (List.map some)
  | .done, vs => by simp [SortProg.run]
  | .less i j k, vs => by
    simp only [SortProg.run]
    have hl : ByVolumeID.sortInterface.Less (vs.map some) i j =
        (sliceInterface volumeLess).Less vs i j := ByVolumeID.Less_map_some vs i j
    rw [hl]
    cases (sliceInterface volumeLess).Less vs i j with
    | none => simp
    | some b => simpa using SortProg.run_map_some (k b) vs
  | .swap i j k, vs => by
    simp only [SortProg.run]
    have hs : ByVolumeID.sortInterface.Swap (vs.map some) i j =
        ((sliceInterface volumeLess).Swap vs i j).map (List.map some) :=
      ByVolumeID.Swap_map_some vs i j
    rw [hs]
    cases (sliceInterface volumeLess).Swap vs i j with
    | none => simp
    | some a1 => simpa using SortProg.run_map_some k a1

theorem volumeLess_strictWeakOrder : StrictWeakOrder volumeLess :=
  { irrefl := fun v => strLess_irrefl v.ID
    trans := fun u v w => strLess_trans u.ID v.ID w.ID
    negTrans := fun u v w => strLess_negTrans u.ID v.ID w.ID }

/-- A slice without nil pointers is the image of a list of volumes. -/
theorem exists_map_some_of_noNil : ∀ (a : List (Option Volume)),
    (∀ p ∈ a, p ≠ none) → ∃ vs : List Volume, a = vs.map some
  | [], _ => ⟨[], rfl⟩
  | none :: _, h => absurd rfl (h none (List.mem_cons_self _ _))
  | some v :: rest, h => by
    obtain ⟨vs, hvs⟩ := exists_map_some_of_noNil rest
      (fun p hp => h p (List.mem_cons_of_mem _ hp))
    exact ⟨v :: vs, by simp [hvs]⟩

/-! ## Insertion sort meets the contract of `sort.Sort` -/

theorem sliceLess_adjacent {α : Type} (lt : α → α → Bool) (l r : List α) (x y : α) :
    (sliceInterface lt).Less (l ++ y :: x :: r)
      (0 + ((l.length + 1 : Nat) : Int)) (0 + ((l.length + 1 : Nat) : Int) - 1) =
      some (lt x y) := by
  have e1 : (0 : Int) + ((l.length + 1 : Nat) : Int) = ((l.length + 1 : Nat) : Int) := by simp
  have e2 : (0 : Int) + ((l.length + 1 : Nat) : Int) - 1 = ((l.length : Nat) : Int) := by
    push_cast
    omega
  rw [e2, e1]
  simp only [sliceInterface, sliceIndex_natCast]
  have h1 : (l ++ y :: x :: r)[l.length + 1]? = some x := by
    rw [List.getElem?_append_right (by omega)]
    simp
  have h2 : (l ++ y :: x :: r)[l.length]? = some y := by
    rw [List.getElem?_append_right (by omega)]
    simp
  rw [h1, h2]
  rfl

theorem sliceSwap_adjacent {α : Type} (lt : α → α → Bool) (l r : List α) (x y : α) :
    (sliceInterface lt).Swap (l ++ y :: x :: r)
      (0 + ((l.length + 1 : Nat) : Int)) (0 + ((l.length + 1 : Nat) : Int) - 1) =
      some (l ++ x :: y :: r) := by
  have e1 : (0 : Int) + ((l.length + 1 : Nat) : Int) = ((l.length + 1 : Nat) : Int) := by simp
  have e2 : (0 : Int) + ((l.length + 1 : Nat) : Int) - 1 = ((l.length : Nat) : Int) := by
    push_cast
    omega
  rw [e2, e1]
  simp only [sliceInterface, sliceIndex_natCast]
  have h1 : (l ++ y :: x :: r)[l.length + 1]? = some x := by
    rw [List.getElem?_append_right (by omega)]
    simp
  have h2 : (l ++ y :: x :: r)[l.length]? = some y := by
    rw [List.getElem?_append_right (by omega)]
    simp
  rw [h1, h2]
  have s1 : (l ++ y :: x :: r).set (l.length + 1) y = l ++ y :: y :: r := by
    rw [List.set_append_right _ _ (by omega)]
    simp
  have s2 : (l ++ y :: y :: r).set l.length x = l ++ x :: y :: r := by
    rw [List.set_append_right _ _ (by omega)]
    simp
  have a1 : sliceAssign (l ++ y :: x :: r) ((l.length + 1 : Nat) : Int) y =
      some (l ++ y :: y :: r) := by
    rw [sliceAssign_natCast _ _ _ (by simp), s1]
  have a2 : sliceAssign (l ++ y :: y :: r) ((l.length : Nat) : Int) x =
      some (l ++ x :: y :: r) := by
    rw [sliceAssign_natCast _ _ _ (by simp), s2]
  simp only [bind, Option.bind, a1, a2]

theorem insertLeftward_length {α : Type} (lt : α → α → Bool) (x : α) :
    ∀ ys : List α, (insertLeftward lt x ys).length = ys.length + 1
  | [] => rfl
  | y :: ys => by
    unfold insertLeftward
    split
    · simp [insertLeftward_length lt x ys]
    · simp

/-- The inner loop, entered below a sorted prefix, inserts the next element into it. -/
theorem insertionLoop_run {α : Type} (lt : α → α → Bool) (x : α) (k : SortProg) :
    ∀ (rinit tail : List α),
      (insertionLoop 0 rinit.length k).run (sliceInterface lt) (rinit.reverse ++ x :: tail) =
        k.run (sliceInterface lt) ((insertLeftward lt x rinit).reverse ++ tail)
  | [], tail => by simp [insertionLoop, insertLeftward]
  | y :: ys, tail => by
    have hstate : (y :: ys).reverse ++ x :: tail = ys.reverse ++ y :: x :: tail := by simp
    have hlen : (y :: ys).length = ys.reverse.length + 1 := by simp
    rw [hstate, hlen]
    simp only [insertionLoop, SortProg.run]
    rw [sliceLess_adjacent]
    simp only [Option.some_bind]
    cases hlt : lt x y with
    | true =>
      simp only [if_true, SortProg.run]
      rw [sliceSwap_adjacent]
      simp only [Option.some_bind]
      have ih := insertionLoop_run lt x k ys (y :: tail)
      rw [List.length_reverse]
      rw [ih]
      simp [insertLeftward, hlt]
    | false =>
      simp [insertLeftward, hlt]

theorem insertionFrom_run {α : Type} (lt : α → α → Bool) :
    ∀ (rest rinit : List α),
      (insertionFrom 0 rinit.length rest.length).run (sliceInterface lt)
          (rinit.reverse ++ rest) =
        some ((rest.foldl (fun acc x => insertLeftward lt x acc) rinit).reverse)
  | [], rinit => by simp [insertionFrom, SortProg.run]
  | x :: rest, rinit => by
    simp only [List.length_cons, insertionFrom]
    rw [insertionLoop_run]
    have ih := insertionFrom_run lt rest (insertLeftward lt x rinit)
    rw [insertLeftward_length] at ih
    rw [ih]
    simp

theorem insertLeftward_pairwise {α : Type} (lt : α → α → Bool) (hlt : StrictWeakOrder lt)
    (x : α) : ∀ ys : List α, ys.Pairwise (fun a b => lt a b = false) →
      (insertLeftward lt x ys).Pairwise (fun a b => lt a b = false)
  | [], _ => by simp [insertLeftward]
  | y :: ys, h => by
    have hy : ∀ z ∈ ys, lt y z = false := (List.pairwise_cons.mp h).1
    have hys : ys.Pairwise (fun a b => lt a b = false) := (List.pairwise_cons.mp h).2
    unfold insertLeftward
    cases hxy : lt x y with
    | true =>
      simp only [if_true]
      have hyx : lt y x = false := by
        cases hc : lt y x with
        | false => rfl
        | true =>
          have := hlt.trans x y x hxy hc
          rw [hlt.irrefl] at this
          exact absurd this (by decide)
      refine List.pairwise_cons.mpr ⟨?_, insertLeftward_pairwise lt hlt x ys hys⟩
      intro z hz
      have hmem : z = x ∨ z ∈ ys := by
        have hperm : ∀ l : List α, ∀ w, w ∈ insertLeftward lt x l → w = x ∨ w ∈ l := by
          intro l
          induction l with
          | nil => intro w hw; simpa [insertLeftward] using hw
          | cons u us ihu =>
            intro w hw
            unfold insertLeftward at hw
            split at hw
            · rcases List.mem_cons.mp hw with h1 | h1
              · exact Or.inr (h1 ▸ List.mem_cons_self _ _)
              · rcases ihu w h1 with h2 | h2
                · exact Or.inl h2
                · exact Or.inr (List.mem_cons_of_mem _ h2)
            · rcases List.mem_cons.mp hw with h1 | h1
              · exact Or.inl h1
              · exact Or.inr h1
        exact hperm ys z hz
      rcases hmem with h1 | h1
      · rw [h1]; exact hyx
      · exact hy z h1
    | false =>
      simp only [Bool.false_eq_true, if_false]
      refine List.pairwise_cons.mpr ⟨?_, h⟩
      intro z hz
      rcases List.mem_cons.mp hz with h1 | h1
      · rw [h1]; exact hxy
      · exact hlt.negTrans x y z hxy (hy z h1)

theorem foldl_insertLeftward_pairwise {α : Type} (lt : α → α → Bool)
    (hlt : StrictWeakOrder lt) : ∀ (rest rinit : List α),
      rinit.Pairwise (fun a b => lt a b = false) →
      (rest.foldl (fun acc x => insertLeftward lt x acc) rinit).Pairwise
        (fun a b => lt a b = false)
  | [], _, h => h
  | x :: rest, rinit, h =>
    foldl_insertLeftward_pairwise lt hlt rest _ (insertLeftward_pairwise lt hlt x rinit h)

/-- Insertion sort over the whole slice meets the contract of `sort.Sort`. -/
theorem insertionSortImpl_contract : SortContract insertionSortImpl := by
  intro α lt hlt xs
  cases xs with
  | nil =>
    exact ⟨[], by simp [sortSort, insertionSortImpl, insertionSort, insertionFrom,
      SortProg.run, sliceInterface], List.Pairwise.nil⟩
  | cons x rest =>
    refine ⟨(rest.foldl (fun acc y => insertLeftward lt y acc) [x]).reverse, ?_, ?_⟩
    · have h := insertionFrom_run lt rest [x]
      have hn : (((x :: rest).length : Int) - 0).toNat - 1 = rest.length := by
        simp
      simp only [sortSort, insertionSortImpl, insertionSort, sliceInterface] at h ⊢
      rw [hn]
      simpa using h
    · rw [List.pairwise_reverse]
      exact foldl_insertLeftward_pairwise lt hlt rest [x] (List.pairwise_singleton _ _)

/-! ## Heap sort meets the contract of `sort.Sort` -/

theorem swapAt_eq {α : Type} (xs : List α) (i j : Nat) (x y : α)
    (hx : xs[i]? = some x) (hy : xs[j]? = some y) :
    swapAt xs i j = (xs.set i y).set j x := by
  simp [swapAt, hx, hy]

theorem swapAt_length {α : Type} (xs : List α) (i j : Nat) :
    (swapAt xs i j).length = xs.length := by
  unfold swapAt
  split <;> simp

theorem getElem?_swapAt {α : Type} (xs : List α) (i j m : Nat)
    (hi : i < xs.length) (hj : j < xs.length) :
    (swapAt xs i j)[m]? = if m = j then xs[i]? else if m = i then xs[j]? else xs[m]? := by
  have hx : xs[i]? = some xs[i] := List.getElem?_eq_getElem hi
  have hy : xs[j]? = some xs[j] := List.getElem?_eq_getElem hj
  rw [swapAt_eq xs i j _ _ hx hy, List.getElem?_set, List.getElem?_set]
  by_cases h1 : m = j
  · subst h1
    simp [hx, hj]
  · by_cases h2 : m = i
    · subst h2
      have h3 : ¬ j = m := fun e => h1 e.symm
      simp [h1, h3, hy, hi]
    · have h3 : ¬ j = m := fun e => h1 e.symm
      have h4 : ¬ i = m := fun e => h2 e.symm
      simp [h1, h2, h3, h4]

theorem sliceSwap_natCast {α : Type} (lt : α → α → Bool) (xs : List α) (i j : Nat)
    (hi : i < xs.length) (hj : j < xs.length) :
    (sliceInterface lt).Swap xs (0 + (i : Int)) (0 + (j : Int)) = some (swapAt xs i j) := by
  have hx : xs[i]? = some xs[i] := List.getElem?_eq_getElem hi
  have hy : xs[j]? = some xs[j] := List.getElem?_eq_getElem hj
  rw [swapAt_eq xs i j _ _ hx hy]
  simp only [sliceInterface, zero_add, sliceIndex_natCast, hx, hy, bind, Option.bind]
  rw [sliceAssign_natCast _ _ _ hi]
  simp only []
  rw [sliceAssign_natCast _ _ _ (by simpa using hj)]

theorem sliceLess_natCast {α : Type} (lt : α → α → Bool) (xs : List α) (i j : Nat) (x y : α)
    (hx : xs[i]? = some x) (hy : xs[j]? = some y) :
    (sliceInterface lt).Less xs (0 + (i : Int)) (0 + (j : Int)) = some (lt x y) := by
  simp [sliceInterface, sliceIndex_natCast, hx, hy, bind, pure]

theorem StrictWeakOrder.asymm {α : Type} {lt : α → α → Bool} (hlt : StrictWeakOrder lt)
    (x y : α) (h : lt x y = true) : lt y x = false := by
  cases hc : lt y x with
  | false => rfl
  | true =>
    have := hlt.trans x y x h hc
    rw [hlt.irrefl] at this
    exact absurd this (by decide)

theorem NotBelow.trans {α : Type} {lt : α → α → Bool} (hlt : StrictWeakOrder lt)
    {a c : Option α} {y : α} (h1 : NotBelow lt a (some y)) (h2 : NotBelow lt (some y) c) :
    NotBelow lt a c :=
  fun x z hx hz => hlt.negTrans x y z (h1 x y hx rfl) (h2 y z rfl hz)

/-- Sifting stops at `r` when `r` is not below its larger child: the heap is whole. -/
theorem heapFrom_of_stop {α : Type} (lt : α → α → Bool) (hlt : StrictWeakOrder lt)
    (xs : List α) (lo r hi child : Nat) (xr xc : α)
    (hex : HeapExcept lt xs lo r hi)
    (hchild : child = 2 * r + 1 ∨ child = 2 * r + 2)
    (hr : xs[r]? = some xr) (hc : xs[child]? = some xc)
    (hsib : ∀ c, (c = 2 * r + 1 ∨ c = 2 * r + 2) → c < hi → NotBelow lt xs[child]? xs[c]?)
    (hstop : lt xr xc = false) : HeapFrom lt xs lo hi := by
  intro i c hlo hci hchi
  by_cases hir : i = r
  · subst hir
    have h1 : NotBelow lt xs[i]? (some xc) := by
      intro x y hx hy
      rw [hr] at hx
      rw [← Option.some.inj hx, ← Option.some.inj hy]
      exact hstop
    have h2 : NotBelow lt (some xc) xs[c]? := hc ▸ hsib c hci hchi
    exact NotBelow.trans hlt h1 h2
  · exact hex.1 i c hlo hir hci hchi

/-- Sifting goes on at the larger child once it has been exchanged with `r`. -/
theorem heapExcept_of_swap {α : Type} (lt : α → α → Bool) (hlt : StrictWeakOrder lt)
    (xs : List α) (lo r hi child : Nat) (xr xc : α)
    (hlen : hi ≤ xs.length) (hlo : lo ≤ r)
    (hex : HeapExcept lt xs lo r hi)
    (hchild : child = 2 * r + 1 ∨ child = 2 * r + 2) (hchi : child < hi)
    (hr : xs[r]? = some xr) (hc : xs[child]? = some xc)
    (hsib : ∀ c, (c = 2 * r + 1 ∨ c = 2 * r + 2) → c < hi → NotBelow lt xs[child]? xs[c]?)
    (hswap : lt xr xc = true) : HeapExcept lt (swapAt xs r child) lo child hi := by
  have hrl : r < xs.length := by omega
  have hcl : child < xs.length := by omega
  have hget : ∀ m, (swapAt xs r child)[m]? =
      if m = child then xs[r]? else if m = r then xs[child]? else xs[m]? :=
    fun m => getElem?_swapAt xs r child m hrl hcl
  have hrc : r ≠ child := by omega
  constructor
  · intro i c hloi hic hci hclt
    rw [hget i, hget c, if_neg hic]
    by_cases hir : i = r
    · subst hir
      rw [if_pos rfl]
      by_cases hcc : c = child
      · subst hcc
        rw [if_pos rfl, hr, hc]
        intro x y hx hy
        rw [← Option.some.inj hx, ← Option.some.inj hy]
        exact hlt.asymm xr xc hswap
      · have hci' : c ≠ i := by omega
        rw [if_neg hcc, if_neg hci']
        exact hsib c hci hclt
    · rw [if_neg hir]
      by_cases hcr : c = r
      · subst hcr
        have hcne : c ≠ child := hrc
        rw [if_neg hcne, if_pos rfl]
        exact hex.2 i child hloi hci hchild hchi
      · have hcne : c ≠ child := by omega
        rw [if_neg hcne, if_neg hcr]
        exact hex.1 i c hloi hir hci hclt
  · intro i c hloi hpar hci hclt
    have hir : i = r := by omega
    subst hir
    have hcne : c ≠ child := by omega
    have hcni : c ≠ i := by omega
    rw [hget i, hget c, if_neg hrc, if_pos rfl, if_neg hcne, if_neg hcni]
    exact hex.1 child c (by omega) (Ne.symm hrc) hci hclt

/-- Sifting ends where a node has no child: the heap is whole. -/
theorem heapFrom_of_leaf {α : Type} (lt : α → α → Bool) (xs : List α) (lo r hi : Nat)
    (hex : HeapExcept lt xs lo r hi) (hleaf : hi ≤ 2 * r + 1) : HeapFrom lt xs lo hi := by
  intro i c hlo hci hchi
  by_cases hir : i = r
  · omega
  · exact hex.1 i c hlo hir hci hchi


/-- One comparison of the node `r` with its larger child, as `siftDown` makes it: the
loop stops on a whole heap, or exchanges the two and goes on at the child. -/
theorem siftDown_compare {α : Type} (lt : α → α → Bool) (hlt : StrictWeakOrder lt)
    (hi lo : Nat) (k next : SortProg) (xs : List α) (r child : Nat)
    (hlen : hi ≤ xs.length) (hlo : lo ≤ r) (hex : HeapExcept lt xs lo r hi)
    (hchild : child = 2 * r + 1 ∨ child = 2 * r + 2) (hchi : child < hi)
    (hsib : ∀ c, (c = 2 * r + 1 ∨ c = 2 * r + 2) → c < hi → NotBelow lt xs[child]? xs[c]?) :
    (((SortProg.less (0 + (r : Int)) (0 + (child : Int))
        (fun c => if c then .swap (0 + (r : Int)) (0 + (child : Int)) next else k)).run
          (sliceInterface lt) xs = k.run (sliceInterface lt) xs) ∧ HeapFrom lt xs lo hi) ∨
    (((SortProg.less (0 + (r : Int)) (0 + (child : Int))
        (fun c => if c then .swap (0 + (r : Int)) (0 + (child : Int)) next else k)).run
          (sliceInterface lt) xs = next.run (sliceInterface lt) (swapAt xs r child)) ∧
      HeapExcept lt (swapAt xs r child) lo child hi) := by
  have hrl : r < xs.length := by omega
  have hcl : child < xs.length := by omega
  have hr : xs[r]? = some xs[r] := List.getElem?_eq_getElem hrl
  have hc : xs[child]? = some xs[child] := List.getElem?_eq_getElem hcl
  simp only [SortProg.run]
  rw [sliceLess_natCast lt xs r child _ _ hr hc]
  simp only [Option.some_bind]
  cases hcmp : lt xs[r] xs[child] with
  | false =>
    left
    exact ⟨by simp, heapFrom_of_stop lt hlt xs lo r hi child _ _ hex hchild hr hc hsib hcmp⟩
  | true =>
    right
    refine ⟨?_, heapExcept_of_swap lt hlt xs lo r hi child _ _ hlen hlo hex hchild hchi hr hc
      hsib hcmp⟩
    simp only [if_true, SortProg.run]
    rw [sliceSwap_natCast lt xs r child hrl hcl]
    rfl

/-- The library's `siftDown` restores the heap below the node it starts at, exchanging
only elements of `[0, hi)`. -/
theorem siftDownLoop_run {α : Type} (lt : α → α → Bool) (hlt : StrictWeakOrder lt)
    (hi lo : Nat) (k : SortProg) :
    ∀ (fuel r : Nat) (xs : List α), hi ≤ xs.length → lo ≤ r → hi ≤ fuel + r →
      HeapExcept lt xs lo r hi →
      ∃ ys, (siftDownLoop hi 0 k fuel r).run (sliceInterface lt) xs =
          k.run (sliceInterface lt) ys ∧
        ys.length = xs.length ∧ HeapFrom lt ys lo hi ∧
        ∀ P : List α → Prop,
          (∀ zs i j, i < hi → j < hi → hi ≤ zs.length → P zs → P (swapAt zs i j)) →
          P xs → P ys
  | 0, r, xs, _, _, hfuel, hex =>
    ⟨xs, rfl, rfl, heapFrom_of_leaf lt xs lo r hi hex (by omega), fun _ _ h => h⟩
  | fuel + 1, r, xs, hlen, hlo, hfuel, hex => by
    unfold siftDownLoop
    by_cases hleaf : hi ≤ 2 * r + 1
    · rw [if_pos hleaf]
      exact ⟨xs, rfl, rfl, heapFrom_of_leaf lt xs lo r hi hex hleaf, fun _ _ h => h⟩
    · rw [if_neg hleaf]
      have continue_at : ∀ child, (child = 2 * r + 1 ∨ child = 2 * r + 2) → child < hi →
          (∀ c, (c = 2 * r + 1 ∨ c = 2 * r + 2) → c < hi → NotBelow lt xs[child]? xs[c]?) →
          ∃ ys, ((SortProg.less (0 + (r : Int)) (0 + (child : Int))
              (fun c => if c then .swap (0 + (r : Int)) (0 + (child : Int))
                (siftDownLoop hi 0 k fuel child) else k)).run (sliceInterface lt) xs =
              k.run (sliceInterface lt) ys) ∧
            ys.length = xs.length ∧ HeapFrom lt ys lo hi ∧
            ∀ P : List α → Prop,
              (∀ zs i j, i < hi → j < hi → hi ≤ zs.length → P zs → P (swapAt zs i j)) →
              P xs → P ys := by
        intro child hchild hchi hsib
        rcases siftDown_compare lt hlt hi lo k (siftDownLoop hi 0 k fuel child) xs r child
          hlen hlo hex hchild hchi hsib with ⟨hrun, hheap⟩ | ⟨hrun, hexc⟩
        · exact ⟨xs, hrun, rfl, hheap, fun _ _ h => h⟩
        · have hlen2 : hi ≤ (swapAt xs r child).length := by rw [swapAt_length]; exact hlen
          obtain ⟨ys, hys, hl, hh, hP⟩ := siftDownLoop_run lt hlt hi lo k fuel child
            (swapAt xs r child) hlen2 (by omega) (by omega) hexc
          refine ⟨ys, hrun.trans hys, by rw [hl, swapAt_length], hh, ?_⟩
          intro P hstep hPx
          exact hP P hstep (hstep xs r child (by omega) hchi hlen hPx)
      have h1l : 2 * r + 1 < xs.length := by omega
      have h1 : xs[2 * r + 1]? = some xs[2 * r + 1] := List.getElem?_eq_getElem h1l
      by_cases htwo : 2 * r + 2 < hi
      · rw [if_pos htwo]
        have h2l : 2 * r + 2 < xs.length := by omega
        have h2 : xs[2 * r + 2]? = some xs[2 * r + 2] := List.getElem?_eq_getElem h2l
        simp only [SortProg.run]
        rw [sliceLess_natCast lt xs (2 * r + 1) (2 * r + 2) _ _ h1 h2]
        simp only [Option.some_bind]
        cases hb : lt xs[2 * r + 1] xs[2 * r + 2] with
        | true =>
          simp only [if_true]
          apply continue_at (2 * r + 2) (Or.inr rfl) htwo
          intro c hc _
          rcases hc with hc | hc
          · subst hc
            intro x y hx hy
            rw [h2] at hx
            rw [h1] at hy
            rw [← Option.some.inj hx, ← Option.some.inj hy]
            exact hlt.asymm _ _ hb
          · subst hc
            intro x y hx hy
            rw [h2] at hx hy
            rw [← Option.some.inj hx, ← Option.some.inj hy]
            exact hlt.irrefl _
        | false =>
          simp only [Bool.false_eq_true, if_false]
          apply continue_at (2 * r + 1) (Or.inl rfl) (by omega)
          intro c hc _
          rcases hc with hc | hc
          · subst hc
            intro x y hx hy
            rw [h1] at hx hy
            rw [← Option.some.inj hx, ← Option.some.inj hy]
            exact hlt.irrefl _
          · subst hc
            intro x y hx hy
            rw [h1] at hx
            rw [h2] at hy
            rw [← Option.some.inj hx, ← Option.some.inj hy]
            exact hb
      · rw [if_neg htwo]
        apply continue_at (2 * r + 1) (Or.inl rfl) (by omega)
        intro c hc hchi
        rcases hc with hc | hc
        · subst hc
          intro x y hx hy
          rw [h1] at hx hy
          rw [← Option.some.inj hx, ← Option.some.inj hy]
          exact hlt.irrefl _
        · omega

/-- The first loop of `heapSort` builds a heap on the whole range. -/
theorem heapBuild_run {α : Type} (lt : α → α → Bool) (hlt : StrictWeakOrder lt)
    (hi : Nat) (k : SortProg) :
    ∀ (n : Nat) (xs : List α), hi ≤ xs.length → HeapFrom lt xs n hi →
      ∃ ys, (heapBuild hi 0 k n).run (sliceInterface lt) xs = k.run (sliceInterface lt) ys ∧
        ys.length = xs.length ∧ HeapFrom lt ys 0 hi
  | 0, xs, _, hheap => ⟨xs, rfl, rfl, hheap⟩
  | i + 1, xs, hlen, hheap => by
    have hex : HeapExcept lt xs i i hi := by
      constructor
      · intro j c hj hne hc hchi
        exact hheap j c (by omega) hc hchi
      · intro j c hj hpar _ _
        omega
    obtain ⟨zs, hrun, hl, hh, _⟩ :=
      siftDownLoop_run lt hlt hi i (heapBuild hi 0 k i) hi i xs hlen (Nat.le_refl _)
        (by omega) hex
    obtain ⟨ys, hrun2, hl2, hh2⟩ := heapBuild_run lt hlt hi k i zs (by omega) hh
    exact ⟨ys, by simp only [heapBuild]; exact hrun.trans hrun2, by omega, hh2⟩

/-- In a heap the root is not below any node. -/
theorem heapFrom_root_max {α : Type} (lt : α → α → Bool) (hlt : StrictWeakOrder lt)
    (xs : List α) (hi : Nat) (hlen : hi ≤ xs.length) (hheap : HeapFrom lt xs 0 hi) :
    ∀ j, j < hi → NotBelow lt xs[0]? xs[j]? := by
  intro j
  induction j using Nat.strong_induction_on with
  | _ j ih =>
    intro hj
    by_cases h0 : j = 0
    · subst h0
      intro x y hx hy
      rw [hx] at hy
      rw [← Option.some.inj hy]
      exact hlt.irrefl x
    · have hp : (j - 1) / 2 < j := by omega
      have hpl : (j - 1) / 2 < xs.length := by omega
      have hparent : xs[(j - 1) / 2]? = some xs[(j - 1) / 2] := List.getElem?_eq_getElem hpl
      have h1 : NotBelow lt xs[0]? (some xs[(j - 1) / 2]) := hparent ▸ ih _ hp (by omega)
      have h2 : NotBelow lt (some xs[(j - 1) / 2]) xs[j]? :=
        hparent ▸ hheap ((j - 1) / 2) j (Nat.zero_le _) (by omega) hj
      exact NotBelow.trans hlt h1 h2

theorem sortedFrom_swapAt {α : Type} (lt : α → α → Bool) (zs : List α) (n a b : Nat)
    (ha : a < n) (hb : b < n) (hlen : n ≤ zs.length) (h : SortedFrom lt zs n) :
    SortedFrom lt (swapAt zs a b) n := by
  intro p q hpq hnq
  rw [getElem?_swapAt zs a b q (by omega) (by omega),
    getElem?_swapAt zs a b p (by omega) (by omega)]
  rw [if_neg (by omega : ¬ q = b), if_neg (by omega : ¬ q = a)]
  by_cases hpb : p = b
  · rw [if_pos hpb]
    exact h a q (by omega) hnq
  · rw [if_neg hpb]
    by_cases hpa : p = a
    · rw [if_pos hpa]
      exact h b q (by omega) hnq
    · rw [if_neg hpa]
      exact h p q hpq hnq

/-- Moving the root of a heap on `[0, i]` behind the heap puts it in its final place. -/
theorem sortedFrom_pop {α : Type} (lt : α → α → Bool) (hlt : StrictWeakOrder lt)
    (xs : List α) (i : Nat) (hlen : i + 1 ≤ xs.length)
    (hheap : HeapFrom lt xs 0 (i + 1)) (hsorted : SortedFrom lt xs (i + 1)) :
    SortedFrom lt (swapAt xs 0 i) i := by
  have hmax := heapFrom_root_max lt hlt xs (i + 1) hlen hheap
  intro p q hpq hiq
  rw [getElem?_swapAt xs 0 i q (by omega) (by omega),
    getElem?_swapAt xs 0 i p (by omega) (by omega)]
  by_cases hqi : q = i
  · rw [if_pos hqi, if_neg (by omega : ¬ p = i)]
    by_cases hp0 : p = 0
    · rw [if_pos hp0]
      exact hmax i (by omega)
    · rw [if_neg hp0]
      exact hmax p (by omega)
  · rw [if_neg hqi, if_neg (by omega : ¬ q = 0)]
    by_cases hpi : p = i
    · rw [if_pos hpi]
      exact hsorted 0 q (by omega) (by omega)
    · rw [if_neg hpi]
      by_cases hp0 : p = 0
      · rw [if_pos hp0]
        exact hsorted i q (by omega) (by omega)
      · rw [if_neg hp0]
        exact hsorted p q hpq (by omega)

/-- The second loop of `heapSort` empties the heap into a sorted slice. -/
theorem heapPop_run {α : Type} (lt : α → α → Bool) (hlt : StrictWeakOrder lt) :
    ∀ (n : Nat) (xs : List α), n ≤ xs.length → HeapFrom lt xs 0 n → SortedFrom lt xs n →
      ∃ ys, (heapPop 0 n).run (sliceInterface lt) xs = some ys ∧ SortedFrom lt ys 0
  | 0, xs, _, _, hsorted => ⟨xs, rfl, hsorted⟩
  | i + 1, xs, hlen, hheap, hsorted => by
    have hsw : (sliceInterface lt).Swap xs 0 (0 + (i : Int)) = some (swapAt xs 0 i) := by
      have := sliceSwap_natCast lt xs 0 i (by omega) (by omega)
      simpa using this
    have hget : ∀ m, (swapAt xs 0 i)[m]? =
        if m = i then xs[0]? else if m = 0 then xs[i]? else xs[m]? :=
      fun m => getElem?_swapAt xs 0 i m (by omega) (by omega)
    have hex : HeapExcept lt (swapAt xs 0 i) 0 0 i := by
      constructor
      · intro j c _ hne hc hci
        rw [hget j, hget c, if_neg (by omega : ¬ j = i), if_neg hne,
          if_neg (by omega : ¬ c = i), if_neg (by omega : ¬ c = 0)]
        exact hheap j c (Nat.zero_le _) hc (by omega)
      · intro j c _ hpar _ _
        omega
    have hlen2 : i ≤ (swapAt xs 0 i).length := by rw [swapAt_length]; omega
    obtain ⟨zs, hrun, hl, hh, hP⟩ :=
      siftDownLoop_run lt hlt i 0 (heapPop 0 i) i 0 (swapAt xs 0 i) hlen2 (Nat.le_refl _)
        (by omega) hex
    have hzs : SortedFrom lt zs i :=
      hP (fun l => SortedFrom lt l i)
        (fun l a b ha hb hl hs => sortedFrom_swapAt lt l i a b ha hb hl hs)
        (sortedFrom_pop lt hlt xs i hlen hheap hsorted)
    obtain ⟨ys, hrun2, hs2⟩ := heapPop_run lt hlt i zs (by rw [hl]; exact hlen2) hh hzs
    refine ⟨ys, ?_, hs2⟩
    simp only [heapPop, SortProg.run]
    rw [hsw]
    simp only [Option.some_bind]
    exact hrun.trans hrun2

/-- Heap sort over the whole slice meets the contract of `sort.Sort`. -/
theorem heapSortImpl_contract : SortContract heapSortImpl := by
  intro α lt hlt xs
  have hvac : HeapFrom lt xs ((xs.length - 1) / 2 + 1) xs.length := by
    intro i c hi hc hlt2
    omega
  obtain ⟨zs, hrun, hl, hh⟩ :=
    heapBuild_run lt hlt xs.length (heapPop 0 xs.length) ((xs.length - 1) / 2 + 1) xs
      (Nat.le_refl _) hvac
  have hsf : SortedFrom lt zs xs.length := by
    intro p q _ hq x y hx _
    have : zs[q]? = none := List.getElem?_eq_none (by omega)
    rw [this] at hx
    exact absurd hx (by simp)
  obtain ⟨ys, hrun2, hs⟩ :=
    heapPop_run lt hlt xs.length zs (by omega) hh hsf
  refine ⟨ys, ?_, ?_⟩
  · have hn : ((xs.length : Int) - 0).toNat = xs.length := by simp
    simp only [sortSort, heapSortImpl, heapSort, sliceInterface] at hrun ⊢
    rw [hn]
    exact hrun.trans hrun2
  · rw [List.pairwise_iff_getElem]
    intro i j hi hj hij
    exact hs i j hij (Nat.zero_le _) _ _ (List.getElem?_eq_getElem hj)
      (List.getElem?_eq_getElem hi)

/-! ## The library's `Sort` before Go 1.19 meets the contract of `sort.Sort`

Each procedure of the library's `sort.go` is followed through the slice: what it
returns to, which range it changes, and what holds of that range afterwards. The
invariants are those the comments of `doPivot` state, in the weaker form that is
enough for the order of the result: "data[lo < i < b] <= pivot" and
"data[c <= i < hi] >= pivot". -/

/-! ### A procedure after another, and a procedure on a part of the slice -/

/-- Running `p` and then `k` is running `k` on what `p` leaves. -/
theorem SortProg.run_andThen {σ : Type} (I : Interface σ) : ∀ (p k : SortProg) (s : σ),
    (p.andThen k).run I s = (p.run I s).bind (fun s1 => k.run I s1)
  | .done, k, s => by simp [SortProg.andThen, SortProg.run]
  | .less i j f, k, s => by
    simp only [SortProg.andThen, SortProg.run]
    cases I.Less s i j with
    | none => rfl
    | some b => exact SortProg.run_andThen I (f b) k s
  | .swap i j p, k, s => by
    simp only [SortProg.andThen, SortProg.run]
    cases I.Swap s i j with
    | none => rfl
    | some s1 => exact SortProg.run_andThen I p k s1

theorem sliceIndex_shift {α : Type} (pre mid post : List α) (i : Int) (x : α)
    (h : sliceIndex mid i = some x) :
    sliceIndex (pre ++ mid ++ post) ((pre.length : Int) + i) = some x := by
  obtain ⟨h0, hx⟩ := sliceIndex_eq_some h
  have hlt : i.toNat < mid.length := by
    by_contra hge
    rw [List.getElem?_eq_none (by omega)] at hx
    exact absurd hx (by simp)
  have e : ((pre.length : Int) + i).toNat = pre.length + i.toNat := by omega
  unfold sliceIndex
  rw [if_pos (by omega), e, List.append_assoc, List.getElem?_append_right (by omega)]
  simp only [Nat.add_sub_cancel_left]
  rw [List.getElem?_append_left hlt]
  exact hx

theorem sliceAssign_shift {α : Type} (pre mid mid1 post : List α) (i : Int) (x : α)
    (h : sliceAssign mid i x = some mid1) :
    sliceAssign (pre ++ mid ++ post) ((pre.length : Int) + i) x =
      some (pre ++ mid1 ++ post) := by
  unfold sliceAssign at h
  by_cases hc : 0 ≤ i ∧ i.toNat < mid.length
  · rw [if_pos hc] at h
    have e : ((pre.length : Int) + i).toNat = pre.length + i.toNat := by omega
    unfold sliceAssign
    rw [if_pos (by constructor; omega; simp; omega), e, ← Option.some.inj h]
    congr 1
    rw [List.append_assoc, List.set_append_right _ _ (by omega)]
    simp only [Nat.add_sub_cancel_left]
    rw [List.set_append_left _ _ hc.2, List.append_assoc]
  · rw [if_neg hc] at h
    exact absurd h (by simp)

theorem sliceLess_shift {α : Type} (lt : α → α → Bool) (pre mid post : List α) (i j : Int)
    (r : Bool) (h : (sliceInterface lt).Less mid i j = some r) :
    (sliceInterface lt).Less (pre ++ mid ++ post) ((pre.length : Int) + i)
      ((pre.length : Int) + j) = some r := by
  simp only [sliceInterface, bind, Option.bind_eq_some] at h ⊢
  obtain ⟨x, hx, y, hy, hr⟩ := h
  exact ⟨x, sliceIndex_shift pre mid post i x hx, y, sliceIndex_shift pre mid post j y hy, hr⟩

theorem sliceSwap_shift {α : Type} (lt : α → α → Bool) (pre mid mid1 post : List α)
    (i j : Int) (h : (sliceInterface lt).Swap mid i j = some mid1) :
    (sliceInterface lt).Swap (pre ++ mid ++ post) ((pre.length : Int) + i)
      ((pre.length : Int) + j) = some (pre ++ mid1 ++ post) := by
  simp only [sliceInterface, bind, Option.bind_eq_some] at h ⊢
  obtain ⟨aj, haj, ai, hai, m1, hm1, hm2⟩ := h
  exact ⟨aj, sliceIndex_shift pre mid post j aj haj, ai, sliceIndex_shift pre mid post i ai hai,
    pre ++ m1 ++ post, sliceAssign_shift pre mid m1 post i aj hm1,
    sliceAssign_shift pre m1 mid1 post j ai hm2⟩

/-- A procedure moved up by the length of `pre` does to the middle of
`pre ++ mid ++ post` what the procedure does to `mid`. -/
theorem SortProg.run_shift {α : Type} (lt : α → α → Bool) (pre post : List α) :
    ∀ (p : SortProg) (mid mid1 : List α), p.run (sliceInterface lt) mid = some mid1 →
      (p.shift pre.length).run (sliceInterface lt) (pre ++ mid ++ post) =
        some (pre ++ mid1 ++ post)
  | .done, mid, mid1, h => by
    have e : mid = mid1 := by simpa [SortProg.run] using h
    simp [SortProg.shift, SortProg.run, e]
  | .less i j f, mid, mid1, h => by
    simp only [SortProg.run, Option.bind_eq_some] at h
    obtain ⟨r, hr, hk⟩ := h
    simp only [SortProg.shift, SortProg.run]
    rw [sliceLess_shift lt pre mid post i j r hr]
    exact SortProg.run_shift lt pre post (f r) mid mid1 hk
  | .swap i j p, mid, mid1, h => by
    simp only [SortProg.run, Option.bind_eq_some] at h
    obtain ⟨m1, h1, hk⟩ := h
    simp only [SortProg.shift, SortProg.run]
    rw [sliceSwap_shift lt pre mid m1 post i j h1]
    exact SortProg.run_shift lt pre post p m1 mid1 hk

/-! ### Insertion sort and heap sort on a range are the procedures for the part, moved -/

theorem insertionLoop_shift (a : Int) : ∀ (d : Nat) (k : SortProg),
    (insertionLoop 0 d k).shift a = insertionLoop a d (k.shift a)
  | 0, k => rfl
  | d + 1, k => by
    have e1 : a + ((0 : Int) + ((d + 1 : Nat) : Int)) = a + ((d + 1 : Nat) : Int) := by
      rw [zero_add]
    have e2 : a + ((0 : Int) + ((d + 1 : Nat) : Int) - 1) = a + ((d + 1 : Nat) : Int) - 1 := by
      omega
    simp only [insertionLoop, SortProg.shift]
    rw [e1, e2]
    congr 1
    funext b
    cases b
    · rfl
    · simp only [if_true, SortProg.shift]
      rw [e1, e2, insertionLoop_shift a d k]

theorem insertionFrom_shift (a : Int) : ∀ (r d : Nat),
    (insertionFrom 0 d r).shift a = insertionFrom a d r
  | 0, d => by cases d <;> rfl
  | r + 1, d => by
    simp only [insertionFrom]
    rw [insertionLoop_shift, insertionFrom_shift a r (d + 1)]

theorem insertionSort_shift (a n : Nat) :
    (insertionSort 0 (n : Int)).shift (a : Int) = insertionSort (a : Int) ((a + n : Nat) : Int) := by
  have e1 : ((n : Int) - 0).toNat = n := by simp
  have e2 : (((a + n : Nat) : Int) - (a : Int)).toNat = n := by omega
  simp only [insertionSort]
  rw [e1, e2, insertionFrom_shift]

theorem siftDownLoop_shift (hi : Nat) (a : Int) (k : SortProg) : ∀ (fuel root : Nat),
    (siftDownLoop hi 0 k fuel root).shift a = siftDownLoop hi a (k.shift a) fuel root
  | 0, _ => rfl
  | fuel + 1, root => by
    simp only [siftDownLoop]
    by_cases h1 : hi ≤ 2 * root + 1
    · rw [if_pos h1, if_pos h1]
    · rw [if_neg h1, if_neg h1]
      by_cases h2 : 2 * root + 2 < hi
      · rw [if_pos h2, if_pos h2]
        simp only [SortProg.shift, zero_add]
        congr 1
        funext b
        congr 1
        funext c
        cases c
        · rfl
        · simp only [if_true, SortProg.shift, zero_add]
          rw [siftDownLoop_shift hi a k fuel]
      · rw [if_neg h2, if_neg h2]
        simp only [SortProg.shift, zero_add]
        congr 1
        funext c
        cases c
        · rfl
        · simp only [if_true, SortProg.shift, zero_add]
          rw [siftDownLoop_shift hi a k fuel]

theorem heapBuild_shift (hi : Nat) (a : Int) (k : SortProg) : ∀ n : Nat,
    (heapBuild hi 0 k n).shift a = heapBuild hi a (k.shift a) n
  | 0 => rfl
  | i + 1 => by
    simp only [heapBuild]
    rw [siftDownLoop_shift, heapBuild_shift hi a k i]

theorem heapPop_shift (a : Int) : ∀ n : Nat, (heapPop 0 n).shift a = heapPop a n
  | 0 => rfl
  | i + 1 => by
    simp only [heapPop, SortProg.shift, zero_add, add_zero]
    rw [siftDownLoop_shift, heapPop_shift a i]

theorem heapSort_shift (a n : Nat) :
    (heapSort 0 (n : Int)).shift (a : Int) = heapSort (a : Int) ((a + n : Nat) : Int) := by
  have e1 : ((n : Int) - 0).toNat = n := by simp
  have e2 : (((a + n : Nat) : Int) - (a : Int)).toNat = n := by omega
  simp only [heapSort]
  rw [e1, e2, heapBuild_shift, heapPop_shift]

/-! ### Insertion sort and heap sort put a range in order -/

theorem getElem?_append3 {α : Type} (pre mid post : List α) (i : Nat) :
    (pre ++ mid ++ post)[i]? =
      if i < pre.length then pre[i]?
      else if i < pre.length + mid.length then mid[i - pre.length]?
      else post[i - pre.length - mid.length]? := by
  by_cases h1 : i < pre.length
  · rw [if_pos h1, List.append_assoc, List.getElem?_append_left h1]
  · rw [if_neg h1, List.append_assoc, List.getElem?_append_right (by omega)]
    by_cases h2 : i < pre.length + mid.length
    · rw [if_pos h2, List.getElem?_append_left (by omega)]
    · rw [if_neg h2, List.getElem?_append_right (by omega)]

theorem within_of_perm {α : Type} (pre mid mid1 post : List α) (hperm : mid1.Perm mid) :
    Within pre.length (pre.length + mid.length) (pre ++ mid ++ post) (pre ++ mid1 ++ post) := by
  have hl : mid1.length = mid.length := hperm.length_eq
  refine ⟨by simp [hl], ?_, ?_⟩
  · intro i hi
    rw [getElem?_append3, getElem?_append3, hl]
    rcases hi with hi | hi
    · rw [if_pos hi, if_pos hi]
    · rw [if_neg (by omega), if_neg (by omega), if_neg (by omega), if_neg (by omega)]
  · intro i h1 h2
    have hi : i - pre.length < mid1.length := by omega
    have hmem : mid1[i - pre.length] ∈ mid := hperm.subset (List.getElem_mem hi)
    obtain ⟨j, hj, hjx⟩ := List.getElem_of_mem hmem
    refine ⟨pre.length + j, by omega, by omega, ?_⟩
    rw [getElem?_append3, getElem?_append3, if_neg (by omega), if_pos (by omega),
      if_neg (by omega), if_pos (by omega), Nat.add_sub_cancel_left,
      List.getElem?_eq_getElem hj, List.getElem?_eq_getElem hi, hjx]

theorem sortedRange_of_pairwise {α : Type} (lt : α → α → Bool) (pre mid1 post : List α)
    (h : mid1.Pairwise (fun x y => lt y x = false)) :
    SortedRange lt (pre ++ mid1 ++ post) pre.length (pre.length + mid1.length) := by
  intro p q hp hpq hq x y hx hy
  rw [getElem?_append3, if_neg (by omega), if_pos (by omega)] at hx hy
  have hq1 : q - pre.length < mid1.length := by omega
  have hp1 : p - pre.length < mid1.length := by omega
  rw [List.getElem?_eq_getElem hq1] at hx
  rw [List.getElem?_eq_getElem hp1] at hy
  have := List.pairwise_iff_getElem.mp h (p - pre.length) (q - pre.length) hp1 hq1 (by omega)
  rw [← Option.some.inj hx, ← Option.some.inj hy]
  exact this

/-- A procedure that sorts a whole slice sorts, moved up by `a`, the range from `a` on of
the length it was made for. -/
theorem run_shift_sorts {α : Type} (lt : α → α → Bool) (p : SortProg) (xs : List α)
    (a n : Nat) (hlen : a + n ≤ xs.length) (mid1 : List α)
    (hrun : p.run (sliceInterface lt) ((xs.drop a).take n) = some mid1)
    (hsorted : mid1.Pairwise (fun x y => lt y x = false)) :
    ∃ ys, (p.shift a).run (sliceInterface lt) xs = some ys ∧
      Within a (a + n) xs ys ∧ SortedRange lt ys a (a + n) := by
  have hperm : mid1.Perm ((xs.drop a).take n) :=
    SortProg.run_perm (sliceInterface lt) (fun u v i j h => sliceSwap_perm lt u v i j h)
      p _ mid1 hrun
  have hpre : (xs.take a).length = a := by simp; omega
  have hmid : ((xs.drop a).take n).length = n := by simp; omega
  have hxs : xs = xs.take a ++ (xs.drop a).take n ++ xs.drop (a + n) := by
    rw [List.append_assoc, ← List.drop_drop, List.take_append_drop, List.take_append_drop]
  have h := SortProg.run_shift lt (xs.take a) (xs.drop (a + n)) p _ mid1 hrun
  rw [hpre, ← hxs] at h
  refine ⟨_, h, ?_, ?_⟩
  · have hw := within_of_perm (xs.take a) _ mid1 (xs.drop (a + n)) hperm
    rw [hpre, hmid, ← hxs] at hw
    exact hw
  · have hs := sortedRange_of_pairwise lt (xs.take a) mid1 (xs.drop (a + n)) hsorted
    rw [hpre, hperm.length_eq, hmid] at hs
    exact hs

/-- The library's `insertionSort(data, a, b)` returns, changes the slice within `[a, b)`
only and leaves that range in ascending order. -/
theorem insertionSort_range {α : Type} (lt : α → α → Bool) (hlt : StrictWeakOrder lt)
    (xs : List α) (a b : Nat) (hab : a ≤ b) (hb : b ≤ xs.length) :
    ∃ ys, (insertionSort (a : Int) (b : Int)).run (sliceInterface lt) xs = some ys ∧
      Within a b xs ys ∧ SortedRange lt ys a b := by
  obtain ⟨mid1, hrun, hsorted⟩ := insertionSortImpl_contract α lt hlt ((xs.drop a).take (b - a))
  have hmid : ((xs.drop a).take (b - a)).length = b - a := by simp; omega
  have hrun2 : (insertionSort 0 ((b - a : Nat) : Int)).run (sliceInterface lt)
      ((xs.drop a).take (b - a)) = some mid1 := by
    have := hrun
    simp only [sortSort, insertionSortImpl, sliceInterface] at this
    rw [hmid] at this
    exact this
  have h := run_shift_sorts lt _ xs a (b - a) (by omega) mid1 hrun2 hsorted
  rw [insertionSort_shift, Nat.add_sub_cancel' hab] at h
  exact h

/-- The library's `heapSort(data, a, b)` returns, changes the slice within `[a, b)` only
and leaves that range in ascending order. -/
theorem heapSort_range {α : Type} (lt : α → α → Bool) (hlt : StrictWeakOrder lt)
    (xs : List α) (a b : Nat) (hab : a ≤ b) (hb : b ≤ xs.length) :
    ∃ ys, (heapSort (a : Int) (b : Int)).run (sliceInterface lt) xs = some ys ∧
      Within a b xs ys ∧ SortedRange lt ys a b := by
  obtain ⟨mid1, hrun, hsorted⟩ := heapSortImpl_contract α lt hlt ((xs.drop a).take (b - a))
  have hmid : ((xs.drop a).take (b - a)).length = b - a := by simp; omega
  have hrun2 : (heapSort 0 ((b - a : Nat) : Int)).run (sliceInterface lt)
      ((xs.drop a).take (b - a)) = some mid1 := by
    have := hrun
    simp only [sortSort, heapSortImpl, sliceInterface] at this
    rw [hmid] at this
    exact this
  have h := run_shift_sorts lt _ xs a (b - a) (by omega) mid1 hrun2 hsorted
  rw [heapSort_shift, Nat.add_sub_cancel' hab] at h
  exact h

/-! ### Single calls of `Less` and `Swap`, and slices changed within a range -/

/-- A call `data.Less(i, j)` with both indices in range returns the comparison of the two
elements. -/
theorem run_less_cast {α : Type} (lt : α → α → Bool) (xs : List α) (i j : Nat)
    (f : Bool → SortProg) (hi : i < xs.length) (hj : j < xs.length) :
    (SortProg.less (i : Int) (j : Int) f).run (sliceInterface lt) xs =
      (f (optLess lt xs[i]? xs[j]?)).run (sliceInterface lt) xs := by
  have hx : xs[i]? = some xs[i] := List.getElem?_eq_getElem hi
  have hy : xs[j]? = some xs[j] := List.getElem?_eq_getElem hj
  have h := sliceLess_natCast lt xs i j _ _ hx hy
  rw [zero_add, zero_add] at h
  simp only [SortProg.run]
  rw [h, hx, hy]
  rfl

/-- A call `data.Swap(i, j)` with both indices in range exchanges the two elements. -/
theorem run_swap_cast {α : Type} (lt : α → α → Bool) (xs : List α) (i j : Nat)
    (p : SortProg) (hi : i < xs.length) (hj : j < xs.length) :
    (SortProg.swap (i : Int) (j : Int) p).run (sliceInterface lt) xs =
      p.run (sliceInterface lt) (swapAt xs i j) := by
  have h := sliceSwap_natCast lt xs i j hi hj
  rw [zero_add, zero_add] at h
  simp only [SortProg.run]
  rw [h]
  rfl

theorem optLess_some {α : Type} (lt : α → α → Bool) (x y : α) :
    optLess lt (some x) (some y) = lt x y := rfl

theorem optLess_irrefl {α : Type} {lt : α → α → Bool} (hlt : StrictWeakOrder lt)
    (a : Option α) : optLess lt a a = false := by
  cases a with
  | none => rfl
  | some x => exact hlt.irrefl x

theorem optLess_asymm {α : Type} {lt : α → α → Bool} (hlt : StrictWeakOrder lt)
    {a b : Option α} (h : optLess lt a b = true) : optLess lt b a = false := by
  cases a with
  | none => cases b <;> rfl
  | some x =>
    cases b with
    | none => rfl
    | some y => exact hlt.asymm x y h

theorem optLess_negTrans {α : Type} {lt : α → α → Bool} (hlt : StrictWeakOrder lt)
    {a b c : Option α} (hb : b.isSome = true) (h1 : optLess lt a b = false)
    (h2 : optLess lt b c = false) : optLess lt a c = false := by
  cases a with
  | none => rfl
  | some x =>
    cases c with
    | none => rfl
    | some z =>
      cases b with
      | none => exact absurd hb (by simp)
      | some y => exact hlt.negTrans x y z h1 h2

theorem notBelow_of_optLess {α : Type} {lt : α → α → Bool} {a b : Option α}
    (h : optLess lt a b = false) : NotBelow lt a b := by
  intro x y hx hy
  rw [hx, hy] at h
  exact h

theorem within_refl {α : Type} (a b : Nat) (xs : List α) : Within a b xs xs :=
  ⟨rfl, fun _ _ => rfl, fun i h1 h2 => ⟨i, h1, h2, rfl⟩⟩

theorem within_trans {α : Type} {a b : Nat} {xs ys zs : List α}
    (h1 : Within a b xs ys) (h2 : Within a b ys zs) : Within a b xs zs := by
  refine ⟨h2.1.trans h1.1, fun i hi => (h2.2.1 i hi).trans (h1.2.1 i hi), ?_⟩
  intro i hi1 hi2
  obtain ⟨j, hj1, hj2, hj⟩ := h2.2.2 i hi1 hi2
  obtain ⟨l, hl1, hl2, hl⟩ := h1.2.2 j hj1 hj2
  exact ⟨l, hl1, hl2, hl.trans hj⟩

theorem within_mono {α : Type} {a b a1 b1 : Nat} {xs ys : List α}
    (ha : a1 ≤ a) (hb : b ≤ b1) (h : Within a b xs ys) : Within a1 b1 xs ys := by
  refine ⟨h.1, fun i hi => h.2.1 i (by omega), ?_⟩
  intro i hi1 hi2
  by_cases hin : a ≤ i ∧ i < b
  · obtain ⟨j, hj1, hj2, hj⟩ := h.2.2 i hin.1 hin.2
    exact ⟨j, by omega, by omega, hj⟩
  · exact ⟨i, hi1, hi2, (h.2.1 i (by omega)).symm⟩

theorem within_swapAt {α : Type} (a b : Nat) (xs : List α) (i j : Nat)
    (hi : a ≤ i ∧ i < b) (hj : a ≤ j ∧ j < b) (hb : b ≤ xs.length) :
    Within a b xs (swapAt xs i j) := by
  have hget := fun m => getElem?_swapAt xs i j m (by omega) (by omega)
  refine ⟨swapAt_length xs i j, ?_, ?_⟩
  · intro m hm
    rw [hget m, if_neg (by omega), if_neg (by omega)]
  · intro m hm1 hm2
    rw [hget m]
    by_cases h1 : m = j
    · rw [if_pos h1]
      exact ⟨i, hi.1, hi.2, rfl⟩
    · rw [if_neg h1]
      by_cases h2 : m = i
      · rw [if_pos h2]
        exact ⟨j, hj.1, hj.2, rfl⟩
      · rw [if_neg h2]
        exact ⟨m, hm1, hm2, rfl⟩

/-! ### The shell pass and `medianOfThree` -/

theorem rangeAll_of_within {α : Type} {P : Option α → Prop} {a b : Nat} {xs ys : List α}
    (hw : Within a b xs ys) (h : RangeAll P xs a b) : RangeAll P ys a b := by
  intro i hi1 hi2
  obtain ⟨j, hj1, hj2, hj⟩ := hw.2.2 i hi1 hi2
  rw [← hj]
  exact h j hj1 hj2

theorem rangeAll_congr {α : Type} {P : Option α → Prop} {a b : Nat} {xs ys : List α}
    (he : ∀ i, a ≤ i → i < b → ys[i]? = xs[i]?) (h : RangeAll P xs a b) :
    RangeAll P ys a b := by
  intro i hi1 hi2
  rw [he i hi1 hi2]
  exact h i hi1 hi2

/-- The shell pass of `quickSort` returns and changes the slice within `[a, b)` only. -/
theorem shellPass_run {α : Type} (lt : α → α → Bool) (a b : Nat) (k : SortProg) :
    ∀ (fuel i : Nat) (xs : List α), b ≤ xs.length → a + 6 ≤ i →
      ∃ ys, (shellPass b k fuel i).run (sliceInterface lt) xs = k.run (sliceInterface lt) ys ∧
        Within a b xs ys
  | 0, _, xs, _, _ => ⟨xs, rfl, within_refl a b xs⟩
  | fuel + 1, i, xs, hb, hi => by
    unfold shellPass
    by_cases hib : i < b
    · rw [if_pos hib, run_less_cast lt xs i (i - 6) _ (by omega) (by omega)]
      cases optLess lt xs[i]? xs[i - 6]? with
      | false =>
        simp only [Bool.false_eq_true, if_false]
        exact shellPass_run lt a b k fuel (i + 1) xs hb (by omega)
      | true =>
        simp only [if_true]
        rw [run_swap_cast lt xs i (i - 6) _ (by omega) (by omega)]
        obtain ⟨ys, hrun, hw⟩ := shellPass_run lt a b k fuel (i + 1) (swapAt xs i (i - 6))
          (by rw [swapAt_length]; exact hb) (by omega)
        exact ⟨ys, hrun, within_trans
          (within_swapAt a b xs i (i - 6) ⟨by omega, hib⟩ ⟨by omega, by omega⟩ hb) hw⟩
    · rw [if_neg hib]
      exact ⟨xs, rfl, within_refl a b xs⟩

/-- The library's `medianOfThree(data, m1, m0, m2)` on three different indices of
`[lo, hi)` returns, changes the slice within `[lo, hi)` only, and afterwards
`data[m2]` does not sort before `data[m1]`. -/
theorem medianOfThree_run {α : Type} (lt : α → α → Bool) (hlt : StrictWeakOrder lt)
    (lo hi m1 m0 m2 : Nat) (k : SortProg) (xs : List α) (hlen : hi ≤ xs.length)
    (h1 : lo ≤ m1 ∧ m1 < hi) (h0 : lo ≤ m0 ∧ m0 < hi) (h2 : lo ≤ m2 ∧ m2 < hi)
    (hd : m1 ≠ m0 ∧ m1 ≠ m2 ∧ m0 ≠ m2) :
    ∃ ys, (medianOfThree m1 m0 m2 k).run (sliceInterface lt) xs =
        k.run (sliceInterface lt) ys ∧
      Within lo hi xs ys ∧ optLess lt ys[m2]? ys[m1]? = false := by
  unfold medianOfThree
  rw [run_less_cast lt xs m1 m0 _ (by omega) (by omega)]
  -- the state after the first conditional exchange
  obtain ⟨s1, hs1, hw1, hord1⟩ : ∃ s1 : List α,
      (∀ rest : SortProg,
        (if optLess lt xs[m1]? xs[m0]? = true then SortProg.swap (m1 : Int) (m0 : Int) rest
          else rest).run (sliceInterface lt) xs = rest.run (sliceInterface lt) s1) ∧
      Within lo hi xs s1 ∧ optLess lt s1[m1]? s1[m0]? = false := by
    cases hr : optLess lt xs[m1]? xs[m0]? with
    | false =>
      exact ⟨xs, fun rest => by simp, within_refl lo hi xs, hr⟩
    | true =>
      refine ⟨swapAt xs m1 m0, fun rest => ?_, within_swapAt lo hi xs m1 m0 h1 h0 hlen, ?_⟩
      · simp only [if_true]
        exact run_swap_cast lt xs m1 m0 rest (by omega) (by omega)
      · rw [getElem?_swapAt xs m1 m0 m1 (by omega) (by omega),
          getElem?_swapAt xs m1 m0 m0 (by omega) (by omega), if_neg hd.1, if_pos rfl,
          if_pos rfl]
        exact optLess_asymm hlt hr
  rw [hs1]
  have hl1 : s1.length = xs.length := hw1.1
  rw [run_less_cast lt s1 m2 m1 _ (by omega) (by omega)]
  cases hr2 : optLess lt s1[m2]? s1[m1]? with
  | false =>
    simp only [Bool.false_eq_true, if_false]
    exact ⟨s1, rfl, hw1, hr2⟩
  | true =>
    simp only [if_true]
    rw [run_swap_cast lt s1 m2 m1 _ (by omega) (by omega)]
    have hw2 : Within lo hi xs (swapAt s1 m2 m1) :=
      within_trans hw1 (within_swapAt lo hi s1 m2 m1 h2 h1 (by omega))
    have hg := fun m => getElem?_swapAt s1 m2 m1 m (by omega) (by omega)
    have hl2 : (swapAt s1 m2 m1).length = xs.length := hw2.1
    rw [run_less_cast lt (swapAt s1 m2 m1) m1 m0 _ (by omega) (by omega)]
    have e1 : (swapAt s1 m2 m1)[m1]? = s1[m2]? := by rw [hg m1, if_pos rfl]
    have e0 : (swapAt s1 m2 m1)[m0]? = s1[m0]? := by
      rw [hg m0, if_neg (Ne.symm hd.1), if_neg hd.2.2]
    have e2 : (swapAt s1 m2 m1)[m2]? = s1[m1]? := by
      rw [hg m2, if_neg (Ne.symm hd.2.1), if_pos rfl]
    cases hr3 : optLess lt (swapAt s1 m2 m1)[m1]? (swapAt s1 m2 m1)[m0]? with
    | false =>
      simp only [Bool.false_eq_true, if_false]
      refine ⟨swapAt s1 m2 m1, rfl, hw2, ?_⟩
      rw [e2, e1]
      exact optLess_asymm hlt hr2
    | true =>
      simp only [if_true]
      rw [run_swap_cast lt (swapAt s1 m2 m1) m1 m0 _ (by omega) (by omega)]
      refine ⟨swapAt (swapAt s1 m2 m1) m1 m0, rfl,
        within_trans hw2 (within_swapAt lo hi _ m1 m0 h1 h0 (by omega)), ?_⟩
      rw [getElem?_swapAt _ m1 m0 m2 (by omega) (by omega),
        getElem?_swapAt _ m1 m0 m1 (by omega) (by omega), if_neg (Ne.symm hd.2.2),
        if_neg (Ne.symm hd.2.1), if_neg hd.1, if_pos rfl, e2, e0]
      exact hord1

/-! ### The four scans of `doPivot` -/

/-- The scan `for ; a < c && data.Less(a, pivot); a++` changes nothing, passes over
elements that sort before the pivot, and stops below `c` only at one that does not. -/
theorem pivotScanBelow_run {α : Type} (lt : α → α → Bool) (pivot c : Nat)
    (k : Nat → SortProg) (xs : List α) (hp : pivot < xs.length) (hc : c ≤ xs.length) :
    ∀ (fuel a : Nat), ∃ a1,
      (pivotScanBelow pivot c k fuel a).run (sliceInterface lt) xs =
        (k a1).run (sliceInterface lt) xs ∧
      a ≤ a1 ∧ (a ≤ c → a1 ≤ c) ∧
      RangeAll (fun e => optLess lt e xs[pivot]? = true) xs a a1 ∧
      (c - a ≤ fuel → a1 < c → optLess lt xs[a1]? xs[pivot]? = false)
  | 0, a => ⟨a, rfl, le_refl a, fun h => h, fun i h1 h2 => by omega, fun h1 h2 => by omega⟩
  | fuel + 1, a => by
    unfold pivotScanBelow
    by_cases hac : a < c
    · rw [if_pos hac, run_less_cast lt xs a pivot _ (by omega) hp]
      cases hr : optLess lt xs[a]? xs[pivot]? with
      | false =>
        simp only [Bool.false_eq_true, if_false]
        exact ⟨a, rfl, le_refl a, fun h => h, fun i h1 h2 => by omega, fun _ _ => hr⟩
      | true =>
        simp only [if_true]
        obtain ⟨a1, hrun, h1, h2, h3, h4⟩ := pivotScanBelow_run lt pivot c k xs hp hc fuel (a + 1)
        refine ⟨a1, hrun, by omega, fun _ => h2 (by omega), ?_, fun hf => h4 (by omega)⟩
        intro i hi1 hi2
        by_cases hia : i = a
        · rw [hia]
          exact hr
        · exact h3 i (by omega) hi2
    · rw [if_neg hac]
      exact ⟨a, rfl, le_refl a, fun h => h, fun i h1 h2 => by omega, fun h1 h2 => by omega⟩

/-- The scan `for ; b < c && !data.Less(pivot, b); b++` changes nothing, passes over
elements the pivot does not sort before, and stops below `c` only at one it does. -/
theorem pivotScanNotAbove_run {α : Type} (lt : α → α → Bool) (pivot c : Nat)
    (k : Nat → SortProg) (xs : List α) (hp : pivot < xs.length) (hc : c ≤ xs.length) :
    ∀ (fuel b : Nat), ∃ b1,
      (pivotScanNotAbove pivot c k fuel b).run (sliceInterface lt) xs =
        (k b1).run (sliceInterface lt) xs ∧
      b ≤ b1 ∧ (b ≤ c → b1 ≤ c) ∧
      RangeAll (fun e => optLess lt xs[pivot]? e = false) xs b b1 ∧
      (c - b ≤ fuel → b1 < c → optLess lt xs[pivot]? xs[b1]? = true)
  | 0, b => ⟨b, rfl, le_refl b, fun h => h, fun i h1 h2 => by omega, fun h1 h2 => by omega⟩
  | fuel + 1, b => by
    unfold pivotScanNotAbove
    by_cases hbc : b < c
    · rw [if_pos hbc, run_less_cast lt xs pivot b _ hp (by omega)]
      cases hr : optLess lt xs[pivot]? xs[b]? with
      | true =>
        simp only [if_true]
        exact ⟨b, rfl, le_refl b, fun h => h, fun i h1 h2 => by omega, fun _ _ => hr⟩
      | false =>
        simp only [Bool.false_eq_true, if_false]
        obtain ⟨b1, hrun, h1, h2, h3, h4⟩ :=
          pivotScanNotAbove_run lt pivot c k xs hp hc fuel (b + 1)
        refine ⟨b1, hrun, by omega, fun _ => h2 (by omega), ?_, fun hf => h4 (by omega)⟩
        intro i hi1 hi2
        by_cases hib : i = b
        · rw [hib]
          exact hr
        · exact h3 i (by omega) hi2
    · rw [if_neg hbc]
      exact ⟨b, rfl, le_refl b, fun h => h, fun i h1 h2 => by omega, fun h1 h2 => by omega⟩

/-- The scan `for ; b < c && data.Less(pivot, c-1); c--` changes nothing, passes over
elements the pivot sorts before, and stops above `b` only at one it does not. -/
theorem pivotScanAbove_run {α : Type} (lt : α → α → Bool) (pivot b : Nat)
    (k : Nat → SortProg) (xs : List α) (hp : pivot < xs.length) :
    ∀ (fuel c : Nat), c ≤ xs.length → ∃ c1,
      (pivotScanAbove pivot b k fuel c).run (sliceInterface lt) xs =
        (k c1).run (sliceInterface lt) xs ∧
      c1 ≤ c ∧ (b ≤ c → b ≤ c1) ∧
      RangeAll (fun e => optLess lt xs[pivot]? e = true) xs c1 c ∧
      (c - b ≤ fuel → b < c1 → optLess lt xs[pivot]? xs[c1 - 1]? = false)
  | 0, c, _ =>
    ⟨c, rfl, le_refl c, fun h => h, fun i h1 h2 => by omega, fun h1 h2 => by omega⟩
  | fuel + 1, c, hc => by
    unfold pivotScanAbove
    by_cases hbc : b < c
    · rw [if_pos hbc, run_less_cast lt xs pivot (c - 1) _ hp (by omega)]
      cases hr : optLess lt xs[pivot]? xs[c - 1]? with
      | false =>
        simp only [Bool.false_eq_true, if_false]
        exact ⟨c, rfl, le_refl c, fun h => h, fun i h1 h2 => by omega, fun _ _ => hr⟩
      | true =>
        simp only [if_true]
        obtain ⟨c1, hrun, h1, h2, h3, h4⟩ :=
          pivotScanAbove_run lt pivot b k xs hp fuel (c - 1) (by omega)
        refine ⟨c1, hrun, by omega, fun _ => h2 (by omega), ?_, fun hf => h4 (by omega)⟩
        intro i hi1 hi2
        by_cases hic : i = c - 1
        · rw [hic]
          exact hr
        · exact h3 i hi1 (by omega)
    · rw [if_neg hbc]
      exact ⟨c, rfl, le_refl c, fun h => h, fun i h1 h2 => by omega, fun h1 h2 => by omega⟩

/-- The scan `for ; a < b && !data.Less(b-1, pivot); b--` changes nothing, passes over
elements that do not sort before the pivot, and stops above `a` only at one that
does. -/
theorem pivotScanEqual_run {α : Type} (lt : α → α → Bool) (pivot a : Nat)
    (k : Nat → SortProg) (xs : List α) (hp : pivot < xs.length) :
    ∀ (fuel b : Nat), b ≤ xs.length → ∃ b1,
      (pivotScanEqual pivot a k fuel b).run (sliceInterface lt) xs =
        (k b1).run (sliceInterface lt) xs ∧
      b1 ≤ b ∧ (a ≤ b → a ≤ b1) ∧ (b ≤ a → b1 = b) ∧
      RangeAll (fun e => optLess lt e xs[pivot]? = false) xs b1 b ∧
      (b - a ≤ fuel → a < b1 → optLess lt xs[b1 - 1]? xs[pivot]? = true)
  | 0, b, _ =>
    ⟨b, rfl, le_refl b, fun h => h, fun _ => rfl, fun i h1 h2 => by omega, fun h1 h2 => by omega⟩
  | fuel + 1, b, hb => by
    unfold pivotScanEqual
    by_cases hab : a < b
    · rw [if_pos hab, run_less_cast lt xs (b - 1) pivot _ (by omega) hp]
      cases hr : optLess lt xs[b - 1]? xs[pivot]? with
      | true =>
        simp only [if_true]
        exact ⟨b, rfl, le_refl b, fun h => h, fun _ => rfl, fun i h1 h2 => by omega, fun _ _ => hr⟩
      | false =>
        simp only [Bool.false_eq_true, if_false]
        obtain ⟨b1, hrun, h1, h2, _, h3, h4⟩ :=
          pivotScanEqual_run lt pivot a k xs hp fuel (b - 1) (by omega)
        refine ⟨b1, hrun, by omega, fun _ => h2 (by omega), fun _ => by omega, ?_,
          fun hf => h4 (by omega)⟩
        intro i hi1 hi2
        by_cases hib : i = b - 1
        · rw [hib]
          exact hr
        · exact h3 i hi1 (by omega)
    · rw [if_neg hab]
      exact ⟨b, rfl, le_refl b, fun h => h, fun _ => rfl, fun i h1 h2 => by omega, fun h1 h2 => by omega⟩

/-! ### The partitioning loop of `doPivot` -/

/-- The partitioning loop of `doPivot` returns with `b = c`, having changed the slice
within `[lo+1, hi)` only: below the meeting point no element has the pivot before it,
from the meeting point on no element sorts before the pivot. -/
theorem pivotPartition_run {α : Type} (lt : α → α → Bool) (hlt : StrictWeakOrder lt)
    (lo hi n : Nat) (k : Nat → Nat → SortProg) (pv : Option α) :
    ∀ (fuel b c : Nat) (xs : List α), hi ≤ xs.length → lo < b → b ≤ c → c < hi →
      c - b ≤ fuel → c - b ≤ n → xs[lo]? = pv →
      RangeAll (fun e => optLess lt pv e = false) xs (lo + 1) b →
      RangeAll (fun e => optLess lt e pv = false) xs c hi →
      ∃ ys m, (pivotPartition lo n k fuel b c).run (sliceInterface lt) xs =
          (k m m).run (sliceInterface lt) ys ∧
        Within (lo + 1) hi xs ys ∧ b ≤ m ∧ m ≤ c ∧
        RangeAll (fun e => optLess lt pv e = false) ys (lo + 1) m ∧
        RangeAll (fun e => optLess lt e pv = false) ys m hi
  | 0, b, c, xs, _, _, hbc, _, hf, _, _, hle, hge => by
    have e : c = b := by omega
    subst e
    exact ⟨xs, c, rfl, within_refl _ _ xs, le_refl c, le_refl c, hle, hge⟩
  | fuel + 1, b, c, xs, hlen, hlo, hbc, hch, hf, hn, hpv, hle, hge => by
    unfold pivotPartition
    obtain ⟨b1, hrun1, hb1, hb1c, hscan1, hexit1⟩ :=
      pivotScanNotAbove_run lt lo c
        (fun b1 => pivotScanAbove lo b1 (fun c1 =>
          if b1 ≥ c1 then k b1 c1
          else .swap b1 (c1 - 1 : Nat) (pivotPartition lo n k fuel (b1 + 1) (c1 - 1))) n c)
        xs (by omega) (by omega) n b
    rw [hrun1]
    obtain ⟨c1, hrun2, hc1, hc1b, hscan2, hexit2⟩ :=
      pivotScanAbove_run lt lo b1 (fun c1 =>
          if b1 ≥ c1 then k b1 c1
          else .swap b1 (c1 - 1 : Nat) (pivotPartition lo n k fuel (b1 + 1) (c1 - 1)))
        xs (by omega) n c (by omega)
    rw [hrun2]
    rw [hpv] at hscan1 hexit1 hscan2 hexit2
    have hb1c1 := hb1c hbc
    have hc1b1 := hc1b hb1c1
    have hLE : RangeAll (fun e => optLess lt pv e = false) xs (lo + 1) b1 := by
      intro i hi1 hi2
      by_cases hib : i < b
      · exact hle i hi1 hib
      · exact hscan1 i (by omega) hi2
    have hGE : RangeAll (fun e => optLess lt e pv = false) xs c1 hi := by
      intro i hi1 hi2
      by_cases hic : c ≤ i
      · exact hge i hic hi2
      · exact optLess_asymm hlt (hscan2 i hi1 (by omega))
    by_cases hdone : b1 ≥ c1
    · rw [if_pos hdone]
      have e : c1 = b1 := by omega
      subst e
      exact ⟨xs, c1, rfl, within_refl _ _ xs, hb1, hb1c1, hLE, hGE⟩
    · rw [if_neg hdone]
      have hx1 := hexit1 (by omega) (by omega)
      have hx2 := hexit2 (by omega) (by omega)
      have hne : b1 ≠ c1 - 1 := by
        intro e
        rw [← e, hx1] at hx2
        exact absurd hx2 (by simp)
      rw [run_swap_cast lt xs b1 (c1 - 1) _ (by omega) (by omega)]
      have hg := fun m => getElem?_swapAt xs b1 (c1 - 1) m (by omega) (by omega)
      obtain ⟨ys, m, hrun, hw, hm1, hm2, hle2, hge2⟩ :=
        pivotPartition_run lt hlt lo hi n k pv fuel (b1 + 1) (c1 - 1) (swapAt xs b1 (c1 - 1))
          (by rw [swapAt_length]; exact hlen) (by omega) (by omega) (by omega) (by omega)
          (by omega)
          (by rw [hg lo, if_neg (by omega), if_neg (by omega)]; exact hpv)
          (by
            intro i hi1 hi2
            show optLess lt pv (swapAt xs b1 (c1 - 1))[i]? = false
            rw [hg i]
            by_cases hib : i = b1
            · rw [if_neg (by omega), if_pos hib]
              exact hx2
            · rw [if_neg (by omega), if_neg hib]
              exact hLE i hi1 (by omega))
          (by
            intro i hi1 hi2
            show optLess lt (swapAt xs b1 (c1 - 1))[i]? pv = false
            rw [hg i]
            by_cases hic : i = c1 - 1
            · rw [if_pos hic]
              exact optLess_asymm hlt hx1
            · rw [if_neg hic, if_neg (by omega)]
              exact hGE i (by omega) hi2)
      exact ⟨ys, m, hrun, within_trans
        (within_swapAt (lo + 1) hi xs b1 (c1 - 1) ⟨by omega, by omega⟩ ⟨by omega, by omega⟩
          hlen) hw, by omega, by omega, hle2, hge2⟩

/-! ### The protection against duplicates and the end of `doPivot` -/

/-- The loop of `doPivot` that protects against duplicates returns a new `b` above
`lo`, having changed the slice within `[lo+1, top)` only; from the new `b` to `top`
no element sorts before the pivot. -/
theorem pivotProtect_run {α : Type} (lt : α → α → Bool) (lo top n : Nat)
    (k : Nat → SortProg) (pv : Option α) :
    ∀ (fuel a b : Nat) (xs : List α), top ≤ xs.length → lo < a → lo < b → b ≤ top →
      b - a ≤ n → xs[lo]? = pv →
      RangeAll (fun e => optLess lt e pv = false) xs b top →
      ∃ ys b1, (pivotProtect lo n k fuel a b).run (sliceInterface lt) xs =
          (k b1).run (sliceInterface lt) ys ∧
        Within (lo + 1) top xs ys ∧ lo < b1 ∧ b1 ≤ b ∧
        RangeAll (fun e => optLess lt e pv = false) ys b1 top
  | 0, a, b, xs, _, _, hb, _, _, _, hge =>
    ⟨xs, b, rfl, within_refl _ _ xs, hb, le_refl b, hge⟩
  | fuel + 1, a, b, xs, hlen, ha, hb, hbt, hn, hpv, hge => by
    unfold pivotProtect
    obtain ⟨b1, hrun1, hb1, hab1, hba1, hscan1, _⟩ :=
      pivotScanEqual_run lt lo a
        (fun b1 => pivotScanBelow lo b1 (fun a1 =>
          if a1 ≥ b1 then k b1
          else .swap a1 (b1 - 1 : Nat) (pivotProtect lo n k fuel (a1 + 1) (b1 - 1))) n a)
        xs (by omega) n b (by omega)
    rw [hrun1]
    obtain ⟨a1, hrun2, ha1, _, _, hexit2⟩ :=
      pivotScanBelow_run lt lo b1 (fun a1 =>
          if a1 ≥ b1 then k b1
          else .swap a1 (b1 - 1 : Nat) (pivotProtect lo n k fuel (a1 + 1) (b1 - 1)))
        xs (by omega) (by omega) n a
    rw [hrun2]
    rw [hpv] at hscan1 hexit2
    have hlob1 : lo < b1 := by
      by_cases h : a ≤ b
      · have := hab1 h
        omega
      · have := hba1 (by omega)
        omega
    have hGE : RangeAll (fun e => optLess lt e pv = false) xs b1 top := by
      intro i hi1 hi2
      by_cases hib : b ≤ i
      · exact hge i hib hi2
      · exact hscan1 i hi1 (by omega)
    by_cases hdone : a1 ≥ b1
    · rw [if_pos hdone]
      exact ⟨xs, b1, rfl, within_refl _ _ xs, hlob1, hb1, hGE⟩
    · rw [if_neg hdone]
      have hx := hexit2 (by omega) (by omega)
      rw [run_swap_cast lt xs a1 (b1 - 1) _ (by omega) (by omega)]
      have hg := fun m => getElem?_swapAt xs a1 (b1 - 1) m (by omega) (by omega)
      obtain ⟨ys, b2, hrun, hw, hb2, hb2b, hge2⟩ :=
        pivotProtect_run lt lo top n k pv fuel (a1 + 1) (b1 - 1) (swapAt xs a1 (b1 - 1))
          (by rw [swapAt_length]; exact hlen) (by omega) (by omega) (by omega) (by omega)
          (by rw [hg lo, if_neg (by omega), if_neg (by omega)]; exact hpv)
          (by
            intro i hi1 hi2
            show optLess lt (swapAt xs a1 (b1 - 1))[i]? pv = false
            rw [hg i]
            by_cases hib : i = b1 - 1
            · rw [if_pos hib]
              exact hx
            · rw [if_neg hib, if_neg (by omega)]
              exact hGE i (by omega) hi2)
      exact ⟨ys, b2, hrun, within_trans
        (within_swapAt (lo + 1) top xs a1 (b1 - 1) ⟨by omega, by omega⟩ ⟨by omega, by omega⟩
          hlen) hw, hb2, by omega, hge2⟩

/-- The last step of `doPivot`, `data.Swap(pivot, b-1)`. -/
theorem pivotPlace_run {α : Type} (lt : α → α → Bool) (hlt : StrictWeakOrder lt)
    (lo hi b c : Nat) (p : SortProg) (pv : Option α) (xs : List α)
    (hlen : hi ≤ xs.length) (hb : lo < b) (hbc : b ≤ c) (hc : c ≤ hi) (hpv : xs[lo]? = pv)
    (hle : RangeAll (fun e => optLess lt pv e = false) xs (lo + 1) c)
    (hge : RangeAll (fun e => optLess lt e pv = false) xs b hi) :
    ∃ ys, (SortProg.swap (lo : Int) ((b - 1 : Nat) : Int) p).run (sliceInterface lt) xs =
        p.run (sliceInterface lt) ys ∧
      Within lo hi xs ys ∧
      RangeAll (fun e => optLess lt pv e = false) ys lo c ∧
      RangeAll (fun e => optLess lt e pv = false) ys (b - 1) hi := by
  rw [run_swap_cast lt xs lo (b - 1) _ (by omega) (by omega)]
  have hg := fun m => getElem?_swapAt xs lo (b - 1) m (by omega) (by omega)
  refine ⟨swapAt xs lo (b - 1), rfl,
    within_swapAt lo hi xs lo (b - 1) ⟨le_refl lo, by omega⟩ ⟨by omega, by omega⟩ hlen, ?_, ?_⟩
  · intro i hi1 hi2
    show optLess lt pv (swapAt xs lo (b - 1))[i]? = false
    rw [hg i]
    by_cases h1 : i = b - 1
    · rw [if_pos h1, hpv]
      exact optLess_irrefl hlt pv
    · rw [if_neg h1]
      by_cases h2 : i = lo
      · rw [if_pos h2]
        exact hle (b - 1) (by omega) (by omega)
      · rw [if_neg h2]
        exact hle i (by omega) hi2
  · intro i hi1 hi2
    show optLess lt (swapAt xs lo (b - 1))[i]? pv = false
    rw [hg i]
    by_cases h1 : i = b - 1
    · rw [if_pos h1, hpv]
      exact optLess_irrefl hlt pv
    · rw [if_neg h1, if_neg (by omega)]
      exact hge i (by omega) hi2

/-- The end of `doPivot` returns `midlo < c`: no element of `[lo, c)` has the pivot
before it and no element of `[midlo, hi)` sorts before the pivot. -/
theorem pivotFinish_run {α : Type} (lt : α → α → Bool) (hlt : StrictWeakOrder lt)
    (lo hi n a b c : Nat) (protect : Bool) (k : Nat → Nat → SortProg) (pv : Option α)
    (xs : List α) (hlen : hi ≤ xs.length) (ha : lo < a) (hb : lo < b) (hbc : b ≤ c)
    (hc : c ≤ hi) (hn : b - a ≤ n) (hpv : xs[lo]? = pv)
    (hle : RangeAll (fun e => optLess lt pv e = false) xs (lo + 1) c)
    (hge : RangeAll (fun e => optLess lt e pv = false) xs b hi) :
    ∃ ys mlo, (pivotFinish lo n a b c protect k).run (sliceInterface lt) xs =
        (k mlo c).run (sliceInterface lt) ys ∧
      Within lo hi xs ys ∧ lo ≤ mlo ∧ mlo < c ∧
      RangeAll (fun e => optLess lt pv e = false) ys lo c ∧
      RangeAll (fun e => optLess lt e pv = false) ys mlo hi := by
  unfold pivotFinish
  cases protect with
  | false =>
    simp only [Bool.false_eq_true, if_false]
    obtain ⟨ys, hrun, hw, hle2, hge2⟩ :=
      pivotPlace_run lt hlt lo hi b c (k (b - 1) c) pv xs hlen hb hbc hc hpv hle hge
    exact ⟨ys, b - 1, hrun, hw, by omega, by omega, hle2, hge2⟩
  | true =>
    simp only [if_true]
    obtain ⟨ys1, b1, hrun1, hw1, hb1, hb1b, hge1⟩ :=
      pivotProtect_run lt lo c n (fun b1 => .swap lo (b1 - 1 : Nat) (k (b1 - 1) c)) pv n a b xs
        (by omega) ha hb hbc hn hpv (fun i hi1 hi2 => hge i hi1 (by omega))
    rw [hrun1]
    have hl1 : ys1.length = xs.length := hw1.1
    have hpv1 : ys1[lo]? = pv := by rw [hw1.2.1 lo (by omega)]; exact hpv
    have hle1 : RangeAll (fun e => optLess lt pv e = false) ys1 (lo + 1) c :=
      rangeAll_of_within hw1 hle
    have hge1b : RangeAll (fun e => optLess lt e pv = false) ys1 b1 hi := by
      intro i hi1 hi2
      by_cases hic : i < c
      · exact hge1 i hi1 hic
      · show optLess lt ys1[i]? pv = false
        rw [hw1.2.1 i (by omega)]
        exact hge i (by omega) hi2
    obtain ⟨ys, hrun, hw, hle2, hge2⟩ :=
      pivotPlace_run lt hlt lo hi b1 c (k (b1 - 1) c) pv ys1 (by omega) hb1 (by omega) hc hpv1
        hle1 hge1b
    exact ⟨ys, b1 - 1, hrun, within_trans (within_mono (by omega) hc hw1) hw, by omega,
      by omega, hle2, hge2⟩

/-! ### The test of some points for equality to the pivot -/

/-- In the test of some points for equality to the pivot, the third test,
`if !data.Less(m, pivot) { data.Swap(m, b-1); b--; dups++ }`. -/
theorem pivotDups_leaf {α : Type} (lt : α → α → Bool) (lo hi m bq top : Nat)
    (k : Nat → Nat → Bool → SortProg) (p1 p2 : Bool) (pv : Option α) (xs s : List α)
    (hw : Within (lo + 1) hi xs s) (hlen : hi ≤ s.length) (hm : lo < m) (hmb : m < bq)
    (hbt : bq ≤ top) (hth : top ≤ hi) (hpv : s[lo]? = pv)
    (hle : RangeAll (fun e => optLess lt pv e = false) s (lo + 1) top)
    (hge : RangeAll (fun e => optLess lt e pv = false) s bq hi) :
    ∃ ys b1 c1 p,
      (SortProg.less (m : Int) (lo : Int) (fun r3 =>
        if r3 = true then k bq top p1
        else .swap (m : Int) ((bq - 1 : Nat) : Int) (k (bq - 1) top p2))).run
          (sliceInterface lt) s = (k b1 c1 p).run (sliceInterface lt) ys ∧
      Within (lo + 1) hi xs ys ∧ lo < b1 ∧ b1 ≤ c1 ∧ c1 ≤ hi ∧
      RangeAll (fun e => optLess lt pv e = false) ys (lo + 1) c1 ∧
      RangeAll (fun e => optLess lt e pv = false) ys b1 hi := by
  rw [run_less_cast lt s m lo _ (by omega) (by omega)]
  cases hr3 : optLess lt s[m]? s[lo]? with
  | true =>
    simp only [if_true]
    exact ⟨s, bq, top, p1, rfl, hw, by omega, hbt, hth, hle, hge⟩
  | false =>
    simp only [Bool.false_eq_true, if_false]
    rw [run_swap_cast lt s m (bq - 1) _ (by omega) (by omega)]
    have hg := fun i => getElem?_swapAt s m (bq - 1) i (by omega) (by omega)
    have hw3 : Within (lo + 1) top s (swapAt s m (bq - 1)) :=
      within_swapAt (lo + 1) top s m (bq - 1) ⟨by omega, by omega⟩ ⟨by omega, by omega⟩
        (by omega)
    refine ⟨swapAt s m (bq - 1), bq - 1, top, p2, rfl,
      within_trans hw (within_mono (le_refl _) hth hw3), by omega, by omega, hth,
      rangeAll_of_within hw3 hle, ?_⟩
    intro i hi1 hi2
    show optLess lt (swapAt s m (bq - 1))[i]? pv = false
    rw [hg i]
    by_cases hib : i = bq - 1
    · rw [if_pos hib, ← hpv]
      exact hr3
    · rw [if_neg hib, if_neg (by omega)]
      exact hge i (by omega) hi2

/-- In the test of some points for equality to the pivot, the second test,
`if !data.Less(b-1, pivot) { b--; dups++ }`, and the third. -/
theorem pivotDups_second {α : Type} (lt : α → α → Bool) (lo hi m b top : Nat)
    (k : Nat → Nat → Bool → SortProg) (d : Nat) (pv : Option α) (xs s : List α)
    (hw : Within (lo + 1) hi xs s) (hlen : hi ≤ s.length) (hm : lo < m) (hmb : m + 1 < b)
    (hbt : b ≤ top) (hth : top ≤ hi) (hpv : s[lo]? = pv)
    (hle : RangeAll (fun e => optLess lt pv e = false) s (lo + 1) top)
    (hge : RangeAll (fun e => optLess lt e pv = false) s b hi) :
    ∃ ys b1 c1 p,
      (SortProg.less ((b - 1 : Nat) : Int) (lo : Int) (fun r2 =>
        .less (m : Int) (lo : Int) (fun r3 =>
          if r3 = true then
            k (if r2 = true then b else b - 1) top
              (decide (d + (if r2 = true then 0 else 1) > 1))
          else
            .swap (m : Int) (((if r2 = true then b else b - 1) - 1 : Nat) : Int)
              (k ((if r2 = true then b else b - 1) - 1) top
                (decide (d + (if r2 = true then 0 else 1) + 1 > 1)))))).run
          (sliceInterface lt) s = (k b1 c1 p).run (sliceInterface lt) ys ∧
      Within (lo + 1) hi xs ys ∧ lo < b1 ∧ b1 ≤ c1 ∧ c1 ≤ hi ∧
      RangeAll (fun e => optLess lt pv e = false) ys (lo + 1) c1 ∧
      RangeAll (fun e => optLess lt e pv = false) ys b1 hi := by
  rw [run_less_cast lt s (b - 1) lo _ (by omega) (by omega)]
  cases hr2 : optLess lt s[b - 1]? s[lo]? with
  | true =>
    exact pivotDups_leaf lt lo hi m b top k _ _ pv xs s hw hlen hm (by omega) hbt hth hpv
      hle hge
  | false =>
    refine pivotDups_leaf lt lo hi m (b - 1) top k _ _ pv xs s hw hlen hm (by omega)
      (by omega) hth hpv hle ?_
    intro i hi1 hi2
    by_cases hib : i = b - 1
    · show optLess lt s[i]? pv = false
      rw [hib, ← hpv]
      exact hr2
    · exact hge i (by omega) hi2

/-- The test of some points for equality to the pivot returns new `b ≤ c`, having
changed the slice within `[lo+1, hi)` only: no element of `[lo+1, c)` has the pivot
before it and no element of `[b, hi)` sorts before the pivot. -/
theorem pivotDups_run {α : Type} (lt : α → α → Bool) (lo hi m b c : Nat)
    (k : Nat → Nat → Bool → SortProg) (pv : Option α) (xs : List α)
    (hlen : hi ≤ xs.length) (hm : lo < m) (hmb : m + 1 < b) (hbc : b ≤ c) (hch : c < hi)
    (hpv : xs[lo]? = pv)
    (hle : RangeAll (fun e => optLess lt pv e = false) xs (lo + 1) c)
    (hge : RangeAll (fun e => optLess lt e pv = false) xs b hi) :
    ∃ ys b1 c1 p,
      (pivotDups lo m hi b c k).run (sliceInterface lt) xs =
        (k b1 c1 p).run (sliceInterface lt) ys ∧
      Within (lo + 1) hi xs ys ∧ lo < b1 ∧ b1 ≤ c1 ∧ c1 ≤ hi ∧
      RangeAll (fun e => optLess lt pv e = false) ys (lo + 1) c1 ∧
      RangeAll (fun e => optLess lt e pv = false) ys b1 hi := by
  unfold pivotDups
  rw [run_less_cast lt xs lo (hi - 1) _ (by omega) (by omega)]
  cases hr1 : optLess lt xs[lo]? xs[hi - 1]? with
  | true =>
    exact pivotDups_second lt lo hi m b c k 0 pv xs xs (within_refl _ _ xs) hlen hm hmb hbc
      (by omega) hpv hle hge
  | false =>
    have hswap := fun p => run_swap_cast lt xs c (hi - 1) p (by omega) (by omega)
    have hg := fun i => getElem?_swapAt xs c (hi - 1) i (by omega) (by omega)
    have hw1 : Within b hi xs (swapAt xs c (hi - 1)) :=
      within_swapAt b hi xs c (hi - 1) ⟨by omega, by omega⟩ ⟨by omega, by omega⟩ hlen
    have hres := pivotDups_second lt lo hi m b (c + 1) k 1 pv xs (swapAt xs c (hi - 1))
      (within_mono (by omega) (le_refl _) hw1) (by rw [swapAt_length]; exact hlen) hm hmb
      (by omega) (by omega)
      (by rw [hg lo, if_neg (by omega), if_neg (by omega)]; exact hpv)
      (by
        intro i hi1 hi2
        show optLess lt pv (swapAt xs c (hi - 1))[i]? = false
        rw [hg i]
        by_cases hih : i = hi - 1
        · have hc : c = hi - 1 := by omega
          rw [if_pos hih, hc, ← hpv]
          exact hr1
        · rw [if_neg hih]
          by_cases hic : i = c
          · rw [if_pos hic, ← hpv]
            exact hr1
          · rw [if_neg hic]
            exact hle i hi1 (by omega))
      (rangeAll_of_within hw1 hge)
    obtain ⟨ys, b1, c1, p, hrun, hrest⟩ := hres
    refine ⟨ys, b1, c1, p, ?_, hrest⟩
    rw [← hrun]
    exact hswap _

/-! ### `doPivot` -/

/-- The part of `doPivot` after the choice of the pivot, on a range of more than 12
elements whose last element does not sort before the pivot at `lo`. -/
theorem pivotSplit_run {α : Type} (lt : α → α → Bool) (hlt : StrictWeakOrder lt)
    (lo hi : Nat) (k : Nat → Nat → SortProg) (pv : Option α) (xs : List α)
    (hlen : hi ≤ xs.length) (hn : lo + 12 < hi) (hpv : xs[lo]? = pv)
    (hord : optLess lt xs[hi - 1]? pv = false) :
    ∃ ys mlo mhi, (pivotSplit lo hi ((lo + hi) / 2) k).run (sliceInterface lt) xs =
        (k mlo mhi).run (sliceInterface lt) ys ∧
      Within lo hi xs ys ∧ lo ≤ mlo ∧ mlo < mhi ∧ mhi ≤ hi ∧
      RangeAll (fun e => optLess lt pv e = false) ys lo mhi ∧
      RangeAll (fun e => optLess lt e pv = false) ys mlo hi := by
  unfold pivotSplit
  obtain ⟨a, hrun1, ha1, ha2, hscan, _⟩ :=
    pivotScanBelow_run lt lo (hi - 1) (fun a =>
      pivotPartition lo (hi - lo) (fun b c =>
        if hi - c < 5 then pivotFinish lo (hi - lo) a b c true k
        else if hi - c < (hi - lo) / 4 then
          pivotDups lo ((lo + hi) / 2) hi b c (fun b1 c1 protect =>
            pivotFinish lo (hi - lo) a b1 c1 protect k)
        else pivotFinish lo (hi - lo) a b c false k) (hi - lo) a (hi - 1))
      xs (by omega) (by omega) (hi - lo) (lo + 1)
  rw [hrun1]
  rw [hpv] at hscan
  have ha3 := ha2 (by omega)
  obtain ⟨ys1, mm, hrun2, hw1, hm1, hm2, hle1, hge1⟩ :=
    pivotPartition_run lt hlt lo hi (hi - lo) (fun b c =>
        if hi - c < 5 then pivotFinish lo (hi - lo) a b c true k
        else if hi - c < (hi - lo) / 4 then
          pivotDups lo ((lo + hi) / 2) hi b c (fun b1 c1 protect =>
            pivotFinish lo (hi - lo) a b1 c1 protect k)
        else pivotFinish lo (hi - lo) a b c false k) pv (hi - lo) a (hi - 1) xs hlen
      (by omega) ha3 (by omega) (by omega) (by omega) hpv
      (fun i hi1 hi2 => optLess_asymm hlt (hscan i hi1 hi2))
      (fun i hi1 hi2 => by
        have e : i = hi - 1 := by omega
        rw [e]
        exact hord)
  rw [hrun2]
  have hl1 : ys1.length = xs.length := hw1.1
  have hpv1 : ys1[lo]? = pv := by rw [hw1.2.1 lo (by omega)]; exact hpv
  have hw1b : Within lo hi xs ys1 := within_mono (by omega) (le_refl _) hw1
  by_cases h5 : hi - mm < 5
  · rw [if_pos h5]
    obtain ⟨ys, mlo, hrun, hw, h1, h2, hle, hge⟩ :=
      pivotFinish_run lt hlt lo hi (hi - lo) a mm mm true k pv ys1 (by omega) (by omega)
        (by omega) (le_refl _) (by omega) (by omega) hpv1 hle1 hge1
    exact ⟨ys, mlo, mm, hrun, within_trans hw1b hw, h1, h2, by omega, hle, hge⟩
  · rw [if_neg h5]
    by_cases h4 : hi - mm < (hi - lo) / 4
    · rw [if_pos h4]
      obtain ⟨ys2, b1, c1, p, hrun3, hw2, hb1, hbc1, hc1, hle2, hge2⟩ :=
        pivotDups_run lt lo hi ((lo + hi) / 2) mm mm (fun b1 c1 protect =>
            pivotFinish lo (hi - lo) a b1 c1 protect k) pv ys1 (by omega) (by omega)
          (by omega) (le_refl _) (by omega) hpv1 hle1 hge1
      rw [hrun3]
      have hl2 : ys2.length = ys1.length := hw2.1
      have hpv2 : ys2[lo]? = pv := by rw [hw2.2.1 lo (by omega)]; exact hpv1
      obtain ⟨ys, mlo, hrun, hw, h1, h2, hle, hge⟩ :=
        pivotFinish_run lt hlt lo hi (hi - lo) a b1 c1 p k pv ys2 (by omega) (by omega)
          hb1 hbc1 hc1 (by omega) hpv2 hle2 hge2
      exact ⟨ys, mlo, c1, hrun,
        within_trans hw1b (within_trans (within_mono (by omega) (le_refl _) hw2) hw),
        h1, h2, hc1, hle, hge⟩
    · rw [if_neg h4]
      obtain ⟨ys, mlo, hrun, hw, h1, h2, hle, hge⟩ :=
        pivotFinish_run lt hlt lo hi (hi - lo) a mm mm false k pv ys1 (by omega) (by omega)
          (by omega) (le_refl _) (by omega) (by omega) hpv1 hle1 hge1
      exact ⟨ys, mlo, mm, hrun, within_trans hw1b hw, h1, h2, by omega, hle, hge⟩

/-- The part of `doPivot` from `medianOfThree(data, lo, m, hi-1)` on. -/
theorem pivotChoose_run {α : Type} (lt : α → α → Bool) (hlt : StrictWeakOrder lt)
    (lo hi : Nat) (k : Nat → Nat → SortProg) (xs s : List α) (hw : Within lo hi xs s)
    (hlen : hi ≤ s.length) (hn : lo + 12 < hi) :
    ∃ ys mlo mhi pv, pv.isSome = true ∧
      (medianOfThree lo ((lo + hi) / 2) (hi - 1)
        (pivotSplit lo hi ((lo + hi) / 2) k)).run (sliceInterface lt) s =
        (k mlo mhi).run (sliceInterface lt) ys ∧
      Within lo hi xs ys ∧ lo ≤ mlo ∧ mlo < mhi ∧ mhi ≤ hi ∧
      RangeAll (fun e => optLess lt pv e = false) ys lo mhi ∧
      RangeAll (fun e => optLess lt e pv = false) ys mlo hi := by
  obtain ⟨s1, hrun1, hw1, hord⟩ :=
    medianOfThree_run lt hlt lo hi lo ((lo + hi) / 2) (hi - 1)
      (pivotSplit lo hi ((lo + hi) / 2) k) s hlen ⟨le_refl lo, by omega⟩
      ⟨by omega, by omega⟩ ⟨by omega, by omega⟩ ⟨by omega, by omega, by omega⟩
  rw [hrun1]
  have hl1 : s1.length = s.length := hw1.1
  obtain ⟨ys, mlo, mhi, hrun, hw2, h1, h2, h3, hle, hge⟩ :=
    pivotSplit_run lt hlt lo hi k s1[lo]? s1 (by omega) hn rfl hord
  refine ⟨ys, mlo, mhi, s1[lo]?, ?_, hrun, within_trans hw (within_trans hw1 hw2), h1, h2,
    h3, hle, hge⟩
  rw [List.getElem?_eq_getElem (by omega : lo < s1.length)]
  rfl

/-- The library's `doPivot(data, lo, hi)` on a range of more than 12 elements returns
`lo ≤ midlo < midhi ≤ hi`, having changed the slice within `[lo, hi)` only: for the
element chosen as pivot, no element of `[lo, midhi)` has the pivot before it and no
element of `[midlo, hi)` sorts before the pivot. -/
theorem doPivot_run {α : Type} (lt : α → α → Bool) (hlt : StrictWeakOrder lt)
    (lo hi : Nat) (k : Nat → Nat → SortProg) (xs : List α)
    (hlen : hi ≤ xs.length) (hn : lo + 12 < hi) :
    ∃ ys mlo mhi pv, pv.isSome = true ∧
      (doPivot lo hi k).run (sliceInterface lt) xs =
        (k mlo mhi).run (sliceInterface lt) ys ∧
      Within lo hi xs ys ∧ lo ≤ mlo ∧ mlo < mhi ∧ mhi ≤ hi ∧
      RangeAll (fun e => optLess lt pv e = false) ys lo mhi ∧
      RangeAll (fun e => optLess lt e pv = false) ys mlo hi := by
  unfold doPivot
  by_cases h40 : hi - lo > 40
  · simp only [if_pos h40]
    obtain ⟨s1, hrun1, hw1, _⟩ :=
      medianOfThree_run lt hlt lo hi lo (lo + (hi - lo) / 8) (lo + 2 * ((hi - lo) / 8))
        (medianOfThree ((lo + hi) / 2) ((lo + hi) / 2 - (hi - lo) / 8)
          ((lo + hi) / 2 + (hi - lo) / 8)
          (medianOfThree (hi - 1) (hi - 1 - (hi - lo) / 8) (hi - 1 - 2 * ((hi - lo) / 8))
            (medianOfThree lo ((lo + hi) / 2) (hi - 1) (pivotSplit lo hi ((lo + hi) / 2) k))))
        xs hlen ⟨le_refl lo, by omega⟩ ⟨by omega, by omega⟩ ⟨by omega, by omega⟩
        ⟨by omega, by omega, by omega⟩
    rw [hrun1]
    have hl1 : s1.length = xs.length := hw1.1
    obtain ⟨s2, hrun2, hw2, _⟩ :=
      medianOfThree_run lt hlt lo hi ((lo + hi) / 2) ((lo + hi) / 2 - (hi - lo) / 8)
          ((lo + hi) / 2 + (hi - lo) / 8)
          (medianOfThree (hi - 1) (hi - 1 - (hi - lo) / 8) (hi - 1 - 2 * ((hi - lo) / 8))
            (medianOfThree lo ((lo + hi) / 2) (hi - 1) (pivotSplit lo hi ((lo + hi) / 2) k)))
        s1 (by omega) ⟨by omega, by omega⟩ ⟨by omega, by omega⟩ ⟨by omega, by omega⟩
        ⟨by omega, by omega, by omega⟩
    rw [hrun2]
    have hl2 : s2.length = s1.length := hw2.1
    obtain ⟨s3, hrun3, hw3, _⟩ :=
      medianOfThree_run lt hlt lo hi (hi - 1) (hi - 1 - (hi - lo) / 8)
          (hi - 1 - 2 * ((hi - lo) / 8))
          (medianOfThree lo ((lo + hi) / 2) (hi - 1) (pivotSplit lo hi ((lo + hi) / 2) k))
        s2 (by omega) ⟨by omega, by omega⟩ ⟨by omega, by omega⟩ ⟨by omega, by omega⟩
        ⟨by omega, by omega, by omega⟩
    rw [hrun3]
    have hl3 : s3.length = s2.length := hw3.1
    exact pivotChoose_run lt hlt lo hi k xs s3 (within_trans hw1 (within_trans hw2 hw3))
      (by omega) hn
  · simp only [if_neg h40]
    exact pivotChoose_run lt hlt lo hi k xs xs (within_refl _ _ xs) hlen hn

/-! ### `quickSort` and `Sort` -/

theorem rangeAll_within_inside {α : Type} {P : Option α → Prop} {a b a1 b1 : Nat}
    {xs ys : List α} (hw : Within a1 b1 xs ys) (ha : a ≤ a1) (hb : b1 ≤ b)
    (h : RangeAll P xs a b) : RangeAll P ys a b :=
  rangeAll_of_within (within_mono ha hb hw) h

theorem rangeAll_within_outside {α : Type} {P : Option α → Prop} {a b a1 b1 : Nat}
    {xs ys : List α} (hw : Within a1 b1 xs ys) (hd : b ≤ a1 ∨ b1 ≤ a)
    (h : RangeAll P xs a b) : RangeAll P ys a b :=
  rangeAll_congr (fun i hi1 hi2 => hw.2.1 i (by omega)) h

theorem sortedRange_within_outside {α : Type} (lt : α → α → Bool) {a b a1 b1 : Nat}
    {xs ys : List α} (hw : Within a1 b1 xs ys) (hd : b ≤ a1 ∨ b1 ≤ a)
    (h : SortedRange lt xs a b) : SortedRange lt ys a b := by
  intro p q hp hpq hq
  rw [hw.2.1 p (by omega), hw.2.1 q (by omega)]
  exact h p q hp hpq hq

/-- A range split as `doPivot` splits it, with the two outer parts in ascending order,
is in ascending order. -/
theorem sortedRange_of_partition {α : Type} (lt : α → α → Bool) (hlt : StrictWeakOrder lt)
    (a mlo mhi b : Nat) (pv : Option α) (hpv : pv.isSome = true) (zs : List α)
    (hle : RangeAll (fun e => optLess lt pv e = false) zs a mhi)
    (hge : RangeAll (fun e => optLess lt e pv = false) zs mlo b)
    (hs1 : SortedRange lt zs a mlo) (hs2 : SortedRange lt zs mhi b) :
    SortedRange lt zs a b := by
  intro p q hp hpq hq
  by_cases h1 : q < mlo
  · exact hs1 p q hp hpq h1
  · by_cases h2 : mhi ≤ p
    · exact hs2 p q h2 hpq hq
    · exact notBelow_of_optLess
        (optLess_negTrans hlt hpv (hge q (by omega) hq) (hle p hp (by omega)))

/-- The end of `quickSort`, for a range of at most 12 elements. -/
theorem quickSort_short {α : Type} (lt : α → α → Bool) (hlt : StrictWeakOrder lt)
    (a b : Nat) (k : SortProg) (xs : List α) (hab : a ≤ b) (hb : b ≤ xs.length) :
    ∃ ys, (if b - a > 1 then shellPass b ((insertionSort a b).andThen k) (b - a) (a + 6)
        else k).run (sliceInterface lt) xs = k.run (sliceInterface lt) ys ∧
      Within a b xs ys ∧ SortedRange lt ys a b := by
  by_cases h1 : b - a > 1
  · rw [if_pos h1]
    obtain ⟨s1, hrun1, hw1⟩ :=
      shellPass_run lt a b ((insertionSort a b).andThen k) (b - a) (a + 6) xs hb (le_refl _)
    rw [hrun1, SortProg.run_andThen]
    have hl1 : s1.length = xs.length := hw1.1
    obtain ⟨ys, hrun2, hw2, hs⟩ := insertionSort_range lt hlt s1 a b hab (by omega)
    rw [hrun2]
    exact ⟨ys, rfl, within_trans hw1 hw2, hs⟩
  · rw [if_neg h1]
    exact ⟨xs, rfl, within_refl a b xs, fun p q hp hpq hq => by omega⟩

/-- The library's `quickSort(data, a, b, maxDepth)` returns for every `maxDepth`,
changes the slice within `[a, b)` only and leaves that range in ascending order. -/
theorem quickSort_run {α : Type} (lt : α → α → Bool) (hlt : StrictWeakOrder lt) :
    ∀ (maxDepth a b : Nat) (k : SortProg) (xs : List α), a ≤ b → b ≤ xs.length →
      ∃ ys, (quickSort maxDepth a b k).run (sliceInterface lt) xs =
          k.run (sliceInterface lt) ys ∧
        Within a b xs ys ∧ SortedRange lt ys a b
  | 0, a, b, k, xs, hab, hb => by
    unfold quickSort
    by_cases h12 : b - a > 12
    · rw [if_pos h12, SortProg.run_andThen]
      obtain ⟨ys, hrun, hw, hs⟩ := heapSort_range lt hlt xs a b hab hb
      rw [hrun]
      exact ⟨ys, rfl, hw, hs⟩
    · rw [if_neg h12]
      exact quickSort_short lt hlt a b k xs hab hb
  | maxDepth + 1, a, b, k, xs, hab, hb => by
    unfold quickSort
    by_cases h12 : b - a > 12
    · rw [if_pos h12]
      obtain ⟨ys1, mlo, mhi, pv, hpv, hrun1, hw1, h1, h2, h3, hle, hge⟩ :=
        doPivot_run lt hlt a b (fun mlo mhi =>
          if mlo - a < b - mhi then
            quickSort maxDepth a mlo (quickSort maxDepth mhi b k)
          else
            quickSort maxDepth mhi b (quickSort maxDepth a mlo k)) xs hb (by omega)
      rw [hrun1]
      have hl1 : ys1.length = xs.length := hw1.1
      by_cases hside : mlo - a < b - mhi
      · rw [if_pos hside]
        obtain ⟨ys2, hrun2, hw2, hs2⟩ :=
          quickSort_run lt hlt maxDepth a mlo (quickSort maxDepth mhi b k) ys1 h1 (by omega)
        rw [hrun2]
        have hl2 : ys2.length = ys1.length := hw2.1
        obtain ⟨ys3, hrun3, hw3, hs3⟩ :=
          quickSort_run lt hlt maxDepth mhi b k ys2 h3 (by omega)
        refine ⟨ys3, hrun3, within_trans hw1 (within_trans
          (within_mono (le_refl _) (by omega) hw2) (within_mono (by omega) (le_refl _) hw3)),
          ?_⟩
        exact sortedRange_of_partition lt hlt a mlo mhi b pv hpv ys3
          (rangeAll_within_outside hw3 (Or.inl (le_refl _))
            (rangeAll_within_inside hw2 (le_refl _) (by omega) hle))
          (rangeAll_within_inside hw3 (by omega) (le_refl _)
            (rangeAll_within_outside hw2 (Or.inr (le_refl _)) hge))
          (sortedRange_within_outside lt hw3 (Or.inl (by omega)) hs2) hs3
      · rw [if_neg hside]
        obtain ⟨ys2, hrun2, hw2, hs2⟩ :=
          quickSort_run lt hlt maxDepth mhi b (quickSort maxDepth a mlo k) ys1 h3 (by omega)
        rw [hrun2]
        have hl2 : ys2.length = ys1.length := hw2.1
        obtain ⟨ys3, hrun3, hw3, hs3⟩ :=
          quickSort_run lt hlt maxDepth a mlo k ys2 h1 (by omega)
        refine ⟨ys3, hrun3, within_trans hw1 (within_trans
          (within_mono (by omega) (le_refl _) hw2) (within_mono (le_refl _) (by omega) hw3)),
          ?_⟩
        exact sortedRange_of_partition lt hlt a mlo mhi b pv hpv ys3
          (rangeAll_within_inside hw3 (le_refl _) (by omega)
            (rangeAll_within_outside hw2 (Or.inl (le_refl _)) hle))
          (rangeAll_within_outside hw3 (Or.inr (le_refl _))
            (rangeAll_within_inside hw2 (by omega) (le_refl _) hge))
          hs3 (sortedRange_within_outside lt hw3 (Or.inr (by omega)) hs2)
    · rw [if_neg h12]
      exact quickSort_short lt hlt a b k xs hab hb

/-- The library's `Sort` of Go 1.6 to 1.18 meets the contract of `sort.Sort`: on every
slice whose `Less` is a strict weak ordering it returns, and the slice is then in
ascending order. -/
theorem librarySort_contract : SortContract librarySort := by
  intro α lt hlt xs
  obtain ⟨ys, hrun, hw, hs⟩ :=
    quickSort_run lt hlt (maxDepth xs.length) 0 xs.length .done xs (Nat.zero_le _) (le_refl _)
  refine ⟨ys, ?_, ?_⟩
  · have hn : (xs.length : Int).toNat = xs.length := by simp
    simp only [sortSort, librarySort, sliceInterface] at hrun ⊢
    rw [hn]
    exact hrun
  · have hl : ys.length = xs.length := hw.1
    rw [List.pairwise_iff_getElem]
    intro i j hi hj hij
    exact hs i j (Nat.zero_le _) hij (by omega) _ _ (List.getElem?_eq_getElem hj)
      (List.getElem?_eq_getElem hi)

/-! ## What `SortVolumeByID` returns -/

theorem SortVolumeByID_eq (S : SortImpl) (volumes : List (Option Volume)) :
    SortVolumeByID S volumes =
      (S (volumes.length : Int)).run ByVolumeID.sortInterface volumes := by
  simp [SortVolumeByID, sortSort, ByVolumeID.sortInterface, ByVolumeID.Len, bind, pure]

/-- Whatever `sort.Sort` does, a slice that `SortVolumeByID` returns is a reordering of
the slice it was given. -/
theorem SortVolumeByID_perm_of_eq_some (S : SortImpl) (volumes out : List (Option Volume))
    (h : SortVolumeByID S volumes = some out) : out.Perm volumes := by
  rw [SortVolumeByID_eq] at h
  exact SortProg.run_perm ByVolumeID.sortInterface
    (fun a b i j hs => ByVolumeID.Swap_perm a b i j hs) _ volumes out h

/-- The result of `SortVolumeByID` on a slice without nil pointers: the call returns a
reordering of the slice in which no volume has an ID below that of a volume before
it. -/
theorem SortVolumeByID_spec (S : SortImpl) (hS : SortContract S)
    (volumes : List (Option Volume)) (hnn : NoNil volumes) :
    ∃ out, SortVolumeByID S volumes = some out ∧ out.Perm volumes ∧
      out.Pairwise (fun p q => ∃ v w, p = some v ∧ q = some w ∧ strLess w.ID v.ID = false) := by
  obtain ⟨vs, hvs⟩ := exists_map_some_of_noNil volumes hnn
  obtain ⟨ws, hrun, hsorted⟩ := hS Volume volumeLess volumeLess_strictWeakOrder vs
  have hout : SortVolumeByID S volumes = some (ws.map some) := by
    rw [SortVolumeByID_eq, hvs, SortProg.run_map_some]
    have hrun2 : (S (vs.length : Int)).run (sliceInterface volumeLess) vs = some ws := hrun
    simp only [List.length_map]
    rw [hrun2]
    rfl
  refine ⟨ws.map some, hout, SortVolumeByID_perm_of_eq_some S volumes _ hout, ?_⟩
  rw [List.pairwise_map]
  exact hsorted.imp (fun {v w} h => ⟨v, w, rfl, rfl, h⟩)

theorem noNil_of_perm {a b : List (Option Volume)} (h : a.Perm b) (hb : NoNil b) : NoNil a :=
  fun p hp => hb p (h.subset hp)

theorem distinctIDs_of_perm {a b : List (Option Volume)} (h : a.Perm b)
    (hb : DistinctIDs b) : DistinctIDs a := by
  unfold DistinctIDs idSequence at hb ⊢
  exact (List.Perm.nodup_iff (h.map _)).mpr hb

/-- With distinct IDs, a slice sorted by ID is strictly increasing in ID. -/
theorem strictly_sorted_of_distinct (out : List (Option Volume))
    (hsorted : out.Pairwise
      (fun p q => ∃ v w, p = some v ∧ q = some w ∧ strLess w.ID v.ID = false))
    (hd : DistinctIDs out) :
    out.Pairwise (fun p q => ∃ v w, p = some v ∧ q = some w ∧ strLess v.ID w.ID = true) := by
  have hne : out.Pairwise (fun p q => p.map Volume.ID ≠ q.map Volume.ID) := by
    have := hd
    unfold DistinctIDs idSequence List.Nodup at this
    rwa [List.pairwise_map] at this
  refine (hsorted.and hne).imp ?_
  rintro p q ⟨⟨v, w, hp, hq, hwv⟩, hpq⟩
  refine ⟨v, w, hp, hq, ?_⟩
  cases hvw : strLess v.ID w.ID with
  | true => rfl
  | false =>
    have e : v.ID = w.ID := strLess_total v.ID w.ID hvw hwv
    exact absurd (by simp [hp, hq, e]) hpq

/-- Two reorderings of one slice that both increase strictly in ID are the same. -/
theorem eq_of_perm_of_strictly_sorted (a b : List (Option Volume)) (hperm : a.Perm b)
    (ha : a.Pairwise (fun p q => ∃ v w, p = some v ∧ q = some w ∧ strLess v.ID w.ID = true))
    (hb : b.Pairwise (fun p q => ∃ v w, p = some v ∧ q = some w ∧ strLess v.ID w.ID = true)) :
    a = b := by
  haveI : IsAntisymm (Option Volume)
      (fun p q => ∃ v w, p = some v ∧ q = some w ∧ strLess v.ID w.ID = true) :=
    ⟨by
      rintro p q ⟨v, w, hp, hq, h1⟩ ⟨w2, v2, hq2, hp2, h2⟩
      have ev : v = v2 := Option.some.inj (hp.symm.trans hp2)
      have ew : w = w2 := Option.some.inj (hq.symm.trans hq2)
      subst ev
      subst ew
      rw [strLess_asymm v.ID w.ID h1] at h2
      exact absurd h2 (by decide)⟩
  exact List.eq_of_perm_of_sorted hperm ha hb

/-- Two reorderings of one slice that are both sorted by ID show the same sequence of
IDs. -/
theorem idSequence_eq_of_perm_of_sorted (a b : List (Option Volume)) (hperm : a.Perm b)
    (ha : a.Pairwise (fun p q => ∃ v w, p = some v ∧ q = some w ∧ strLess w.ID v.ID = false))
    (hb : b.Pairwise (fun p q => ∃ v w, p = some v ∧ q = some w ∧ strLess w.ID v.ID = false)) :
    idSequence a = idSequence b := by
  haveI : IsAntisymm (Option GoString)
      (fun s t => ∃ x y, s = some x ∧ t = some y ∧ strLess y x = false) :=
    ⟨by
      rintro s t ⟨x, y, hs, ht, h1⟩ ⟨y2, x2, ht2, hs2, h2⟩
      have ex : x = x2 := Option.some.inj (hs.symm.trans hs2)
      have ey : y = y2 := Option.some.inj (ht.symm.trans ht2)
      subst ex
      subst ey
      rw [hs, ht, strLess_total x y h2 h1]⟩
  have lift : ∀ l : List (Option Volume),
      l.Pairwise (fun p q => ∃ v w, p = some v ∧ q = some w ∧ strLess w.ID v.ID = false) →
      (idSequence l).Pairwise
        (fun s t => ∃ x y, s = some x ∧ t = some y ∧ strLess y x = false) := by
    intro l hl
    unfold idSequence
    rw [List.pairwise_map]
    refine hl.imp ?_
    rintro p q ⟨v, w, hp, hq, h⟩
    exact ⟨v.ID, w.ID, by simp [hp], by simp [hq], h⟩
  exact List.eq_of_perm_of_sorted (hperm.map _) (lift a ha) (lift b hb)

/-! ## The claims about `SortVolumeByID` and `ByVolumeID.Less` -/

theorem sampleListing_noNil : NoNil sampleListing := by
  intro p hp
  simp only [sampleListing, List.mem_cons, List.mem_singleton, List.mem_nil_iff,
    or_false] at hp
  rcases hp with h | h | h <;> simp [h]

theorem sampleListing_distinctIDs : DistinctIDs sampleListing := by
  unfold DistinctIDs idSequence sampleListing
  decide

theorem sampleListing_perm : sampleListing.Perm sampleListingShuffled := by
  unfold sampleListing sampleListingShuffled
  exact (List.Perm.cons _ (List.Perm.swap _ _ [])).trans (List.Perm.swap _ _ _)

/-- C1: for every slice of non-nil volumes, `SortVolumeByID` returns a sequence with
non-decreasing IDs: at all positions `i < j` of the output, `output[i].ID <= output[j].ID`
in Go's string order. -/
theorem SortVolumeByID_sorted (S : SortImpl) (hS : SortContract S)
    (volumes : List (Option Volume)) (hnn : NoNil volumes) :
    ∃ out, SortVolumeByID S volumes = some out ∧
      ∀ i j : Nat, i < j → j < out.length →
        ∃ vi vj, out[i]? = some (some vi) ∧ out[j]? = some (some vj) ∧
          strLessEq vi.ID vj.ID = true := by
  obtain ⟨out, hout, _, hsorted⟩ := SortVolumeByID_spec S hS volumes hnn
  refine ⟨out, hout, ?_⟩
  intro i j hij hj
  have hi : i < out.length := Nat.lt_trans hij hj
  obtain ⟨v, w, hv, hw, hle⟩ := List.pairwise_iff_getElem.mp hsorted i j hi hj hij
  refine ⟨v, w, ?_, ?_, ?_⟩
  · rw [List.getElem?_eq_getElem hi, hv]
  · rw [List.getElem?_eq_getElem hj, hw]
  · simp [strLessEq, hle]

theorem SortVolumeByID_sorted_witness :
    SortContract insertionSortImpl ∧ NoNil sampleListing ∧
    ∃ out, SortVolumeByID insertionSortImpl sampleListing = some out ∧
      ∀ i j : Nat, i < j → j < out.length →
        ∃ vi vj, out[i]? = some (some vi) ∧ out[j]? = some (some vj) ∧
          strLessEq vi.ID vj.ID = true :=
  ⟨insertionSortImpl_contract, sampleListing_noNil,
    SortVolumeByID_sorted insertionSortImpl insertionSortImpl_contract sampleListing
      sampleListing_noNil⟩

/-- C2: the output of `SortVolumeByID` is a permutation of its input. Whatever slice the
call returns has the length of the input and holds every volume record, unchanged, as
many times as the input does; and on a slice of non-nil volumes the call does return. -/
theorem SortVolumeByID_permutation (S : SortImpl) (hS : SortContract S)
    (volumes : List (Option Volume)) :
    (∀ out, SortVolumeByID S volumes = some out →
      out.Perm volumes ∧ out.length = volumes.length ∧
      ∀ P : Option Volume → Bool, out.countP P = volumes.countP P) ∧
    (NoNil volumes → ∃ out, SortVolumeByID S volumes = some out) := by
  constructor
  · intro out hout
    have hperm := SortVolumeByID_perm_of_eq_some S volumes out hout
    exact ⟨hperm, hperm.length_eq, fun P => hperm.countP_eq P⟩
  · intro hnn
    obtain ⟨out, hout, _⟩ := SortVolumeByID_spec S hS volumes hnn
    exact ⟨out, hout⟩

theorem SortVolumeByID_permutation_witness :
    SortContract insertionSortImpl ∧
    (∀ out, SortVolumeByID insertionSortImpl sampleListing = some out →
      out.Perm sampleListing ∧ out.length = sampleListing.length ∧
      ∀ P : Option Volume → Bool, out.countP P = sampleListing.countP P) ∧
    (NoNil sampleListing → ∃ out, SortVolumeByID insertionSortImpl sampleListing = some out) :=
  ⟨insertionSortImpl_contract,
    SortVolumeByID_permutation insertionSortImpl insertionSortImpl_contract sampleListing⟩

/-- C3: the sorted listing does not depend on the driver's storage order. For two slices
of non-nil volumes that are permutations of each other and whose IDs are pairwise
distinct, `SortVolumeByID` returns the identical sequence. -/
theorem SortVolumeByID_order_independent (S : SortImpl) (hS : SortContract S)
    (volumes₁ volumes₂ : List (Option Volume)) (hperm : volumes₁.Perm volumes₂)
    (hnn : NoNil volumes₁) (hd : DistinctIDs volumes₁) :
    ∃ out, SortVolumeByID S volumes₁ = some out ∧ SortVolumeByID S volumes₂ = some out := by
  obtain ⟨out₁, h₁, p₁, s₁⟩ := SortVolumeByID_spec S hS volumes₁ hnn
  obtain ⟨out₂, h₂, p₂, s₂⟩ := SortVolumeByID_spec S hS volumes₂ (noNil_of_perm hperm.symm hnn)
  have e : out₁ = out₂ :=
    eq_of_perm_of_strictly_sorted out₁ out₂ ((p₁.trans hperm).trans p₂.symm)
      (strictly_sorted_of_distinct out₁ s₁ (distinctIDs_of_perm p₁ hd))
      (strictly_sorted_of_distinct out₂ s₂ (distinctIDs_of_perm (p₂.trans hperm.symm) hd))
  exact ⟨out₁, h₁, e ▸ h₂⟩

theorem SortVolumeByID_order_independent_witness :
    SortContract insertionSortImpl ∧ sampleListing.Perm sampleListingShuffled ∧
    NoNil sampleListing ∧ DistinctIDs sampleListing ∧
    ∃ out, SortVolumeByID insertionSortImpl sampleListing = some out ∧
      SortVolumeByID insertionSortImpl sampleListingShuffled = some out :=
  ⟨insertionSortImpl_contract, sampleListing_perm, sampleListing_noNil,
    sampleListing_distinctIDs,
    SortVolumeByID_order_independent insertionSortImpl insertionSortImpl_contract
      sampleListing sampleListingShuffled sampleListing_perm sampleListing_noNil
      sampleListing_distinctIDs⟩

/-- C4, as stated, fails: `SortVolumeByID(SortVolumeByID(v))` need not be the sequence
`SortVolumeByID(v)`. With the library's `Sort` of Go 1.6 to 1.18, which meets the
contract of `sort.Sort`, the listing of the volumes "vol-000" to "vol-004" of three
services is sorted into one order, and sorting that result again puts volumes of equal
ID into another order; the IDs read the same both times. The second sort moves
elements although the slice is in order: `doPivot(data, 0, 15)` begins with
`medianOfThree(data, 0, 7, 14)`, which finds `data[0]` ("vol-000") below `data[7]`
("vol-002") and exchanges them to make `data[0]` the pivot; the partition changes
nothing, `Swap(0, 8)` puts the pivot in the middle, and `insertionSort(data, 0, 8)`
then brings the two displaced volumes back to the volumes of their ID, but not to the
places they had among them. -/
theorem SortVolumeByID_not_idempotent :
    SortContract librarySort ∧ NoNil crossServiceListing ∧
    SortVolumeByID librarySort crossServiceListing = some crossServiceSorted ∧
    SortVolumeByID librarySort crossServiceSorted = some crossServiceSortedAgain ∧
    crossServiceSortedAgain ≠ crossServiceSorted ∧
    idSequence crossServiceSortedAgain = idSequence crossServiceSorted ∧
    (SortVolumeByID librarySort crossServiceListing).bind (SortVolumeByID librarySort) ≠
      SortVolumeByID librarySort crossServiceListing := by
  have h1 : SortVolumeByID librarySort crossServiceListing = some crossServiceSorted := rfl
  have h2 : SortVolumeByID librarySort crossServiceSorted = some crossServiceSortedAgain :=
    rfl
  have hne : crossServiceSortedAgain ≠ crossServiceSorted := by
    intro h
    have hn := congrArg (fun l => l.map (fun p => p.map Volume.Name)) h
    revert hn
    decide
  refine ⟨librarySort_contract, ?_, h1, h2, hne, by decide, ?_⟩
  · intro p hp
    have hall : crossServiceListing.all (fun q => q.isSome) = true := by decide
    have := List.all_eq_true.mp hall p hp
    intro he
    rw [he] at this
    exact absurd this (by decide)
  · rw [h1, Option.some_bind, h2]
    intro h
    exact hne (Option.some.inj h)

/-- C4, as amended: sorting a sorted listing again. For every slice of non-nil volumes
both calls return, `SortVolumeByID(SortVolumeByID(v))` shows the same sequence of IDs
as `SortVolumeByID(v)`, and it is the same sequence of volumes when the IDs of `v` are
pairwise distinct. -/
theorem SortVolumeByID_idempotent_on_distinct_ids (S : SortImpl) (hS : SortContract S)
    (volumes : List (Option Volume)) (hnn : NoNil volumes) :
    ∃ out out₂, SortVolumeByID S volumes = some out ∧ SortVolumeByID S out = some out₂ ∧
      idSequence out₂ = idSequence out ∧ (DistinctIDs volumes → out₂ = out) := by
  obtain ⟨out, h, p, s⟩ := SortVolumeByID_spec S hS volumes hnn
  obtain ⟨out₂, h₂, p₂, s₂⟩ := SortVolumeByID_spec S hS out (noNil_of_perm p hnn)
  refine ⟨out, out₂, h, h₂, idSequence_eq_of_perm_of_sorted out₂ out p₂ s₂ s, ?_⟩
  intro hd
  have hdo : DistinctIDs out := distinctIDs_of_perm p hd
  exact eq_of_perm_of_strictly_sorted out₂ out p₂
    (strictly_sorted_of_distinct out₂ s₂ (distinctIDs_of_perm p₂ hdo))
    (strictly_sorted_of_distinct out s hdo)

theorem SortVolumeByID_idempotent_on_distinct_ids_witness :
    SortContract insertionSortImpl ∧ NoNil sampleListing ∧ DistinctIDs sampleListing ∧
    ∃ out, SortVolumeByID insertionSortImpl sampleListing = some out ∧
      SortVolumeByID insertionSortImpl out = some out := by
  obtain ⟨out, out₂, h, h₂, _, he⟩ :=
    SortVolumeByID_idempotent_on_distinct_ids insertionSortImpl insertionSortImpl_contract
      sampleListing sampleListing_noNil
  exact ⟨insertionSortImpl_contract, sampleListing_noNil, sampleListing_distinctIDs,
    out, h, he sampleListing_distinctIDs ▸ h₂⟩

/-- C9: `ByVolumeID.Less` orders by the ID field alone, and validly so. On a slice `a`
with non-nil volumes `vi` at index `i` and `vj` at index `j`, `Less(i, j)` is
`vi.ID < vj.ID`; the order on IDs is irreflexive, asymmetric and transitive, and of
`x < y`, `y < x`, `x = y` exactly one holds; so volumes with the same ID, whatever
their other fields, are not ordered before one another. -/
theorem ByVolumeID.Less_strict_total_order (a : ByVolumeID) (i j : Int) (vi vj : Volume)
    (hi : sliceIndex a i = some (some vi)) (hj : sliceIndex a j = some (some vj)) :
    ByVolumeID.Less a i j = some (strLess vi.ID vj.ID) ∧
    (∀ x : GoString, strLess x x = false) ∧
    (∀ x y : GoString, strLess x y = true → strLess y x = false) ∧
    (∀ x y z : GoString, strLess x y = true → strLess y z = true → strLess x z = true) ∧
    (∀ x y : GoString,
      (strLess x y = true ∧ strLess y x = false ∧ x ≠ y) ∨
      (strLess x y = false ∧ strLess y x = true ∧ x ≠ y) ∨
      (strLess x y = false ∧ strLess y x = false ∧ x = y)) ∧
    (vi.ID = vj.ID →
      ByVolumeID.Less a i j = some false ∧ ByVolumeID.Less a j i = some false) := by
  have hij : ByVolumeID.Less a i j = some (strLess vi.ID vj.ID) := by
    simp [ByVolumeID.Less, hi, hj, bind, pure]
  have hji : ByVolumeID.Less a j i = some (strLess vj.ID vi.ID) := by
    simp [ByVolumeID.Less, hi, hj, bind, pure]
  refine ⟨hij, strLess_irrefl, strLess_asymm, strLess_trans, ?_, ?_⟩
  · intro x y
    cases hxy : strLess x y with
    | true =>
      refine Or.inl ⟨rfl, strLess_asymm x y hxy, ?_⟩
      intro e
      rw [e, strLess_irrefl] at hxy
      exact absurd hxy (by decide)
    | false =>
      cases hyx : strLess y x with
      | true =>
        refine Or.inr (Or.inl ⟨rfl, rfl, ?_⟩)
        intro e
        rw [e, strLess_irrefl] at hyx
        exact absurd hyx (by decide)
      | false => exact Or.inr (Or.inr ⟨rfl, rfl, strLess_total x y hxy hyx⟩)
  · intro e
    rw [hij, hji, e, strLess_irrefl]
    exact ⟨rfl, rfl⟩

theorem ByVolumeID.Less_strict_total_order_witness :
    sliceIndex sampleListing 0 = some (some (sampleVolume "vol-2" "two")) ∧
    sliceIndex sampleListing 1 = some (some (sampleVolume "vol-10" "ten")) ∧
    ByVolumeID.Less sampleListing 0 1 = some false ∧
    ByVolumeID.Less sampleListing 1 0 = some true :=
  ⟨rfl, rfl,
    (ByVolumeID.Less_strict_total_order sampleListing 0 1 (sampleVolume "vol-2" "two")
      (sampleVolume "vol-10" "ten") rfl rfl).1.trans (by decide),
    (ByVolumeID.Less_strict_total_order sampleListing 1 0 (sampleVolume "vol-10" "ten")
      (sampleVolume "vol-2" "two") rfl rfl).1.trans (by decide)⟩

/-- C10: ascending by ID is byte-wise lexicographic order and not numeric order. Given
the slice holding a volume with ID "vol-2" and then one with ID "vol-10",
`SortVolumeByID` returns the volume with ID "vol-10" before the one with ID "vol-2". -/
theorem SortVolumeByID_bytewise_not_numeric (S : SortImpl) (hS : SortContract S)
    (v2 v10 : Volume) (h2 : v2.ID = goStr "vol-2") (h10 : v10.ID = goStr "vol-10") :
    SortVolumeByID S [some v2, some v10] = some [some v10, some v2] := by
  have hnn : NoNil [some v2, some v10] := by
    intro p hp
    simp only [List.mem_cons, List.mem_singleton, List.mem_nil_iff, or_false] at hp
    rcases hp with h | h <;> simp [h]
  have hd : DistinctIDs [some v2, some v10] := by
    unfold DistinctIDs idSequence
    simp only [List.map, Option.map, h2, h10]
    decide
  obtain ⟨out, hout, hperm, hsorted⟩ := SortVolumeByID_spec S hS _ hnn
  have hstrict := strictly_sorted_of_distinct out hsorted (distinctIDs_of_perm hperm hd)
  have htarget : [some v10, some v2].Pairwise
      (fun p q => ∃ v w, p = some v ∧ q = some w ∧ strLess v.ID w.ID = true) := by
    refine List.pairwise_cons.mpr ⟨?_, List.pairwise_singleton _ _⟩
    intro q hq
    have hq2 : q = some v2 := by simpa using hq
    refine ⟨v10, v2, rfl, hq2, ?_⟩
    rw [h2, h10]
    decide
  have e := eq_of_perm_of_strictly_sorted out [some v10, some v2]
    (hperm.trans (List.Perm.swap _ _ _)) hstrict htarget
  rw [hout, e]

theorem SortVolumeByID_bytewise_not_numeric_witness :
    SortContract insertionSortImpl ∧
    SortVolumeByID insertionSortImpl
        [some (sampleVolume "vol-2" "two"), some (sampleVolume "vol-10" "ten")] =
      some [some (sampleVolume "vol-10" "ten"), some (sampleVolume "vol-2" "two")] :=
  ⟨insertionSortImpl_contract,
    SortVolumeByID_bytewise_not_numeric insertionSortImpl insertionSortImpl_contract
      (sampleVolume "vol-2" "two") (sampleVolume "vol-10" "ten") rfl rfl⟩

/-! ## The claims about the service -/

/-- C5: volume removal is not idempotent. In every driver state that holds a volume
`id`, `VolumeRemove(id)` succeeds and leaves `id` absent, and `VolumeRemove(id)` on the
state it leaves, as on any state without `id`, fails with the envelope of status 404
and message "resource not found". -/
theorem VolumeRemove_not_idempotent (st : DriverState) (id : GoString)
    (h : st.hasVolume id = true) :
    ∃ st', st.VolumeRemove id = .ok st' ∧ st'.hasVolume id = false ∧
      st'.VolumeRemove id =
        .error { Status := 404, Message := goStr "resource not found" } ∧
      ∀ s : DriverState, s.hasVolume id = false →
        s.VolumeRemove id = .error { Status := 404, Message := goStr "resource not found" } := by
  have absent : ∀ s : DriverState, s.hasVolume id = false →
      s.VolumeRemove id = .error { Status := 404, Message := goStr "resource not found" } := by
    intro s hs
    simp [DriverState.VolumeRemove, hs, errNotFound]
  have gone : (DriverState.mk (st.volumes.filter (fun v => !decide (v.ID = id)))).hasVolume id
      = false := by
    simp [DriverState.hasVolume]
  refine ⟨{ volumes := st.volumes.filter (fun v => !decide (v.ID = id)) }, ?_, gone,
    absent _ gone, absent⟩
  simp [DriverState.VolumeRemove, h]

theorem VolumeRemove_not_idempotent_witness :
    mockSeed.hasVolume (goStr "vol-000") = true ∧
    ∃ st', mockSeed.VolumeRemove (goStr "vol-000") = .ok st' ∧
      st'.hasVolume (goStr "vol-000") = false ∧
      st'.VolumeRemove (goStr "vol-000") =
        .error { Status := 404, Message := goStr "resource not found" } := by
  have hseed : mockSeed.hasVolume (goStr "vol-000") = true := by decide
  obtain ⟨st', h1, h2, h3, _⟩ := VolumeRemove_not_idempotent mockSeed (goStr "vol-000") hseed
  exact ⟨hseed, st', h1, h2, h3⟩

/-- C6: for every volume-create request on an existing service, `VolumeCreate` returns a
volume whose Name, AvailabilityZone, IOPS, Size, Type and Opts are those of the
request. -/
theorem VolumeCreate_stores_request (reg : List Service) (service : GoString)
    (req : VolumeCreateRequest) (h : (findService reg service).isSome = true) :
    ∃ reg' v, VolumeCreate reg service req = .ok (reg', v) ∧
      v.Name = req.Name ∧ v.AvailabilityZone = req.AvailabilityZone ∧ v.IOPS = req.IOPS ∧
      v.Size = req.Size ∧ v.VolumeType = req.VolumeType ∧ v.Opts = req.Opts := by
  obtain ⟨sv, hsv⟩ := Option.isSome_iff_exists.mp h
  refine ⟨reg.map (fun s =>
      if s.Name = service then { s with State := (sv.State.VolumeCreate req).1 } else s),
    (sv.State.VolumeCreate req).2, ?_, rfl, rfl, rfl, rfl, rfl, rfl⟩
  simp only [VolumeCreate, hsv]

theorem VolumeCreate_stores_request_witness :
    (findService (newRegistry configYAML) (goStr "mock")).isSome = true ∧
    ∃ reg' v, VolumeCreate (newRegistry configYAML) (goStr "mock") volumeCreateRequest
        = .ok (reg', v) ∧
      v.Name = goStr "Volume 001" ∧ v.AvailabilityZone = goStr "US" ∧ v.IOPS = 1000 ∧
      v.Size = 10240 ∧ v.VolumeType = goStr "myType" ∧
      v.Opts = [(goStr "priority", .num 2), (goStr "owner", .str (goStr "root@example.com"))] :=
  ⟨by decide,
    VolumeCreate_stores_request (newRegistry configYAML) (goStr "mock") volumeCreateRequest
      (by decide)⟩

/-- C7: the service registry holds exactly the configured services. For a configuration
with default driver `D` and the services `S` under `server.services`, `ServicesList`
returns a mapping whose keys are pairwise distinct, are `D` and the names of `S` and no
others, and number `|{D} ∪ S|`; for driver `mock` with services `mock2` and `mock3`
these are the three entries `mock`, `mock2`, `mock3`. -/
theorem ServicesList_exactly_configured (c : Config) :
    ((ServicesList (newRegistry c)).map Prod.fst).Nodup ∧
    (∀ n, n ∈ (ServicesList (newRegistry c)).map Prod.fst ↔ n = c.driver ∨ n ∈ c.services) ∧
    (ServicesList (newRegistry c)).length = (c.driver :: c.services).toFinset.card ∧
    (ServicesList (newRegistry configYAML)).map Prod.fst
      = [goStr "mock", goStr "mock2", goStr "mock3"] := by
  have keys : (ServicesList (newRegistry c)).map Prod.fst = (c.driver :: c.services).dedup := by
    simp [ServicesList, newRegistry, List.map_map, Function.comp_def]
  refine ⟨?_, ?_, ?_, ?_⟩
  · rw [keys]
    exact List.nodup_dedup _
  · intro n
    rw [keys, List.mem_dedup, List.mem_cons]
  · rw [List.card_toFinset, ← keys, List.length_map]
  · decide

theorem executorNames_nodup : executorNames.Nodup := by decide

theorem sharedExecutors_registered :
    (sharedExecutors.map Executor.Name).Perm executorNames := List.Perm.refl _

/-- C8, as stated, fails: that the three probes succeed does not make their results
non-empty or pairwise distinct. In a registry that holds the three platform variants
with one and the same empty payload, the probes for "lsx-linux", "lsx-darwin" and
"lsx-windows.exe" all succeed with the same result, of size 0. -/
theorem ExecutorInfoInspect_results_not_distinct :
    (sharedExecutors.map Executor.Name).Perm executorNames ∧
    ExecutorInfoInspect sharedExecutors (goStr "lsx-linux") false =
      .ok { Size := 0, Checksum := emptyChecksum, Content := none } ∧
    ExecutorInfoInspect sharedExecutors (goStr "lsx-darwin") false =
      .ok { Size := 0, Checksum := emptyChecksum, Content := none } ∧
    ExecutorInfoInspect sharedExecutors (goStr "lsx-windows.exe") false =
      .ok { Size := 0, Checksum := emptyChecksum, Content := none } ∧
    ¬ (∀ name ∈ executorNames, ∃ info,
        ExecutorInfoInspect sharedExecutors name false = .ok info ∧
        0 < info.Size ∧ info.Checksum ≠ []) ∧
    ¬ (∀ n₁ ∈ executorNames, ∀ n₂ ∈ executorNames, n₁ ≠ n₂ →
        ExecutorInfoInspect sharedExecutors n₁ false ≠
          ExecutorInfoInspect sharedExecutors n₂ false) := by
  have hl : ExecutorInfoInspect sharedExecutors (goStr "lsx-linux") false =
      .ok { Size := 0, Checksum := emptyChecksum, Content := none } := rfl
  have hd : ExecutorInfoInspect sharedExecutors (goStr "lsx-darwin") false =
      .ok { Size := 0, Checksum := emptyChecksum, Content := none } := rfl
  refine ⟨sharedExecutors_registered, hl, hd, rfl, ?_, ?_⟩
  · intro hne
    obtain ⟨info, hinfo, hsize, _⟩ := hne (goStr "lsx-linux") (by decide)
    rw [hl] at hinfo
    rw [← Except.ok.inj hinfo] at hsize
    exact absurd hsize (by decide)
  · intro hdist
    exact hdist (goStr "lsx-linux") (by decide) (goStr "lsx-darwin") (by decide) (by decide)
      (hl.trans hd.symm)

/-- C8, as amended: executor selection is exact match on the platform name. With the
three platform variants registered, the probe `ExecutorInfoInspect(name, false)`
succeeds for each registered executor with the size and checksum registered for it and
no payload, each of "lsx-linux", "lsx-darwin" and "lsx-windows.exe" is the name of a
registered executor, and every other name fails with ExecutorNotFound. The results are
non-empty and pairwise distinct where the registered sizes and checksums are. -/
theorem ExecutorInfoInspect_exact_match (reg : List Executor)
    (hreg : (reg.map Executor.Name).Perm executorNames) :
    (∀ e ∈ reg, ExecutorInfoInspect reg e.Name false =
      .ok { Size := e.Size, Checksum := e.Checksum, Content := none }) ∧
    (∀ name ∈ executorNames, ∃ e ∈ reg, e.Name = name) ∧
    (∀ name, name ∉ executorNames →
      ExecutorInfoInspect reg name false = .error .ExecutorNotFound) ∧
    ((∀ e ∈ reg, 0 < e.Size ∧ e.Checksum ≠ []) →
      reg.Pairwise (fun e f => ¬ (e.Size = f.Size ∧ e.Checksum = f.Checksum)) →
      (∀ name ∈ executorNames, ∃ info, ExecutorInfoInspect reg name false = .ok info ∧
        0 < info.Size ∧ info.Checksum ≠ [] ∧ info.Content = none) ∧
      (∀ n₁ ∈ executorNames, ∀ n₂ ∈ executorNames, n₁ ≠ n₂ →
        ExecutorInfoInspect reg n₁ false ≠ ExecutorInfoInspect reg n₂ false)) := by
  have hnodup : (reg.map Executor.Name).Nodup :=
    (List.Perm.nodup_iff hreg).mpr executorNames_nodup
  have registered : ∀ name ∈ executorNames, ∃ e ∈ reg, e.Name = name := by
    intro name hname
    have hmem : name ∈ reg.map Executor.Name := hreg.symm.subset hname
    obtain ⟨e, he, hn⟩ := List.mem_map.mp hmem
    exact ⟨e, he, hn⟩
  have probe : ∀ e ∈ reg, ExecutorInfoInspect reg e.Name false =
      .ok { Size := e.Size, Checksum := e.Checksum, Content := none } := by
    intro e he
    cases hf : reg.find? (fun x => decide (x.Name = e.Name)) with
    | none =>
      have := List.find?_eq_none.mp hf e he
      simp at this
    | some x =>
      have hp : x.Name = e.Name := by simpa using List.find?_some hf
      have hx : x ∈ reg := List.mem_of_find?_eq_some hf
      have hxe : x = e := List.inj_on_of_nodup_map hnodup hx he hp
      simp [ExecutorInfoInspect, hf, hxe]
  refine ⟨probe, registered, ?_, ?_⟩
  · intro name hname
    have hf : reg.find? (fun e => decide (e.Name = name)) = none := by
      rw [List.find?_eq_none]
      intro e he hdec
      have hp : e.Name = name := by simpa using hdec
      exact hname (hreg.subset (hp ▸ List.mem_map_of_mem Executor.Name he))
    simp [ExecutorInfoInspect, hf]
  · intro hne hdist
    constructor
    · intro name hname
      obtain ⟨e, he, hn⟩ := registered name hname
      exact ⟨_, hn ▸ probe e he, (hne e he).1, (hne e he).2, rfl⟩
    · intro n₁ h₁ n₂ h₂ hneq heq
      obtain ⟨e₁, he₁, hn₁⟩ := registered n₁ h₁
      obtain ⟨e₂, he₂, hn₂⟩ := registered n₂ h₂
      have hne12 : e₁ ≠ e₂ := fun e => hneq (by rw [← hn₁, ← hn₂, e])
      have hsym : Symmetric
          (fun e f : Executor => ¬ (e.Size = f.Size ∧ e.Checksum = f.Checksum)) :=
        fun e f hef hfe => hef ⟨hfe.1.symm, hfe.2.symm⟩
      have hd := hdist.forall hsym he₁ he₂ hne12
      rw [← hn₁, ← hn₂, probe e₁ he₁, probe e₂ he₂] at heq
      have hinfo := Except.ok.inj heq
      exact hd ⟨congrArg ExecutorInfo.Size hinfo, congrArg ExecutorInfo.Checksum hinfo⟩

theorem ExecutorInfoInspect_exact_match_witness :
    (sampleExecutors.map Executor.Name).Perm executorNames ∧
    ExecutorInfoInspect sampleExecutors (goStr "lsx-linux") false
      = .ok { Size := 3, Checksum := goStr "c-linux", Content := none } ∧
    ExecutorInfoInspect sampleExecutors (goStr "lsx") false = .error .ExecutorNotFound ∧
    (∀ e ∈ sampleExecutors, ExecutorInfoInspect sampleExecutors e.Name false =
      .ok { Size := e.Size, Checksum := e.Checksum, Content := none }) ∧
    (∀ name ∈ executorNames, ∃ e ∈ sampleExecutors, e.Name = name) ∧
    (∀ name, name ∉ executorNames →
      ExecutorInfoInspect sampleExecutors name false = .error .ExecutorNotFound) :=
  ⟨List.Perm.refl _, rfl, rfl,
    (ExecutorInfoInspect_exact_match sampleExecutors (List.Perm.refl _)).1,
    (ExecutorInfoInspect_exact_match sampleExecutors (List.Perm.refl _)).2.1,
    (ExecutorInfoInspect_exact_match sampleExecutors (List.Perm.refl _)).2.2.1⟩

/-! ## The later claims about `SortVolumeByID` and `ByVolumeID.Swap` -/

theorem sliceIndex_inRange {α : Type} {a : List α} {i : Int} {x : α}
    (h : sliceIndex a i = some x) : 0 ≤ i ∧ i < (a.length : Int) := by
  obtain ⟨h0, hx⟩ := sliceIndex_eq_some h
  have hlt : i.toNat < a.length := by
    by_contra hge
    rw [List.getElem?_eq_none (by omega)] at hx
    exact absurd hx (by simp)
  exact ⟨h0, by omega⟩

theorem ByVolumeID.Less_inRange {a : ByVolumeID} {i j : Int} {b : Bool}
    (h : ByVolumeID.Less a i j = some b) :
    0 ≤ i ∧ i < (a.length : Int) ∧ 0 ≤ j ∧ j < (a.length : Int) := by
  simp only [ByVolumeID.Less, bind, Option.bind_eq_some] at h
  obtain ⟨pi, hpi, _, _, pj, hpj, _⟩ := h
  exact ⟨(sliceIndex_inRange hpi).1, (sliceIndex_inRange hpi).2,
    (sliceIndex_inRange hpj).1, (sliceIndex_inRange hpj).2⟩

theorem ByVolumeID.Swap_inRange {a b : ByVolumeID} {i j : Int}
    (h : ByVolumeID.Swap a i j = some b) :
    0 ≤ i ∧ i < (a.length : Int) ∧ 0 ≤ j ∧ j < (a.length : Int) := by
  simp only [ByVolumeID.Swap, bind, Option.bind_eq_some] at h
  obtain ⟨aj, haj, ai, hai, _⟩ := h
  exact ⟨(sliceIndex_inRange hai).1, (sliceIndex_inRange hai).2,
    (sliceIndex_inRange haj).1, (sliceIndex_inRange haj).2⟩

/-- In a run that does not panic, every index passed to `Less` and `Swap` is within the
slice. -/
theorem SortProg.calls_inRange : ∀ (p : SortProg) (a b : ByVolumeID),
    p.run ByVolumeID.sortInterface a = some b →
    ∀ c ∈ p.calls ByVolumeID.sortInterface a,
      0 ≤ c.1 ∧ c.1 < (a.length : Int) ∧ 0 ≤ c.2 ∧ c.2 < (a.length : Int)
  | .done, _, _, _, c, hc => by simp [SortProg.calls] at hc
  | .less i j k, a, b, h, c, hc => by
    simp only [SortProg.run, Option.bind_eq_some] at h
    obtain ⟨r, hr, hk⟩ := h
    have hr2 : ByVolumeID.Less a i j = some r := hr
    have hcalls : (SortProg.less i j k).calls ByVolumeID.sortInterface a =
        (i, j) :: (k r).calls ByVolumeID.sortInterface a := by
      rw [SortProg.calls, hr]
    rw [hcalls] at hc
    rcases List.mem_cons.mp hc with hc | hc
    · rw [hc]
      exact ByVolumeID.Less_inRange hr2
    · exact SortProg.calls_inRange (k r) a b hk c hc
  | .swap i j k, a, b, h, c, hc => by
    simp only [SortProg.run, Option.bind_eq_some] at h
    obtain ⟨a1, h1, hk⟩ := h
    have h2 : ByVolumeID.Swap a i j = some a1 := h1
    have hlen : a1.length = a.length := (ByVolumeID.Swap_perm a a1 i j h2).length_eq
    have hcalls : (SortProg.swap i j k).calls ByVolumeID.sortInterface a =
        (i, j) :: k.calls ByVolumeID.sortInterface a1 := by
      rw [SortProg.calls, h1]
    rw [hcalls] at hc
    rcases List.mem_cons.mp hc with hc | hc
    · rw [hc]
      exact ByVolumeID.Swap_inRange h2
    · have := SortProg.calls_inRange k a1 b hk c hc
      rwa [hlen] at this

/-- C11: on every slice of volumes without a nil element, `SortVolumeByID` completes
without a panic. The call returns; every index that reaches `Less` or `Swap` lies in
`[0, Len)`, so that no index is out of range and no nil pointer is dereferenced; an
empty slice (the nil slice is one) comes back empty, and a slice of one element comes
back as it is. -/
theorem SortVolumeByID_no_panic (S : SortImpl) (hS : SortContract S)
    (volumes : List (Option Volume)) (hnn : NoNil volumes) :
    ∃ out, SortVolumeByID S volumes = some out ∧
      (∀ c ∈ sortCalls S volumes,
        0 ≤ c.1 ∧ c.1 < ByVolumeID.Len volumes ∧ 0 ≤ c.2 ∧ c.2 < ByVolumeID.Len volumes) ∧
      (volumes = [] → out = []) ∧ (∀ p, volumes = [p] → out = [p]) := by
  obtain ⟨out, hout, hperm, _⟩ := SortVolumeByID_spec S hS volumes hnn
  refine ⟨out, hout, ?_, ?_, ?_⟩
  · have hrun := hout
    rw [SortVolumeByID_eq] at hrun
    exact SortProg.calls_inRange _ volumes out hrun
  · intro he
    rw [he] at hperm
    exact List.Perm.eq_nil hperm
  · intro p he
    rw [he] at hperm
    exact List.perm_singleton.mp hperm

theorem SortVolumeByID_no_panic_witness :
    SortContract insertionSortImpl ∧ NoNil sampleListing ∧
    sortCalls insertionSortImpl sampleListing = [(1, 0), (1, 0), (2, 1), (2, 1), (1, 0), (1, 0)] ∧
    ∃ out, SortVolumeByID insertionSortImpl sampleListing = some out ∧
      (∀ c ∈ sortCalls insertionSortImpl sampleListing,
        0 ≤ c.1 ∧ c.1 < ByVolumeID.Len sampleListing ∧
        0 ≤ c.2 ∧ c.2 < ByVolumeID.Len sampleListing) ∧
      (sampleListing = [] → out = []) ∧ (∀ p, sampleListing = [p] → out = [p]) :=
  ⟨insertionSortImpl_contract, sampleListing_noNil, rfl,
    SortVolumeByID_no_panic insertionSortImpl insertionSortImpl_contract sampleListing
      sampleListing_noNil⟩

/-- C12: also where IDs repeat, the sequence of IDs of the sorted listing does not
depend on the order of the input. For two slices of non-nil volumes that are
permutations of each other, the IDs read off the two outputs of `SortVolumeByID` are
the same sequence. -/
theorem SortVolumeByID_idSequence_order_independent (S : SortImpl) (hS : SortContract S)
    (volumes₁ volumes₂ : List (Option Volume)) (hperm : volumes₁.Perm volumes₂)
    (hnn : NoNil volumes₁) :
    ∃ out₁ out₂, SortVolumeByID S volumes₁ = some out₁ ∧
      SortVolumeByID S volumes₂ = some out₂ ∧ idSequence out₁ = idSequence out₂ := by
  obtain ⟨out₁, h₁, p₁, s₁⟩ := SortVolumeByID_spec S hS volumes₁ hnn
  obtain ⟨out₂, h₂, p₂, s₂⟩ := SortVolumeByID_spec S hS volumes₂ (noNil_of_perm hperm.symm hnn)
  exact ⟨out₁, out₂, h₁, h₂,
    idSequence_eq_of_perm_of_sorted out₁ out₂ ((p₁.trans hperm).trans p₂.symm) s₁ s₂⟩

theorem SortVolumeByID_idSequence_order_independent_witness :
    SortContract heapSortImpl ∧ twinListing.Perm twinListingSwapped ∧ NoNil twinListing ∧
    SortVolumeByID heapSortImpl twinListing ≠ SortVolumeByID heapSortImpl twinListingSwapped ∧
    ∃ out₁ out₂, SortVolumeByID heapSortImpl twinListing = some out₁ ∧
      SortVolumeByID heapSortImpl twinListingSwapped = some out₂ ∧
      idSequence out₁ = idSequence out₂ := by
  have hnn : NoNil twinListing := by
    intro p hp
    simp only [twinListing, List.mem_cons, List.mem_singleton, List.mem_nil_iff,
      or_false] at hp
    rcases hp with h | h <;> simp [h]
  have hperm : twinListing.Perm twinListingSwapped := List.Perm.swap _ _ _
  have h1 : SortVolumeByID heapSortImpl twinListing = some twinListingSwapped := rfl
  have h2 : SortVolumeByID heapSortImpl twinListingSwapped = some twinListing := rfl
  have hne : SortVolumeByID heapSortImpl twinListing ≠
      SortVolumeByID heapSortImpl twinListingSwapped := by
    rw [h1, h2]
    intro h
    have hn := congrArg (fun l => l.map (fun p => p.map Volume.Name)) (Option.some.inj h)
    revert hn
    decide
  exact ⟨heapSortImpl_contract, hperm, hnn, hne,
    SortVolumeByID_idSequence_order_independent heapSortImpl heapSortImpl_contract
      twinListing twinListingSwapped hperm hnn⟩

theorem swapAt_swapAt {α : Type} (xs : List α) (i j : Nat)
    (hi : i < xs.length) (hj : j < xs.length) : swapAt (swapAt xs i j) i j = xs := by
  apply List.ext_getElem?
  intro m
  have hi2 : i < (swapAt xs i j).length := by rw [swapAt_length]; exact hi
  have hj2 : j < (swapAt xs i j).length := by rw [swapAt_length]; exact hj
  rw [getElem?_swapAt _ i j m hi2 hj2, getElem?_swapAt xs i j i hi hj,
    getElem?_swapAt xs i j j hi hj, getElem?_swapAt xs i j m hi hj]
  by_cases hmj : m = j
  · subst hmj
    by_cases hmi : i = m
    · simp [hmi]
    · simp [hmi]
  · by_cases hmi : m = i
    · subst hmi
      simp [hmj]
    · simp [hmj, hmi]

theorem swapAt_self {α : Type} (xs : List α) (i : Nat) (hi : i < xs.length) :
    swapAt xs i i = xs := by
  apply List.ext_getElem?
  intro m
  rw [getElem?_swapAt xs i i m hi hi]
  by_cases hm : m = i
  · simp [hm]
  · simp [hm]

theorem ByVolumeID.Swap_natCast (a : ByVolumeID) (i j : Nat)
    (hi : i < a.length) (hj : j < a.length) :
    ByVolumeID.Swap a (i : Int) (j : Int) = some (swapAt a i j) := by
  have h := sliceSwap_natCast (fun _ _ => false) a i j hi hj
  simpa [sliceInterface, ByVolumeID.Swap] using h

/-- C14: `ByVolumeID.Swap` exchanges exactly two positions. For a slice `a` and indices
`i`, `j` in range, `Swap(i, j)` does not panic; afterwards position `i` holds the old
`a[j]` and position `j` the old `a[i]`, every other position holds what it held, and
`Len` is what it was. So `Swap(i, j)` applied a second time restores the slice, and
`Swap(i, i)` changes nothing. -/
theorem ByVolumeID.Swap_exchanges_two_positions (a : ByVolumeID) (i j : Int)
    (hi : 0 ≤ i ∧ i < ByVolumeID.Len a) (hj : 0 ≤ j ∧ j < ByVolumeID.Len a) :
    ∃ b, ByVolumeID.Swap a i j = some b ∧
      sliceIndex b i = sliceIndex a j ∧ sliceIndex b j = sliceIndex a i ∧
      (∀ k : Int, k ≠ i → k ≠ j → sliceIndex b k = sliceIndex a k) ∧
      ByVolumeID.Len b = ByVolumeID.Len a ∧
      ByVolumeID.Swap b i j = some a ∧ ByVolumeID.Swap a i i = some a := by
  unfold ByVolumeID.Len at hi hj ⊢
  obtain ⟨n, hn⟩ := Int.eq_ofNat_of_zero_le hi.1
  obtain ⟨m, hm⟩ := Int.eq_ofNat_of_zero_le hj.1
  subst hn
  subst hm
  have hnl : n < a.length := by omega
  have hml : m < a.length := by omega
  have hget : ∀ k, (swapAt a n m)[k]? =
      if k = m then a[n]? else if k = n then a[m]? else a[k]? :=
    fun k => getElem?_swapAt a n m k hnl hml
  refine ⟨swapAt a n m, ByVolumeID.Swap_natCast a n m hnl hml, ?_, ?_, ?_, ?_, ?_, ?_⟩
  · rw [sliceIndex_natCast, sliceIndex_natCast, hget n]
    by_cases h : n = m
    · simp [h]
    · simp [h]
  · rw [sliceIndex_natCast, sliceIndex_natCast, hget m]
    simp
  · intro k hkn hkm
    by_cases hk : 0 ≤ k
    · obtain ⟨l, hl⟩ := Int.eq_ofNat_of_zero_le hk
      subst hl
      have h1 : l ≠ n := fun e => hkn (by rw [e])
      have h2 : l ≠ m := fun e => hkm (by rw [e])
      rw [sliceIndex_natCast, sliceIndex_natCast, hget l]
      simp [h1, h2]
    · simp [sliceIndex, hk]
  · rw [swapAt_length]
  · have := ByVolumeID.Swap_natCast (swapAt a n m) n m (by rw [swapAt_length]; exact hnl)
      (by rw [swapAt_length]; exact hml)
    rw [this, swapAt_swapAt a n m hnl hml]
  · rw [ByVolumeID.Swap_natCast a n n hnl hnl, swapAt_self a n hnl]

theorem ByVolumeID.Swap_exchanges_two_positions_witness :
    (0 ≤ (0 : Int) ∧ (0 : Int) < ByVolumeID.Len sampleListing) ∧
    (0 ≤ (2 : Int) ∧ (2 : Int) < ByVolumeID.Len sampleListing) ∧
    ByVolumeID.Swap sampleListing 0 2 =
      some [some (sampleVolume "vol-1" "one"), some (sampleVolume "vol-10" "ten"),
        some (sampleVolume "vol-2" "two")] ∧
    ∃ b, ByVolumeID.Swap sampleListing 0 2 = some b ∧
      sliceIndex b 0 = sliceIndex sampleListing 2 ∧
      sliceIndex b 2 = sliceIndex sampleListing 0 ∧
      (∀ k : Int, k ≠ 0 → k ≠ 2 → sliceIndex b k = sliceIndex sampleListing k) ∧
      ByVolumeID.Len b = ByVolumeID.Len sampleListing ∧
      ByVolumeID.Swap b 0 2 = some sampleListing ∧
      ByVolumeID.Swap sampleListing 0 0 = some sampleListing :=
  ⟨by decide, by decide, rfl,
    ByVolumeID.Swap_exchanges_two_positions sampleListing 0 2 (by decide) (by decide)⟩

/-! ## `SortVolumeByID` on a slice in memory -/

theorem SliceHeader.read_length (sl : SliceHeader) (mem : Memory) :
    (sl.read mem).length = sl.len := by
  simp [SliceHeader.read]

theorem SliceHeader.getElem?_read (sl : SliceHeader) (mem : Memory) (n : Nat) :
    (sl.read mem)[n]? = if n < sl.len then some (mem (sl.data + n)) else none := by
  unfold SliceHeader.read
  by_cases h : n < sl.len
  · rw [if_pos h, List.getElem?_map, List.getElem?_range h]
    rfl
  · rw [if_neg h]
    exact List.getElem?_eq_none (by simpa using h)

theorem SliceHeader.read_update (sl : SliceHeader) (mem : Memory) (n : Nat)
    (x : Option Volume) :
    sl.read (Function.update mem (sl.data + n) x) = (sl.read mem).set n x := by
  apply List.ext_getElem?
  intro k
  rw [SliceHeader.getElem?_read, List.getElem?_set, SliceHeader.getElem?_read,
    SliceHeader.read_length]
  by_cases hk : k < sl.len
  · by_cases hkn : n = k
    · subst hkn
      simp [hk]
    · have hne : sl.data + k ≠ sl.data + n := by omega
      simp [hk, hkn, Function.update_noteq hne]
  · by_cases hkn : n = k
    · subst hkn
      simp [hk]
    · simp [hk, hkn]

theorem memIndex_eq_sliceIndex (mem : Memory) (a : SliceHeader) (i : Int) :
    memIndex mem a i = sliceIndex (a.read mem) i := by
  unfold memIndex sliceIndex
  by_cases h0 : 0 ≤ i
  · rw [if_pos h0, SliceHeader.getElem?_read]
    by_cases hl : i.toNat < a.len
    · rw [if_pos ⟨h0, hl⟩, if_pos hl]
    · rw [if_neg (fun h => hl h.2), if_neg hl]
  · rw [if_neg h0, if_neg (fun h => h0 h.1)]

theorem memAssign_read (mem : Memory) (a : SliceHeader) (i : Int) (x : Option Volume) :
    (memAssign mem a i x).map a.read = sliceAssign (a.read mem) i x := by
  unfold memAssign sliceAssign
  rw [SliceHeader.read_length]
  by_cases h : 0 ≤ i ∧ i.toNat < a.len
  · rw [if_pos h, if_pos h, Option.map_some', SliceHeader.read_update]
  · rw [if_neg h, if_neg h]
    rfl

theorem memAssign_frame {mem mem1 : Memory} {a : SliceHeader} {i : Int} {x : Option Volume}
    (h : memAssign mem a i x = some mem1) (addr : Nat)
    (hout : addr < a.data ∨ a.data + a.len ≤ addr) : mem1 addr = mem addr := by
  unfold memAssign at h
  by_cases hc : 0 ≤ i ∧ i.toNat < a.len
  · rw [if_pos hc] at h
    rw [← Option.some.inj h]
    exact Function.update_noteq (by omega) _ _
  · rw [if_neg hc] at h
    exact absurd h (by simp)

theorem InPlace.Less_eq (a : SliceHeader) (mem : Memory) (i j : Int) :
    InPlace.Less a mem i j = ByVolumeID.Less (a.read mem) i j := by
  simp only [InPlace.Less, ByVolumeID.Less, memIndex_eq_sliceIndex]

theorem InPlace.Swap_read (a : SliceHeader) (mem : Memory) (i j : Int) :
    (InPlace.Swap a mem i j).map a.read = ByVolumeID.Swap (a.read mem) i j := by
  simp only [InPlace.Swap, ByVolumeID.Swap, memIndex_eq_sliceIndex, bind]
  cases sliceIndex (a.read mem) j with
  | none => rfl
  | some aj =>
    cases sliceIndex (a.read mem) i with
    | none => rfl
    | some ai =>
      simp only [Option.some_bind]
      have h1 := memAssign_read mem a i aj
      cases hm : memAssign mem a i aj with
      | none =>
        rw [hm] at h1
        rw [← h1]
        rfl
      | some mem1 =>
        rw [hm] at h1
        rw [← h1]
        simp only [Option.map_some', Option.some_bind]
        exact memAssign_read mem1 a j ai

theorem InPlace.Swap_frame {a : SliceHeader} {mem mem2 : Memory} {i j : Int}
    (h : InPlace.Swap a mem i j = some mem2) (addr : Nat)
    (hout : addr < a.data ∨ a.data + a.len ≤ addr) : mem2 addr = mem addr := by
  simp only [InPlace.Swap, bind, Option.bind_eq_some] at h
  obtain ⟨_, _, _, _, mem1, h1, h2⟩ := h
  rw [memAssign_frame h2 addr hout, memAssign_frame h1 addr hout]

/-- A procedure run on the slice in memory leaves in the slice what the same procedure
run on the content of the slice yields, and panics where that one does. -/
theorem SortProg.run_inPlace (a : SliceHeader) : ∀ (p : SortProg) (mem : Memory),
    (p.run (InPlace.sortInterface a) mem).map a.read =
      p.run ByVolumeID.sortInterface (a.read mem)
  | .done, mem => rfl
  | .less i j k, mem => by
    simp only [SortProg.run]
    have hl : (InPlace.sortInterface a).Less mem i j =
        ByVolumeID.sortInterface.Less (a.read mem) i j := InPlace.Less_eq a mem i j
    rw [hl]
    cases ByVolumeID.sortInterface.Less (a.read mem) i j with
    | none => rfl
    | some b => exact SortProg.run_inPlace a (k b) mem
  | .swap i j k, mem => by
    simp only [SortProg.run]
    have hs : ((InPlace.sortInterface a).Swap mem i j).map a.read =
        ByVolumeID.sortInterface.Swap (a.read mem) i j := InPlace.Swap_read a mem i j
    rw [← hs]
    cases (InPlace.sortInterface a).Swap mem i j with
    | none => rfl
    | some mem1 => exact SortProg.run_inPlace a k mem1

/-- A procedure run on the slice in memory writes no cell outside the slice. -/
theorem SortProg.run_frame (a : SliceHeader) : ∀ (p : SortProg) (mem mem2 : Memory),
    p.run (InPlace.sortInterface a) mem = some mem2 →
    ∀ addr, (addr < a.data ∨ a.data + a.len ≤ addr) → mem2 addr = mem addr
  | .done, mem, mem2, h, addr, _ => by
    have e : mem = mem2 := by simpa [SortProg.run] using h
    rw [e]
  | .less i j k, mem, mem2, h, addr, hout => by
    simp only [SortProg.run, Option.bind_eq_some] at h
    obtain ⟨b, _, hk⟩ := h
    exact SortProg.run_frame a (k b) mem mem2 hk addr hout
  | .swap i j k, mem, mem2, h, addr, hout => by
    simp only [SortProg.run, Option.bind_eq_some] at h
    obtain ⟨mem1, h1, hk⟩ := h
    have h1b : InPlace.Swap a mem i j = some mem1 := h1
    rw [SortProg.run_frame a k mem1 mem2 hk addr hout, InPlace.Swap_frame h1b addr hout]

/-- C13: `SortVolumeByID` sorts in place and returns its argument. For a slice of
non-nil volumes in memory the call returns the very slice value it was given, and the
memory after the call holds in that slice the sorted sequence, which is therefore what
the caller's slice and the returned slice both show; no cell outside the slice is
written. A sequence that was not in ascending order of ID is not retained. -/
theorem SortVolumeByID_in_place (S : SortImpl) (hS : SortContract S) (mem : Memory)
    (volumes : SliceHeader) (hnn : NoNil (volumes.read mem)) :
    ∃ mem1, InPlace.SortVolumeByID S mem volumes = some (mem1, volumes) ∧
      SortVolumeByID S (volumes.read mem) = some (volumes.read mem1) ∧
      (∀ addr, (addr < volumes.data ∨ volumes.data + volumes.len ≤ addr) →
        mem1 addr = mem addr) ∧
      (¬ (volumes.read mem).Pairwise
          (fun p q => ∃ v w, p = some v ∧ q = some w ∧ strLess w.ID v.ID = false) →
        volumes.read mem1 ≠ volumes.read mem) := by
  obtain ⟨out, hout, _, hsorted⟩ := SortVolumeByID_spec S hS (volumes.read mem) hnn
  have hsim := SortProg.run_inPlace volumes (S (volumes.len : Int)) mem
  have hpure : (S (volumes.len : Int)).run ByVolumeID.sortInterface (volumes.read mem) =
      some out := by
    rw [SortVolumeByID_eq, SliceHeader.read_length] at hout
    exact hout
  rw [hpure] at hsim
  cases hrun : (S (volumes.len : Int)).run (InPlace.sortInterface volumes) mem with
  | none =>
    rw [hrun] at hsim
    exact absurd hsim (by simp)
  | some mem1 =>
    rw [hrun] at hsim
    have hread : volumes.read mem1 = out := by simpa using hsim
    refine ⟨mem1, ?_, ?_, ?_, ?_⟩
    · have hss : sortSort S (InPlace.sortInterface volumes) mem = some mem1 := hrun
      simp [InPlace.SortVolumeByID, hss, bind, pure]
    · rw [hread]
      rw [SortVolumeByID_eq, SliceHeader.read_length]
      exact hpure
    · exact SortProg.run_frame volumes _ mem mem1 hrun
    · intro hns he
      rw [← he, hread] at hns
      exact hns hsorted

theorem SortVolumeByID_in_place_witness :
    SortContract insertionSortImpl ∧ sampleSlice.read sampleMemory = sampleListing ∧
    NoNil (sampleSlice.read sampleMemory) ∧
    ∃ mem1, InPlace.SortVolumeByID insertionSortImpl sampleMemory sampleSlice =
        some (mem1, sampleSlice) ∧
      SortVolumeByID insertionSortImpl (sampleSlice.read sampleMemory) =
        some (sampleSlice.read mem1) ∧
      (∀ addr, (addr < sampleSlice.data ∨ sampleSlice.data + sampleSlice.len ≤ addr) →
        mem1 addr = sampleMemory addr) ∧
      (¬ (sampleSlice.read sampleMemory).Pairwise
          (fun p q => ∃ v w, p = some v ∧ q = some w ∧ strLess w.ID v.ID = false) →
        sampleSlice.read mem1 ≠ sampleSlice.read sampleMemory) :=
  ⟨insertionSortImpl_contract, rfl, sampleListing_noNil,
    SortVolumeByID_in_place insertionSortImpl insertionSortImpl_contract sampleMemory
      sampleSlice sampleListing_noNil⟩

end Libstorage
